import Mathlib

/-! # Consul property source: hierarchical map builder and property provider

A shallow embedding of `consul-propertysource/propertiessource.go` and of the client of
`consul-propertysource/client.go`: the watch loop, the login, the credential and its
refresher.

Conventions of the embedding:

* a Go `string` is a sequence of bytes; it is embedded as a `List Char`, one list
  element per byte, so `len(s)` is `List.length`;
* a Go `map[string]interface{}` whose values are strings or nested maps is embedded as an
  association list with pairwise distinct keys (`ConfigMap`); Go maps are unordered, so two
  maps are compared with `deepEqual`, which ignores the order of the entries;
* a run-time panic of the Go code is a value of `Fault` in the `Except` monad;
* slices of pointers that the code mutates in place (`consulApi.KVPairs`) are passed in and
  handed back explicitly.
* what the code meets outside itself (the answers of the store, of the token provider and of
  the exchange, the clock) is given to the embedded functions as arguments; a goroutine is
  embedded as the sequence of its steps.
-/

namespace Consul

/-- A Go string: a sequence of bytes. -/
abbrev GoString := List Char

/-- A readable way to write a byte string. -/
def str (s : String) : GoString := s.toList

/-- A Go `error` value, identified by its message. -/
abbrev GoError := GoString

/-- The ways in which the embedded code can stop without returning. -/
inductive Fault where
  /-- The type assertion `x.(map[string]interface{})` on a value that is not a map. -/
  | typeAssertion : Fault
  /-- The call `logger.Panicf`. -/
  | loggerPanic : Fault
  /-- An index expression outside the bounds of a slice. -/
  | indexOutOfRange : Fault
  /-- The recursion budget of the embedding is used up (an artefact of the embedding). -/
  | outOfFuel : Fault
  /-- A field selected through a `nil` pointer. -/
  | nilDereference : Fault
  /-- The panic of `time.NewTicker(d)` and of `Ticker.Reset(d)` for `d <= 0`. -/
  | nonPositiveInterval (d : Int) : Fault
  /-- The call of a `nil` function value. -/
  | nilFunctionCall : Fault
  /-- A slice expression `s[low:]` with `low` greater than the length of `s`. -/
  | sliceBoundsOutOfRange : Fault
  deriving DecidableEq, Repr

/-! ## The parts of package `strings` that the code uses -/

/-- Go `strings.HasPrefix`. -/
def HasPrefix (s pfx : GoString) : Bool := pfx.isPrefixOf s

/-- Go `strings.HasSuffix`. -/
def HasSuffix (s sfx : GoString) : Bool := sfx.isSuffixOf s

/-- Go `strings.TrimPrefix`: `s` without the leading `pfx`, or `s` itself when `s` does not
start with `pfx`. -/
def TrimPrefix (s pfx : GoString) : GoString :=
  if HasPrefix s pfx then s.drop pfx.length else s

/-- Go `strings.Contains`: `substr` occurs in `s` as a contiguous run of bytes. -/
def Contains : GoString → GoString → Bool
  | [], substr => substr.isEmpty
  | c :: cs, substr => HasPrefix (c :: cs) substr || Contains cs substr

/-- Go `strings.ReplaceAll` for one-byte `old` and `new`. -/
def ReplaceAll (s : GoString) (old new : Char) : GoString :=
  s.map (fun c => if c = old then new else c)

/-- Go `strings.SplitN(s, sep, 2)` for a one-byte separator: the part before the first
separator, and the part after it when there is a separator. The Go slice has length two
exactly when the second component is `some`. -/
def SplitN2 : GoString → Char → GoString × Option GoString
  | [], _ => ([], none)
  | c :: cs, sep =>
    if c = sep then ([], some cs)
    else ((c :: (SplitN2 cs sep).1), (SplitN2 cs sep).2)

/-! ## Nested configuration maps -/

/-- A value of a `map[string]interface{}` built by the code: a string or a nested map. -/
inductive Any where
  | str (s : GoString) : Any
  | map (m : List (GoString × Any)) : Any

instance : Inhabited Any := ⟨.str []⟩

/-- The Go type `map[string]interface{}`. -/
abbrev ConfigMap := List (GoString × Any)

/-- The map index expression `m[k]` in its two-valued form. -/
def mapGet (k : GoString) : ConfigMap → Option Any
  | [] => none
  | (k2, v2) :: rest => if k2 = k then some v2 else mapGet k rest

/-- The map assignment `m[k] = v`. -/
def mapSet (k : GoString) (v : Any) : ConfigMap → ConfigMap
  | [] => [(k, v)]
  | (k2, v2) :: rest => if k2 = k then (k2, v) :: rest else (k2, v2) :: mapSet k v rest

mutual
/-- Go `reflect.DeepEqual` on the values of a configuration map. -/
def Any.deepEqual : Any → Any → Bool
  | .str a, w =>
    match w with
    | .str b => a == b
    | .map _ => false
  | .map m, w =>
    match w with
    | .str _ => false
    | .map n => m.length == n.length && Any.subEqual m n
/-- Every entry of the first map is in the second one with a deeply equal value. -/
def Any.subEqual : List (GoString × Any) → List (GoString × Any) → Bool
  | [], _ => true
  | (k, v) :: rest, n =>
    (match mapGet k n with
     | some v2 => Any.deepEqual v v2
     | none => false) && Any.subEqual rest n
end

/-- Go `reflect.DeepEqual` on two maps. -/
def deepEqual (m n : ConfigMap) : Bool := Any.deepEqual (.map m) (.map n)

/-- The value found by following a path of keys through nested maps. -/
def getPath : List GoString → ConfigMap → Option Any
  | [], _ => none
  | [k], m => mapGet k m
  | k :: k2 :: ks, m =>
    match mapGet k m with
    | some (.map sub) => getPath (k2 :: ks) sub
    | _ => none

/-- The chain of nested maps `{s1: {s2: ... {sn: v}}}`; the empty map for no segment. -/
def nestChain : List GoString → GoString → ConfigMap
  | [], _ => []
  | [s], v => [(s, .str v)]
  | s :: s2 :: ss, v => [(s, .map (nestChain (s2 :: ss) v))]

/-- Segments joined by a one-byte separator (Go `strings.Join`). -/
def joinSegs (sep : Char) : List GoString → GoString
  | [] => []
  | [s] => s
  | s :: s2 :: ss => s ++ sep :: joinSegs sep (s2 :: ss)

/-- A key segment: not empty and without `/`. -/
def IsSegment (s : GoString) : Prop := s ≠ [] ∧ '/' ∉ s

instance (s : GoString) : Decidable (IsSegment s) := by
  unfold IsSegment; exact inferInstance

/-! ## `kvToMap` -/

/-- The body of `kvToMap`, with a budget for the depth of the recursion. Each recursive call
is on a strictly shorter key, so the length of the key is a sufficient budget. -/
def kvToMapAux : Nat → GoString → GoString → ConfigMap → Except Fault ConfigMap
  | fuel, key, value, res =>
    if key = [] then .ok res
    else
      let splitKeys := SplitN2 key '/'
      let res1 := if (mapGet splitKeys.1 res).isNone then mapSet splitKeys.1 (.map []) res else res
      match splitKeys.2 with
      | none => .ok (mapSet splitKeys.1 (.str value) res1)
      | some rest =>
        match mapGet splitKeys.1 res1 with
        | some (.map sub) =>
          match fuel with
          | 0 => .error .outOfFuel
          | fuel + 1 =>
            match kvToMapAux fuel (TrimPrefix rest ['/']) value sub with
            | .ok sub2 => .ok (mapSet splitKeys.1 (.map sub2) res1)
            | .error e => .error e
        | _ => .error .typeAssertion

/-- Go `kvToMap(key, value, res)`. -/
def kvToMap (key value : GoString) (res : ConfigMap) : Except Fault ConfigMap :=
  kvToMapAux key.length key value res

/-! ## `cutPrefix` and `kvPairsAsMap` -/

/-- The fields of `consulApi.KVPair` that the code reads or writes. -/
structure KVPair where
  Key : GoString
  Value : GoString
  deriving DecidableEq, Repr

/-- Go `cutPrefix(pairs, prefix)`: the slice as it is left (and returned) by the call. -/
def cutPrefix (pairs : List KVPair) (pfx : GoString) : List KVPair :=
  let pfx1 := TrimPrefix pfx ['/']
  let pfx2 := if !HasSuffix pfx1 ['/'] then pfx1 ++ ['/'] else pfx1
  pairs.map (fun p => { p with Key := TrimPrefix p.Key pfx2 })

/-- The inner loop of the insertion sort of package `sort`: the new element moves towards
the front while it is less than its left neighbour. The sorted part is held reversed, its
last element first. -/
def sinkLeft {α : Type} (less : α → α → Bool) (x : α) : List α → List α
  | [] => [x]
  | y :: ys => if less x y then y :: sinkLeft less x ys else x :: y :: ys

/-- Go `sort.Slice` as it runs on a slice of at most twelve elements: a stable insertion
sort. On longer slices the Go library gives no promise on the order of elements that
compare equal. -/
def sortSlice {α : Type} (less : α → α → Bool) (data : List α) : List α :=
  (data.foldl (fun sorted x => sinkLeft less x sorted) []).reverse

/-- The comparison of `kvPairsAsMap`: a longer key sorts first. -/
def keyLess (a b : KVPair) : Bool := decide (a.Key.length > b.Key.length)

/-- The `for` loop of `kvPairsAsMap`. The slice is `done ++ todo`, the loop variable is at
the head of `todo`; the pairs of `done` are as the loop left them (a flattened key is
rewritten in place, since the slice holds pointers). -/
def kvPairsLoop : List KVPair → List KVPair → Int → ConfigMap →
    Except Fault (List KVPair × ConfigMap)
  | done, [], _, addTo => .ok (done, addTo)
  | done, kv :: rest, shiftIndex, addTo =>
    let nested : Except Fault Bool :=
      if shiftIndex ≥ 0 then
        match (done ++ kv :: rest)[shiftIndex.toNat]? with
        | some prev => .ok (Contains prev.Key kv.Key)
        | none => .error .indexOutOfRange
      else .ok false
    match nested with
    | .error e => .error e
    | .ok true =>
      let kv2 : KVPair := { kv with Key := ReplaceAll kv.Key '/' '.' }
      match kvToMap kv2.Key kv2.Value addTo with
      | .ok m => kvPairsLoop (done ++ [kv2]) rest shiftIndex m
      | .error e => .error e
    | .ok false =>
      match kvToMap kv.Key kv.Value addTo with
      | .ok m => kvPairsLoop (done ++ [kv]) rest (shiftIndex + 1) m
      | .error e => .error e

/-- Go `kvPairsAsMap(kvPairs, addTo)`: the slice as the call leaves it (sorted, flattened
keys rewritten) and the map `addTo` as the call leaves it. -/
def kvPairsAsMap (kvPairs : List KVPair) (addTo : ConfigMap) :
    Except Fault (List KVPair × ConfigMap) :=
  kvPairsLoop [] (sortSlice keyLess kvPairs) (-1) addTo

/-- Go `strings.Split` for a one-byte separator. -/
def Split : GoString → Char → List GoString
  | [], _ => [[]]
  | c :: cs, sep =>
    if c = sep then [] :: Split cs sep
    else
      match Split cs sep with
      | [] => [[c]]
      | seg :: segs => (c :: seg) :: segs

/-- The map binds the path of keys to the string `v`. -/
def hasStrAt (path : List GoString) (v : GoString) (m : ConfigMap) : Bool :=
  match getPath path m with
  | some (.str s) => s == v
  | _ => false

/-- The statement of prefix resolution for the keys `p` and `q = p + "/" + r`: built from
the two pairs `(p, v1)` and `(q, v2)`, in either order, into an empty map, the map binds the
path of the segments of `q` to `v2` and the top-level key `p` with `/` replaced by `.` to
`v1`. -/
def PrefixResolved (p r v1 v2 : GoString) : Bool :=
  let q := p ++ '/' :: r
  [[KVPair.mk p v1, KVPair.mk q v2], [KVPair.mk q v2, KVPair.mk p v1]].all fun input =>
    match kvPairsAsMap input [] with
    | .ok (_, m) => hasStrAt (Split q '/') v2 m && hasStrAt [ReplaceAll p '/' '.'] v1 m
    | .error _ => false

/-- The keys are pairwise distinct and made of non-empty segments without `.`. -/
def WellFormedKeys (pairs : List KVPair) : Bool :=
  decide (pairs.map (fun p => p.Key)).Nodup &&
    pairs.all (fun p => (Split p.Key '/').all (fun seg => !seg.isEmpty && !seg.contains '.'))

/-- The statement of "no data loss": `kvPairsAsMap` into an empty map completes and the
value of every pair is in the map, at the nested path of the segments of its key or at the
top-level key obtained by replacing `/` with `.`. -/
def NoDataLoss (pairs : List KVPair) : Bool :=
  match kvPairsAsMap pairs [] with
  | .ok (_, m) =>
    pairs.all (fun p =>
      hasStrAt (Split p.Key '/') p.Value m || hasStrAt [ReplaceAll p.Key '/' '.'] p.Value m)
  | .error _ => false

/-- The call completed and left a map deeply equal to `expected`. -/
def yieldsMap (r : Except Fault (List KVPair × ConfigMap)) (expected : ConfigMap) : Bool :=
  match r with
  | .ok (_, m) => deepEqual m expected
  | .error _ => false

/-- The statement of "building twice gives identical maps": `kvPairsAsMap` into a fresh
empty map, then once more into another fresh empty map on the slice as the first call left
it; both calls complete and the two maps are deeply equal. -/
def rerunEqual (pairs : List KVPair) : Bool :=
  match kvPairsAsMap pairs [] with
  | .ok (left, m1) => yieldsMap (kvPairsAsMap left []) m1
  | .error _ => false

/-- The calls `kvToMap(kv.Key, kv.Value, m)` for the pairs of a slice, in order. -/
def insertAll : List KVPair → ConfigMap → Except Fault ConfigMap
  | [], m => .ok m
  | kv :: rest, m =>
    match kvToMap kv.Key kv.Value m with
    | .ok m2 => insertAll rest m2
    | .error e => .error e

/-- No key that contains a `/` occurs inside the key of a pair that stands before it. -/
def SlashKeysApart (pairs : List KVPair) : Prop :=
  pairs.Pairwise (fun a b => '/' ∈ b.Key → Contains a.Key b.Key = false)

instance (pairs : List KVPair) : Decidable (SlashKeysApart pairs) := by
  unfold SlashKeysApart; exact inferInstance

/-! ## The property provider -/

/-- The fields of `ProviderConfig` that decide what `Read` and `Watch` do (`Ctx` and
`tokenProvider` are left out). -/
structure ProviderConfig where
  Address : GoString
  Namespace : GoString
  MicroserviceName : GoString
  Paths : List GoString
  Failsafe : Bool
  Token : GoString
  forLogging : Bool
  deriving DecidableEq, Repr

/-- The state of a `ProviderImpl`. `watchOnce` is the flag of the `sync.Once`;
`subscriptions` records the calls `r.client.subscribeFor(path, keyIndex, cb)` made so far,
each of which starts one watch loop. -/
structure ProviderImpl where
  cfg : ProviderConfig
  configIndex : List (GoString × Nat)
  watchOnce : Bool
  subscriptions : List (GoString × Nat)
  deriving DecidableEq, Repr

/-- The map index expression `r.configIndex[p]`: zero for a path that is not in the map. -/
def indexGet (p : GoString) : List (GoString × Nat) → Nat
  | [] => 0
  | (k, v) :: rest => if k = p then v else indexGet p rest

/-- The map assignment `r.configIndex[p] = v`. -/
def indexSet (p : GoString) (v : Nat) : List (GoString × Nat) → List (GoString × Nat)
  | [] => [(p, v)]
  | (k, w) :: rest => if k = p then (k, v) :: rest else (k, w) :: indexSet p v rest

/-- The constant `baseConfigPath`. -/
def baseConfigPath : GoString := str "config"

/-- The constant `baseLoggingPath`. -/
def baseLoggingPath : GoString := str "logging"

/-- Go `DefaultPathsFor(microserviceName, namespace)`. -/
def DefaultPathsFor (microserviceName ns : GoString) : List GoString :=
  [baseConfigPath ++ str "/" ++ ns ++ str "/application",
   baseConfigPath ++ str "/" ++ ns ++ str "/" ++ microserviceName]

/-- Go `DefaultLoggingPathsFor(microserviceName, namespace)`. -/
def DefaultLoggingPathsFor (microserviceName ns : GoString) : List GoString :=
  [baseLoggingPath ++ str "/" ++ ns ++ str "/" ++ microserviceName]

/-- Go `newProvider(cfg)`, without the client. -/
def newProvider (cfg : ProviderConfig) : ProviderImpl :=
  { cfg := cfg, configIndex := [], watchOnce := false, subscriptions := [] }

/-- What `fillDefaultsIfNeeded` reads from outside the provider: three properties of the
configuration loader, and whether `url.ParseRequestURI` accepts the value of `consul.url`. -/
structure Env where
  microserviceNamespace : GoString
  microserviceName : GoString
  consulUrl : GoString
  consulUrlParses : Bool
  deriving DecidableEq, Repr

/-- The block `if r.cfg.Namespace == ""` of `fillDefaultsIfNeeded`. -/
def fillNamespace (cfg : ProviderConfig) (env : Env) : ProviderConfig :=
  if cfg.Namespace = [] then { cfg with Namespace := env.microserviceNamespace } else cfg

/-- The block `if r.cfg.MicroserviceName == ""` of `fillDefaultsIfNeeded`. -/
def fillMicroserviceName (cfg : ProviderConfig) (env : Env) : ProviderConfig :=
  if cfg.MicroserviceName = [] then { cfg with MicroserviceName := env.microserviceName }
  else cfg

/-- The block `if r.cfg.Address == ""` of `fillDefaultsIfNeeded`: a value of `consul.url`
that does not parse is logged in failsafe mode and is a `logger.Panicf` otherwise. -/
def fillAddress (cfg : ProviderConfig) (env : Env) : Except Fault ProviderConfig :=
  if cfg.Address = [] then
    if !env.consulUrlParses && !cfg.Failsafe then .error .loggerPanic
    else .ok { cfg with Address := env.consulUrl }
  else .ok cfg

/-- The block `if len(r.cfg.Paths) == 0` of `fillDefaultsIfNeeded`. -/
def fillPaths (cfg : ProviderConfig) : ProviderConfig :=
  if cfg.Paths.length = 0 then
    if cfg.forLogging then
      { cfg with Paths := DefaultLoggingPathsFor cfg.MicroserviceName cfg.Namespace }
    else { cfg with Paths := DefaultPathsFor cfg.MicroserviceName cfg.Namespace }
  else cfg

/-- Go `(r *ProviderImpl) fillDefaultsIfNeeded()`. -/
def fillDefaultsIfNeeded (r : ProviderImpl) (env : Env) : Except Fault ProviderImpl :=
  match fillAddress (fillMicroserviceName (fillNamespace r.cfg env) env) env with
  | .error f => .error f
  | .ok cfg => .ok { r with cfg := fillPaths cfg }

/-- The field `LastIndex` of `consulApi.QueryMeta`. -/
structure QueryMeta where
  LastIndex : Nat
  deriving DecidableEq, Repr

/-- What `r.client.KV().List(path, q)` returns. The Consul client returns either an error
alone, or no error together with the query metadata and the listed pairs; the list is `nil`
(here `none`) when the store has no such path. -/
inductive ListResult where
  | ok (list : Option (List KVPair)) (qm : QueryMeta) : ListResult
  | fail (err : GoError) : ListResult
  deriving DecidableEq, Repr

/-- The store as `Read` sees it: the answer to the `n`-th list call of the read, made for
the given path. -/
abbrev Store := Nat → GoString → ListResult

/-- What one pass through the body of the loop of `loadConsulConfigParams` does. -/
inductive LoadStep where
  /-- The loop goes on with this map and these indices. -/
  | next (configMap : ConfigMap) (configIndex : List (GoString × Nat)) : LoadStep
  /-- The statement `return nil, err`. -/
  | abort (err : GoError) : LoadStep

/-- The body of the loop of `loadConsulConfigParams` for one path, given the answer of the
store to the list call. -/
def loadPath (failsafe : Bool) (path : GoString) (answer : ListResult)
    (configMap : ConfigMap) (configIndex : List (GoString × Nat)) : Except Fault LoadStep :=
  match answer with
  | .fail err => if failsafe then .ok (.next configMap configIndex) else .ok (.abort err)
  | .ok list qm =>
    match kvPairsAsMap (cutPrefix (list.getD []) path) configMap with
    | .error f => .error f
    | .ok (_, m) => .ok (.next m (indexSet path qm.LastIndex configIndex))

/-- The loop of `loadConsulConfigParams` over the paths still to be read; `n` counts the
list calls made so far. The first component of the result is the number of list calls made
when the loop is left; the second is a fault, or the error of the `return nil, err` (if the
loop is left that way), the map and the indices. -/
def loadPaths (failsafe : Bool) (store : Store) : List GoString → Nat → ConfigMap →
    List (GoString × Nat) →
    Nat × Except Fault (Option GoError × ConfigMap × List (GoString × Nat))
  | [], n, configMap, configIndex => (n, .ok (none, configMap, configIndex))
  | path :: rest, n, configMap, configIndex =>
    match loadPath failsafe path (store n path) configMap configIndex with
    | .error f => (n + 1, .error f)
    | .ok (.abort err) => (n + 1, .ok (some err, configMap, configIndex))
    | .ok (.next m idx) => loadPaths failsafe store rest (n + 1) m idx

/-- The two values that `Read` returns: a map (`none` for `nil`) and an error. -/
structure ReadResult where
  map : Option ConfigMap
  err : Option GoError

/-- A run of `Read`: whether `r.client.Login()` was called, how many list calls were made,
and how the run ended: with a fault, or with the returned values and the provider as the
run left it. -/
structure ReadRun where
  loginCalled : Bool
  listCalls : Nat
  result : Except Fault (ReadResult × ProviderImpl)

/-- Go `(r *ProviderImpl) loadConsulConfigParams()`: the number of list calls made and the
outcome. `Flatten` stands for the call `maps.Flatten(configMap, []string{}, ".")` of the
koanf library. -/
def loadConsulConfigParams (r : ProviderImpl) (store : Store)
    (Flatten : ConfigMap → ConfigMap) : Nat × Except Fault (ReadResult × ProviderImpl) :=
  match loadPaths r.cfg.Failsafe store r.cfg.Paths 0 [] r.configIndex with
  | (n, .error f) => (n, .error f)
  | (n, .ok (some err, _, idx)) => (n, .ok (⟨none, some err⟩, { r with configIndex := idx }))
  | (n, .ok (none, m, idx)) =>
    (n, .ok (⟨some (Flatten m), none⟩, { r with configIndex := idx }))

/-- Go `(r *ProviderImpl) Read(*koanf.Koanf)`. `login` is what `r.client.Login()` returns
when it is called. -/
def Read (r : ProviderImpl) (env : Env) (login : Option GoError) (store : Store)
    (Flatten : ConfigMap → ConfigMap) : ReadRun :=
  match fillDefaultsIfNeeded r env with
  | .error f => { loginCalled := false, listCalls := 0, result := .error f }
  | .ok r1 =>
    match login with
    | some err =>
      if r1.cfg.Failsafe then
        { loginCalled := true, listCalls := 0, result := .ok (⟨some [], none⟩, r1) }
      else { loginCalled := true, listCalls := 0, result := .ok (⟨none, some err⟩, r1) }
    | none =>
      { loginCalled := true
        listCalls := (loadConsulConfigParams r1 store Flatten).1
        result := (loadConsulConfigParams r1 store Flatten).2 }

/-- The paths that `Read` lists: `r.cfg.Paths` after `fillDefaultsIfNeeded`. -/
def effectivePaths (r : ProviderImpl) (env : Env) : List GoString :=
  match fillDefaultsIfNeeded r env with
  | .ok r1 => r1.cfg.Paths
  | .error _ => r.cfg.Paths

/-- Go `(r *ProviderImpl) Watch(cb)`: the provider after the call and the error returned. -/
def Watch (r : ProviderImpl) : ProviderImpl × Option GoError :=
  if r.watchOnce then (r, none)
  else
    ({ r with
        watchOnce := true
        subscriptions :=
          r.cfg.Paths.foldl (fun subs p => subs ++ [(p, indexGet p r.configIndex)])
            r.subscriptions },
      none)

/-- A number of `Watch` calls in a row: the provider after them and the errors returned. -/
def watchCalls : Nat → ProviderImpl → ProviderImpl × List (Option GoError)
  | 0, r => (r, [])
  | n + 1, r => ((watchCalls n (Watch r).1).1, (Watch r).2 :: (watchCalls n (Watch r).1).2)

/-- What one run of the function that `subscribeFor` hands to `retry.Do` leaves: the error it
returns, the variable `currentIndex`, and the number of times it has called `cb`. -/
structure AttemptResult where
  err : Option GoError
  currentIndex : Nat
  callbacks : Nat
  deriving DecidableEq, Repr

/-- One run of the function that `subscribeFor` hands to `retry.Do`, for the value of
`currentIndex` at its start, the result of `r.Login()` and the answer of the store to
`List(path, WaitIndex: currentIndex)`. -/
def subscribeAttempt (path : GoString) (currentIndex : Nat) (login : Option GoError)
    (answer : ListResult) : Except Fault AttemptResult :=
  match login with
  | some err => .ok ⟨some (str "error during login to Consul: " ++ err), currentIndex, 0⟩
  | none =>
    match answer with
    | .fail err => .ok ⟨some (str "error reading from KV: " ++ err), currentIndex, 0⟩
    | .ok none _ =>
      .ok ⟨some (str "path for '" ++ path ++ str "' is not exists"), currentIndex, 0⟩
    | .ok (some list) qm =>
      match kvPairsAsMap (cutPrefix list path) [] with
      | .error f => .error f
      | .ok _ => .ok ⟨none, qm.LastIndex, 1⟩

/-- The pair lists that the loop of `loadConsulConfigParams` merges, each with its path: the
answers of the list calls that succeed, in path order; in strict mode only those before the
first failed call. -/
def listedPairs (failsafe : Bool) (store : Store) :
    List GoString → Nat → List (GoString × List KVPair)
  | [], _ => []
  | path :: rest, n =>
    match store n path with
    | .ok list _ => (path, list.getD []) :: listedPairs failsafe store rest (n + 1)
    | .fail _ => if failsafe then listedPairs failsafe store rest (n + 1) else []

/-- The error of the first failed list call, in path order. -/
def firstFailure (store : Store) : List GoString → Nat → Option GoError
  | [], _ => none
  | path :: rest, n =>
    match store n path with
    | .ok _ _ => firstFailure store rest (n + 1)
    | .fail err => some err

/-- The map built from pair lists: `kvPairsAsMap(cutPrefix(list, path), configMap)` for each
list in turn, into one accumulating map. -/
def mergeAll : List (GoString × List KVPair) → ConfigMap → Except Fault ConfigMap
  | [], m => .ok m
  | (path, list) :: rest, m =>
    match kvPairsAsMap (cutPrefix list path) m with
    | .error f => .error f
    | .ok (_, m2) => mergeAll rest m2

mutual
/-- The koanf library, `maps.Flatten`, for one entry `k: v` under the key prefix `pre`: a
string or an empty map is stored under the joined key, a non-empty map is flattened in
turn. -/
def Any.flattenInto (pre k : GoString) : Any → ConfigMap → ConfigMap
  | .str s, out => mapSet (pre ++ k) (.str s) out
  | .map [], out => mapSet (pre ++ k) (.map []) out
  | .map (e :: sub), out => Any.flattenEntries (pre ++ k ++ ['.']) (e :: sub) out
/-- The koanf library, `maps.Flatten`, for the entries of one map, visited in the order of
the list (Go visits them in an order of its choice, which shows only when two joined keys
are the same). -/
def Any.flattenEntries (pre : GoString) : List (GoString × Any) → ConfigMap → ConfigMap
  | [], out => out
  | (k, v) :: rest, out => Any.flattenEntries pre rest (Any.flattenInto pre k v out)
end

/-- The koanf call `maps.Flatten(m, []string{}, ".")`. -/
def koanfFlatten (m : ConfigMap) : ConfigMap := Any.flattenEntries [] m []

/-! ## The watch loop of `subscribeFor` -/

/-- What the world gives one run of the function that `subscribeFor` hands to `retry.Do`:
the result of `r.Login()` and, for each wait index, the answer of the store to
`List(path, WaitIndex)`. -/
structure AttemptEnv where
  login : Option GoError
  answer : Nat → ListResult

/-- The record of one run of the function that `subscribeFor` hands to `retry.Do`: the value
of `currentIndex` at its start (the wait index of its poll), the result of the login, the
answer of the store, and what the run left. -/
structure AttemptRecord where
  waitIndex : Nat
  login : Option GoError
  answer : ListResult
  result : AttemptResult
  deriving DecidableEq, Repr

/-- The index that an answer of the store carries (zero for an error). -/
def returnedIndex : ListResult → Nat
  | .ok _ qm => qm.LastIndex
  | .fail _ => 0

/-- The loop of the goroutine of `subscribeFor`, for as many runs as the world is given for:
`retry.Do` calls the function again after a run that returns an error (after a delay), and
the enclosing `for` calls `retry.Do` again after a run that returns `nil`; the variable
`currentIndex` lives across the runs. The result is the record of the runs and the fault
that ended the loop, if one did. -/
def subscribeLoop (path : GoString) : List AttemptEnv → Nat →
    List AttemptRecord × Option Fault
  | [], _ => ([], none)
  | env :: rest, currentIndex =>
    match subscribeAttempt path currentIndex env.login (env.answer currentIndex) with
    | .error f => ([], some f)
    | .ok res =>
      (⟨currentIndex, env.login, env.answer currentIndex, res⟩
          :: (subscribeLoop path rest res.currentIndex).1,
        (subscribeLoop path rest res.currentIndex).2)

/-- Go `(r *Client) subscribeFor(path, keyIndex, cb)`: the loop starts with
`currentIndex := keyIndex`. -/
def subscribeFor (path : GoString) (keyIndex : Nat) (world : List AttemptEnv) :
    List AttemptRecord × Option Fault :=
  subscribeLoop path world keyIndex

/-- The runs that called the callback. -/
def callbackRuns (runs : List AttemptRecord) : List AttemptRecord :=
  runs.filter (fun a => a.result.callbacks == 1)

/-! ## The client: credential, login and refresher -/

/-- A `time.Time`, as the number of nanoseconds since the zero time. -/
abbrev Time := Int

/-- A `time.Duration`: a count of nanoseconds held in a signed 64-bit integer. -/
abbrev Duration := Int

/-- The smallest `time.Duration`. -/
def minDuration : Duration := -(2 ^ 63)

/-- The largest `time.Duration`. -/
def maxDuration : Duration := 2 ^ 63 - 1

/-- The constant `time.Minute`. -/
def Minute : Duration := 60 * 1000000000

/-- The constant `thresholdBeforeUpdate`. -/
def thresholdBeforeUpdate : Duration := 2 * Minute

/-- Go `t.Sub(u)`: the difference `t - u`, or the largest (smallest) duration when the
difference is too large (too small) for a `time.Duration`. -/
def timeSub (t u : Time) : Duration :=
  if t - u > maxDuration then maxDuration
  else if t - u < minDuration then minDuration
  else t - u

/-- Go `t.Add(d)`. -/
def timeAdd (t : Time) (d : Duration) : Time := t + d

/-- Go `ClientToken`: the `atomic.Value` holds nothing (`none`) until the first `Store`. -/
structure ClientToken where
  val : Option GoString
  expirationTime : Time
  deriving DecidableEq, Repr

/-- The fields of `ClientConfig` that the client reads, without `Ctx` and `tokenProvider`
(the results of the token provider are given with each call). -/
structure ClientConfig where
  Address : GoString
  Namespace : GoString
  Token : Option ClientToken
  deriving DecidableEq, Repr

/-- The state of a `Client`. `token` is the pointer `r.token` (`none` for `nil`);
`tokenWatch` is the flag of the `sync.Once`; `consulToken` is the token of the transport
client `r.consul`; `refresher` is the period of the ticker of the goroutine started by
`startWatchSecretId` (`none` while it is not started). -/
structure Client where
  cfg : ClientConfig
  token : Option ClientToken
  tokenWatch : Bool
  consulToken : GoString
  refresher : Option Duration
  deriving DecidableEq, Repr

/-- Go `NewClient(cfg)`. -/
def NewClient (cfg : ClientConfig) : Client :=
  { cfg := cfg, token := cfg.Token, tokenWatch := false, consulToken := [],
    refresher := none }

/-- The client that `newProvider(cfg)` builds: a non-empty `cfg.Token` becomes a
`ClientToken` that holds it (with the zero expiration time). -/
def newProviderClient (cfg : ProviderConfig) : Client :=
  NewClient
    { Address := cfg.Address
      Namespace := cfg.Namespace
      Token := if cfg.Token ≠ [] then some { val := some cfg.Token, expirationTime := 0 }
        else none }

/-- How the HTTP exchange of `getSecretIdByToken` ends. -/
inductive Exchange where
  /-- One of the error returns: the request fails, the body cannot be read, the status is not
  200, the body is not JSON, or `ExpirationTime` does not parse; `err` is the error
  returned. -/
  | failed (err : GoError) : Exchange
  /-- The body is JSON, but `SecretID` or `ExpirationTime` is not a string in it: the type
  assertion `.(string)` panics. -/
  | badField : Exchange
  /-- The store grants a credential. -/
  | granted (secretId : GoString) (expirationTime : Time) : Exchange
  deriving DecidableEq, Repr

/-- What a login (or a refresh) meets outside the client: what `r.cfg.tokenProvider()`
returns, how the exchange ends for a given upstream token, and the time that `time.Now()`
reads after the exchange. -/
structure LoginWorld where
  tokenProvider : Except GoError GoString
  exchange : GoString → Exchange
  now : Time

/-- Go `(r *Client) getSecretIdByToken(token)`: the secret id (or `returnOnError`), the
expiration time (`none` for `nil`) and the error. -/
def getSecretIdByToken (token : GoString) (x : Exchange) :
    Except Fault (GoString × Option Time × Option GoError) :=
  let returnOnError : GoString := if token ≠ [] then [] else str "anonymous"
  match x with
  | .failed err => .ok (returnOnError, none, some err)
  | .badField => .error .typeAssertion
  | .granted secretId expirationTime => .ok (secretId, some expirationTime, none)

/-- Go `(r *Client) getSecretId()`. -/
def getSecretId (w : LoginWorld) : Except Fault (GoString × Option Time × Option GoError) :=
  match w.tokenProvider with
  | .error err => .ok ([], none, some (str "failed to get token: " ++ err))
  | .ok token =>
    match getSecretIdByToken token (w.exchange token) with
    | .error f => .error f
    | .ok (_, _, some err) =>
      .ok ([], none, some (str "failed to get consul secret ID by token: " ++ err))
    | .ok (secretId, expTime, none) => .ok (secretId, expTime, none)

/-- Go `(r *Client) startWatchSecretId(every)`: `time.NewTicker(every)` panics for a period
that is not positive; otherwise the goroutine of the refresher runs with this period. -/
def startWatchSecretId (c : Client) (every : Duration) : Except Fault Client :=
  if every ≤ 0 then .error (.nonPositiveInterval every)
  else .ok { c with refresher := some every }

/-- A run of `Login`: how often the token provider and the exchange were called, and how the
run ended: with a fault, or with the error returned and the client as the run left it. -/
structure LoginRun where
  tokenProviderCalls : Nat
  exchangeCalls : Nat
  result : Except Fault (Option GoError × Client)

/-- Go `(r *Client) Login()`. -/
def Login (c : Client) (w : LoginWorld) : LoginRun :=
  match c.token with
  | some _ => { tokenProviderCalls := 0, exchangeCalls := 0, result := .ok (none, c) }
  | none =>
    let exchangeCalls := match w.tokenProvider with
      | .ok _ => 1
      | .error _ => 0
    match getSecretId w with
    | .error f => { tokenProviderCalls := 1, exchangeCalls := exchangeCalls, result := .error f }
    | .ok (_, _, some err) =>
      { tokenProviderCalls := 1, exchangeCalls := exchangeCalls, result := .ok (some err, c) }
    | .ok (_, none, none) =>
      { tokenProviderCalls := 1, exchangeCalls := exchangeCalls,
        result := .error .nilDereference }
    | .ok (secretId, some expTime, none) =>
      let c1 : Client :=
        { c with
          token := some { val := some secretId, expirationTime := expTime }
          consulToken := secretId }
      { tokenProviderCalls := 1
        exchangeCalls := exchangeCalls
        result :=
          if c1.tokenWatch then .ok (none, c1)
          else
            match startWatchSecretId { c1 with tokenWatch := true }
                (timeSub expTime (timeAdd w.now thresholdBeforeUpdate)) with
            | .error f => .error f
            | .ok c2 => .ok (none, c2) }

/-- Go `(r *Client) SecretId()`. -/
def SecretId (c : Client) : Except Fault GoString :=
  match c.token with
  | none => .error .nilDereference
  | some t => .ok (t.val.getD [])

/-- One firing of the ticker in the goroutine of `startWatchSecretId`: a failed
`getSecretId` is logged and leaves the client as it is; otherwise the ticker is reset (which
panics for a period that is not positive) and the secret id is stored. -/
def refreshTick (c : Client) (w : LoginWorld) : Except Fault Client :=
  match getSecretId w with
  | .error f => .error f
  | .ok (_, _, some _) => .ok c
  | .ok (_, none, none) => .error .nilDereference
  | .ok (secretId, some expTime, none) =>
    let every := timeSub expTime (timeAdd w.now thresholdBeforeUpdate)
    if every ≤ 0 then .error (.nonPositiveInterval every)
    else
      match c.token with
      | none => .error .nilDereference
      | some t => .ok { c with token := some { t with val := some secretId }, refresher := some every }

/-- The period that a run has passed to `time.NewTicker` or to `Ticker.Reset`, whether the
call has accepted it or panicked on it. -/
def periodPassed : Except Fault Client → Option Duration
  | .ok c => c.refresher
  | .error (.nonPositiveInterval d) => some d
  | .error _ => none

/-- Go `NewLoggingPropertySource(configs...)`: the provider of the property source. -/
def NewLoggingPropertySource (configs : List ProviderConfig) : ProviderImpl :=
  match configs with
  | config :: _ => newProvider { config with forLogging := true }
  | [] =>
    newProvider
      { Address := [], Namespace := [], MicroserviceName := [], Paths := [], Failsafe := true,
        Token := [], forLogging := true }

/-- A number of `Login` calls in a row: the calls of the token provider and of the exchange
that they have made in all, and the client after them (or the fault that ended them). -/
def loginSeq : Client → List LoginWorld → Nat × Except Fault Client
  | c, [] => (0, .ok c)
  | c, w :: ws =>
    match (Login c w).result with
    | .error f => ((Login c w).tokenProviderCalls + (Login c w).exchangeCalls, .error f)
    | .ok (_, c1) =>
      ((Login c w).tokenProviderCalls + (Login c w).exchangeCalls + (loginSeq c1 ws).1,
        (loginSeq c1 ws).2)

/-- The branch that the `for` loop of `kvPairsAsMap` takes for each pair of `todo`, in
order: `true` for a pair whose key is flattened (the branch of the `strings.Contains`
test), `false` for a pair that is inserted hierarchically. The slice is `done ++ todo` as
in `kvPairsLoop`; the map plays no part in the choice of the branch. -/
def flattenChoices : List KVPair → List KVPair → Int → List Bool
  | _, [], _ => []
  | done, kv :: rest, shiftIndex =>
    let nested : Bool :=
      if shiftIndex ≥ 0 then
        match (done ++ kv :: rest)[shiftIndex.toNat]? with
        | some prev => Contains prev.Key kv.Key
        | none => false
      else false
    if nested then
      true :: flattenChoices (done ++ [{ kv with Key := ReplaceAll kv.Key '/' '.' }]) rest
        shiftIndex
    else false :: flattenChoices (done ++ [kv]) rest (shiftIndex + 1)

/-- The branches that `kvPairsAsMap(kvPairs, addTo)` takes, pair by pair of the sorted
slice. -/
def kvPairsChoices (kvPairs : List KVPair) : List Bool :=
  flattenChoices [] (sortSlice keyLess kvPairs) (-1)

/-- The pairs as the loop leaves them when it takes the given branches: the key of a
flattened pair has every `/` replaced by `.`. -/
def rewriteBy : List KVPair → List Bool → List KVPair
  | kv :: rest, b :: bs =>
    (if b then { kv with Key := ReplaceAll kv.Key '/' '.' } else kv) :: rewriteBy rest bs
  | _, _ => []

/-- The key `p` is a path prefix of the key `q`: `q` is `p`, a `/`, and more. -/
def IsPathPrefix (p q : GoString) : Bool := HasPrefix q (p ++ ['/'])

/-- The branches by the rule "a key is flattened exactly when it is a path prefix of the
last preceding key that was inserted hierarchically", for the pairs of a slice in order;
`lastAccepted` is the key inserted hierarchically last (`none` before the first). -/
def choicesByPathPrefix : Option GoString → List KVPair → List Bool
  | _, [] => []
  | lastAccepted, kv :: rest =>
    let flat : Bool :=
      match lastAccepted with
      | some prev => IsPathPrefix kv.Key prev
      | none => false
    if flat then true :: choicesByPathPrefix lastAccepted rest
    else false :: choicesByPathPrefix (some kv.Key) rest

/-- The map that `kvToMap` descends into under the key `k`: the map bound to `k`, or the
empty map that `kvToMap` binds to `k` first when `k` is not bound. -/
def subMap (k : GoString) (m : ConfigMap) : ConfigMap :=
  match mapGet k m with
  | some (.map sub) => sub
  | _ => []

/-- The second run keeps the keys of the slice `left`: run on `left`, the loop of
`kvPairsAsMap` takes the flattening branch only for keys without a `/`, which the branch
leaves as they are. -/
def RerunKeepsKeys (left : List KVPair) : Bool :=
  (List.zip (sortSlice keyLess left) (kvPairsChoices left)).all
    (fun p => !p.2 || decide ('/' ∉ p.1.Key))

end Consul

/-! # Route registration: retry delays, route validation and transformation, deployment version

A shallow embedding of `route-registration/internal/rest/client.go` (`ProgressiveTimeout`),
of `route-registration/registrar.go` and of `route-registration/internal/utils/utils.go`
(`GetDeploymentVersion`). -/

namespace RouteRegistration

open Consul

/-! ## `ProgressiveTimeout` -/

/-- The value that Go arithmetic on `int64` (and on `int` on a 64-bit platform) keeps of
the mathematical result `x`: the result wraps around. -/
def wrap64 (x : Int) : Int := (x + 2 ^ 63) % 2 ^ 64 - 2 ^ 63

/-- Go `ProgressiveTimeout`, without its mutex: `baseTimeout` and `maxTimeoutValue` are
durations in nanoseconds. -/
structure ProgressiveTimeout where
  baseTimeout : Int
  startMultiplier : Int
  endMultiplier : Int
  multiplierStep : Int
  currentMultiplierValue : Int
  maxTimeoutValue : Int
  deriving DecidableEq, Repr

/-- Go `NewProgressiveTimeout(baseTimeout, startMultiplier, endMultiplier, multiplierStep)`;
`log.Panic` when `endMultiplier <= startMultiplier`. -/
def NewProgressiveTimeout (baseTimeout startMultiplier endMultiplier multiplierStep : Int) :
    Except Fault ProgressiveTimeout :=
  if endMultiplier ≤ startMultiplier then .error .loggerPanic
  else
    .ok
      { baseTimeout := baseTimeout
        startMultiplier := startMultiplier
        endMultiplier := endMultiplier
        multiplierStep := multiplierStep
        currentMultiplierValue := startMultiplier
        maxTimeoutValue := wrap64 (endMultiplier * baseTimeout) }

/-- Go `(pt *ProgressiveTimeout) NextTimeoutValue()`: the value returned and the state that
the call leaves. -/
def NextTimeoutValue (pt : ProgressiveTimeout) : Int × ProgressiveTimeout :=
  if pt.currentMultiplierValue ≥ pt.endMultiplier then (pt.maxTimeoutValue, pt)
  else
    (wrap64 (pt.currentMultiplierValue * pt.baseTimeout),
      { pt with
        currentMultiplierValue := wrap64 (pt.currentMultiplierValue + pt.multiplierStep) })

/-- Go `(pt *ProgressiveTimeout) Reset()`. -/
def Reset (pt : ProgressiveTimeout) : ProgressiveTimeout :=
  { pt with currentMultiplierValue := pt.startMultiplier }

/-- The state after a number of calls of `NextTimeoutValue`. -/
def afterCalls : Nat → ProgressiveTimeout → ProgressiveTimeout
  | 0, pt => pt
  | n + 1, pt => (NextTimeoutValue (afterCalls n pt)).2

/-- The value that the call number `k` of `NextTimeoutValue` returns, counted from zero and
starting in the state `pt`. -/
def nthTimeout (k : Nat) (pt : ProgressiveTimeout) : Int :=
  (NextTimeoutValue (afterCalls k pt)).1

/-! ## Routes, their validation and their transformation -/

/-- Go `RouteType`, a string type of `api.go` and of package `utils`. -/
abbrev RouteType := GoString

def Public : RouteType := str "public"

def Private : RouteType := str "private"

def Internal : RouteType := str "internal"

def Mesh : RouteType := str "mesh"

def PublicGatewayService : GoString := str "public-gateway-service"

def PrivateGatewayService : GoString := str "private-gateway-service"

def InternalGatewayService : GoString := str "internal-gateway-service"

/-- Go `Route` of `api.go`; `Timeout` is a duration in nanoseconds. -/
structure Route where
  From : GoString
  To : GoString
  Forbidden : Bool
  Timeout : Int
  RouteType : RouteType
  Gateway : GoString
  VirtualService : GoString
  Hosts : List GoString
  deriving DecidableEq, Repr

/-- Go `utils.Route`. -/
structure utils.Route where
  From : GoString
  To : GoString
  Allowed : Bool
  Timeout : Int
  RouteType : RouteType
  Gateway : GoString
  VirtualService : GoString
  Hosts : List GoString
  deriving DecidableEq, Repr

/-- Go `utils.RoutesByGateway`, a `map[string][]Route`, as an association list with one entry
for each key. -/
abbrev utils.RoutesByGateway := List (GoString × List utils.Route)

/-- The map index expression `m[gatewayName]` with its `found` flag. -/
def routesGet (gatewayName : GoString) : utils.RoutesByGateway → Option (List utils.Route)
  | [] => none
  | (k, v) :: rest => if k = gatewayName then some v else routesGet gatewayName rest

/-- The map assignment `m[gatewayName] = routes`. -/
def routesSet (gatewayName : GoString) (routes : List utils.Route) :
    utils.RoutesByGateway → utils.RoutesByGateway
  | [] => [(gatewayName, routes)]
  | (k, v) :: rest =>
    if k = gatewayName then (k, routes) :: rest
    else (k, v) :: routesSet gatewayName routes rest

/-- Go `utils.GetMicroserviceName()` for the configured value `microservice.name` (empty when
it is not set, the default of `GetOrDefaultString`). -/
def utils.GetMicroserviceName (microserviceName : GoString) : GoString × Option GoError :=
  if microserviceName = [] then ([], some (str "microservice.name wasn't set up"))
  else (microserviceName, none)

/-- The character class `[a-zA-Z0-9{}*_-]` of the path pattern. -/
def pathChars : List Char :=
  (str "abcdefghijklmnopqrstuvwxyzABCDEFGHIJKLMNOPQRSTUVWXYZ0123456789") ++
    ['{', '}', '*', '_', '-']

/-- The regular expression of a character class: one of the characters of the list. -/
def charClass (cs : List Char) : RegularExpression Char :=
  cs.foldr (fun c r => RegularExpression.char c + r) 0

/-- The pattern of `assertPath`, anchored at both ends: one or more groups of a `/` followed
by any number of characters of the class. -/
def validPath : RegularExpression Char :=
  let group := RegularExpression.char '/' * (charClass pathChars).star
  group * group.star

/-- Go `assertPath(path)`: `log.Panicf` when the path does not match the pattern. -/
def assertPath (path : GoString) : Except Fault Unit :=
  if validPath.rmatch path then .ok () else .error .loggerPanic

/-- Go `routeTypeByGateway(gateway)`. -/
def routeTypeByGateway (gateway : GoString) : RouteType :=
  if gateway = PublicGatewayService then Public
  else if gateway = PrivateGatewayService then Private
  else if gateway = InternalGatewayService then Internal
  else Mesh

/-- Go `validateEffectiveRouteType(route)`. -/
def validateEffectiveRouteType (route : Route) : Except Fault Unit :=
  if route.RouteType = [] then
    if route.Gateway = [] then .error .loggerPanic else .ok ()
  else
    if route.Gateway ≠ [] ∧ route.RouteType ≠ routeTypeByGateway route.Gateway then
      .error .loggerPanic
    else .ok ()

/-- Go `validate(route)`. -/
def validate (route : Route) : Except Fault Unit :=
  match assertPath route.From with
  | .error f => .error f
  | .ok () =>
    match assertPath route.To with
    | .error f => .error f
    | .ok () => validateEffectiveRouteType route

/-- Go `(t RouteType) toInternalRouteType()`: `log.Panicf` on an unknown type. -/
def toInternalRouteType (t : RouteType) : Except Fault RouteType :=
  if t = Public then .ok Public
  else if t = Private then .ok Private
  else if t = Internal then .ok Internal
  else if t = Mesh then .ok Mesh
  else .error .loggerPanic

/-- Go `isCommonGatewayRouteAllowed(route, targetGatewayName)`. -/
def isCommonGatewayRouteAllowed (route : Route) (targetGatewayName : GoString) : Bool :=
  if route.Forbidden then false
  else if route.RouteType = Public then
    targetGatewayName == PublicGatewayService ||
      targetGatewayName == PrivateGatewayService ||
      targetGatewayName == InternalGatewayService
  else if route.RouteType = Private then
    targetGatewayName == PrivateGatewayService ||
      targetGatewayName == InternalGatewayService
  else if route.RouteType = Internal then
    targetGatewayName == InternalGatewayService
  else true

/-- Go `createCommonGatewayRoute(prototype, targetGateway)`. -/
def createCommonGatewayRoute (prototype : Route) (targetGateway : GoString) :
    Except Fault utils.Route :=
  match toInternalRouteType prototype.RouteType with
  | .error f => .error f
  | .ok routeType =>
    .ok
      { From := prototype.From
        To := prototype.To
        Allowed := isCommonGatewayRouteAllowed prototype targetGateway
        Timeout := prototype.Timeout
        RouteType := routeType
        Gateway := prototype.Gateway
        VirtualService := prototype.VirtualService
        Hosts := prototype.Hosts }

/-- Go `transformBorderGatewayRoute(prototype)`: the map with the three well-known gateway
names as keys. -/
def transformBorderGatewayRoute (prototype : Route) : Except Fault utils.RoutesByGateway :=
  match createCommonGatewayRoute prototype PublicGatewayService with
  | .error f => .error f
  | .ok pub =>
    match createCommonGatewayRoute prototype PrivateGatewayService with
    | .error f => .error f
    | .ok priv =>
      match createCommonGatewayRoute prototype InternalGatewayService with
      | .error f => .error f
      | .ok int =>
        .ok [(PublicGatewayService, [pub]), (PrivateGatewayService, [priv]),
          (InternalGatewayService, [int])]

/-- Go `transformMeshRoute(r)`, for the configured value `microservice.name`. -/
def transformMeshRoute (microserviceName : GoString) (r : Route) :
    Except Fault utils.RoutesByGateway :=
  let meshGatewayName :=
    if r.Gateway = [] then (utils.GetMicroserviceName microserviceName).1 else r.Gateway
  match toInternalRouteType r.RouteType with
  | .error f => .error f
  | .ok routeType =>
    .ok
      [(meshGatewayName,
        [{ From := r.From
           To := r.To
           Allowed := !r.Forbidden
           Timeout := r.Timeout
           RouteType := routeType
           Gateway := r.Gateway
           VirtualService := r.VirtualService
           Hosts := r.Hosts }])]

/-- The map `transformationRules` that `newRegistrar` builds (no code changes it): the rule
under a route type, `none` for a type that is not a key of the map. -/
def transformationRules (microserviceName : GoString) (routeType : RouteType) :
    Option (Route → Except Fault utils.RoutesByGateway) :=
  if routeType = Public then some transformBorderGatewayRoute
  else if routeType = Private then some transformBorderGatewayRoute
  else if routeType = Internal then some transformBorderGatewayRoute
  else if routeType = Mesh then some (transformMeshRoute microserviceName)
  else none

/-- Go `(registrar *registrar) transformRoute(r)`: the index expression of the map of rules
gives the `nil` function for a type that is not a key, and calling it panics. -/
def transformRoute (microserviceName : GoString) (r : Route) :
    Except Fault utils.RoutesByGateway :=
  let r1 : Route :=
    if r.RouteType = [] then { r with RouteType := routeTypeByGateway r.Gateway } else r
  match transformationRules microserviceName r1.RouteType with
  | some rule => rule r1
  | none => .error .nilFunctionCall

/-- The inner loop of `WithRoutes` over the transformed routes of one route: the routes of a
gateway are appended to the routes that the registrar holds for it. -/
def addRoutes (held : utils.RoutesByGateway) : utils.RoutesByGateway → utils.RoutesByGateway
  | [] => held
  | (gatewayName, gatewayRoutes) :: rest =>
    match routesGet gatewayName held with
    | some found => addRoutes (routesSet gatewayName (found ++ gatewayRoutes) held) rest
    | none => addRoutes (routesSet gatewayName gatewayRoutes held) rest

/-- Go `(registrar *registrar) WithRoutes(routes...)` on the field `routesByGatewayMap`, for
the configured value `microservice.name`: the map as the call leaves it, or the panic that
ends the call. -/
def WithRoutes (microserviceName : GoString) (routesByGatewayMap : utils.RoutesByGateway) :
    List Route → Except Fault utils.RoutesByGateway
  | [] => .ok routesByGatewayMap
  | r :: rest =>
    match validate r with
    | .error f => .error f
    | .ok () =>
      match transformRoute microserviceName r with
      | .error f => .error f
      | .ok actualRoutes =>
        WithRoutes microserviceName (addRoutes routesByGatewayMap actualRoutes) rest

/-- The type that the code works with for a route: its `RouteType`, or the type implied by
its `Gateway` when `RouteType` is empty. -/
def effectiveRouteType (r : Route) : RouteType :=
  if r.RouteType = [] then routeTypeByGateway r.Gateway else r.RouteType

/-- The description of the accepted paths: not empty, starting with `/`, and made only of
`/` and of the characters of the class. -/
def pathAsDescribed (path : GoString) : Bool :=
  !path.isEmpty && HasPrefix path ['/'] &&
    path.all (fun c => c == '/' || decide (c ∈ pathChars))

/-- The description of the rejected routes: `From` or `To` fails the path pattern, or
`RouteType` and `Gateway` are both empty, or both are set and `RouteType` differs from the
type implied by `Gateway`, or `RouteType` is set and is none of the four known types. -/
def rejectedAsDescribed (r : Route) : Bool :=
  !validPath.rmatch r.From || !validPath.rmatch r.To ||
    decide (r.RouteType = [] ∧ r.Gateway = []) ||
    decide (r.RouteType ≠ [] ∧ r.Gateway ≠ [] ∧ r.RouteType ≠ routeTypeByGateway r.Gateway) ||
    decide (r.RouteType ≠ [] ∧ r.RouteType ∉ [Public, Private, Internal, Mesh])

/-! ## `GetDeploymentVersion` -/

/-- Go `utils.GetDeploymentVersion()` for the configured values `deployment.version`,
`openshift.service.name` and `microservice.name` (each empty when it is not set, the
default of `GetOrDefaultString`). The slice expression panics when its low bound is greater
than the length of the string. -/
def utils.GetDeploymentVersion (deploymentVersion openshiftServiceName
    microserviceName : GoString) : Except Fault (GoString × Option GoError) :=
  if deploymentVersion = [] then
    match utils.GetMicroserviceName microserviceName with
    | (_, some err) => .ok ([], some err)
    | (name, none) =>
      if openshiftServiceName ≠ [] ∧ name ≠ [] ∧ name ≠ openshiftServiceName then
        if name.length + 1 > openshiftServiceName.length then .error .sliceBoundsOutOfRange
        else .ok (openshiftServiceName.drop (name.length + 1), none)
      else .ok (deploymentVersion, none)
  else .ok (deploymentVersion, none)

/-- The call returns without a panic. -/
def completes {α : Type} (x : Except Fault α) : Bool :=
  match x with
  | .ok _ => true
  | .error _ => false

/-- The first route of the test `TestWithRoutes_BulkRegister`: type Public, no gateway, from
`/v1` to `/v1/test`. -/
def publicTestRoute : Route :=
  { From := str "/v1", To := str "/v1/test", Forbidden := false, Timeout := 0,
    RouteType := Public, Gateway := [], VirtualService := [], Hosts := [] }

/-- The second route of the test `TestWithRoutes_BulkRegister`: type Private, no gateway,
from `/v2` to `/v2/test`. -/
def privateTestRoute : Route :=
  { From := str "/v2", To := str "/v2/test", Forbidden := false, Timeout := 0,
    RouteType := Private, Gateway := [], VirtualService := [], Hosts := [] }

/-- The third route of the test `TestWithRoutes_BulkRegister`: type Internal, no gateway,
from `/v3` to `/v3/test`. -/
def internalTestRoute : Route :=
  { From := str "/v3", To := str "/v3/test", Forbidden := false, Timeout := 0,
    RouteType := Internal, Gateway := [], VirtualService := [], Hosts := [] }

end RouteRegistration

/-! # Properties of the Consul property source -/

namespace Consul


theorem SplitN2_length (s : GoString) (sep : Char) (rest : GoString)
    (h : (SplitN2 s sep).2 = some rest) : rest.length < s.length := by
  induction s with
  | nil => simp [SplitN2] at h
  | cons c cs ih =>
    by_cases hc : c = sep
    · simp [SplitN2, hc] at h
      subst h; simp
    · simp [SplitN2, hc] at h
      have := ih h
      simp; omega

theorem TrimPrefix_length (s pfx : GoString) : (TrimPrefix s pfx).length ≤ s.length := by
  unfold TrimPrefix
  split <;> simp

theorem SplitN2_noSep (s : GoString) (sep : Char) (h : sep ∉ s) :
    SplitN2 s sep = (s, none) := by
  induction s with
  | nil => rfl
  | cons c cs ih =>
    have hc : c ≠ sep := fun e => h (by simp [e])
    have hcs : sep ∉ cs := fun e => h (by simp [e])
    simp [SplitN2, hc, ih hcs]

theorem SplitN2_append (s rest : GoString) (sep : Char) (h : sep ∉ s) :
    SplitN2 (s ++ sep :: rest) sep = (s, some rest) := by
  induction s with
  | nil => simp [SplitN2]
  | cons c cs ih =>
    have hc : c ≠ sep := fun e => h (by simp [e])
    have hcs : sep ∉ cs := fun e => h (by simp [e])
    simp [SplitN2, hc, ih hcs]

theorem kvToMapAux_mono (n : Nat) : ∀ (key value : GoString) (res : ConfigMap) (f : Nat),
    key.length ≤ n → n ≤ f →
    kvToMapAux f key value res = kvToMapAux n key value res ∧
    kvToMapAux n key value res ≠ .error .outOfFuel := by
  induction n with
  | zero =>
    intro key value res f hk _
    have : key = [] := List.length_eq_zero.mp (Nat.le_zero.mp hk)
    subst this
    unfold kvToMapAux
    simp
  | succ n ih =>
    intro key value res f hk hf
    obtain ⟨f, rfl⟩ : ∃ g, f = g + 1 := ⟨f - 1, by omega⟩
    unfold kvToMapAux
    by_cases hkey : key = []
    · simp [hkey]
    · simp only [hkey, if_false]
      cases hs : (SplitN2 key '/').2 with
      | none => simp
      | some rest =>
        have hlen := SplitN2_length key '/' rest hs
        have htl := TrimPrefix_length rest ['/']
        simp only []
        split
        · rename_i sub _
          have := ih (TrimPrefix rest ['/']) value sub f (by omega) (by omega)
          rw [this.1]
          constructor
          · rfl
          · have h2 := this.2
            split
            · simp
            · rename_i e he
              rw [he] at h2
              intro hcontra
              injection hcontra with hcontra
              exact h2 (by rw [hcontra])
        · simp

/-- The budget of `kvToMap` is never used up, and any larger budget gives the same result. -/
theorem kvToMapAux_fuel (fuel : Nat) (key value : GoString) (res : ConfigMap)
    (h : key.length ≤ fuel) :
    kvToMapAux fuel key value res = kvToMap key value res ∧
    kvToMap key value res ≠ .error .outOfFuel :=
  kvToMapAux_mono key.length key value res fuel (Nat.le_refl _) h

theorem TrimPrefix_slash_cons (c : Char) (t : GoString) (h : c ≠ '/') :
    TrimPrefix (c :: t) ['/'] = c :: t := by
  simp [TrimPrefix, HasPrefix, List.isPrefixOf, Ne.symm h]

theorem joinSegs_cons_head (s : GoString) (ss : List GoString) (hs : IsSegment s) :
    ∃ c t, joinSegs '/' (s :: ss) = c :: t ∧ c ≠ '/' := by
  obtain ⟨hne, hsl⟩ := hs
  cases s with
  | nil => exact absurd rfl hne
  | cons c t =>
    have hc : c ≠ '/' := fun e => hsl (by simp [e])
    cases ss with
    | nil => exact ⟨c, t, rfl, hc⟩
    | cons s2 ss => exact ⟨c, _, rfl, hc⟩

theorem kvToMapAux_joinSegs (segs : List GoString) : ∀ (v : GoString) (fuel : Nat),
    segs ≠ [] → (∀ s ∈ segs, IsSegment s) → segs.length ≤ fuel + 1 →
    kvToMapAux fuel (joinSegs '/' segs) v [] = .ok (nestChain segs v) := by
  induction segs with
  | nil => intro v fuel h; exact absurd rfl h
  | cons s ss ih =>
    intro v fuel _ hseg hlen
    have hs : IsSegment s := hseg s (by simp)
    cases ss with
    | nil =>
      unfold kvToMapAux
      simp [joinSegs, hs.1, SplitN2_noSep s '/' hs.2, mapGet, mapSet, nestChain]
    | cons s2 ss =>
      obtain ⟨fuel, rfl⟩ : ∃ g, fuel = g + 1 := ⟨fuel - 1, by simp at hlen; omega⟩
      have hs2 : IsSegment s2 := hseg s2 (by simp)
      obtain ⟨c, t, hj, hc⟩ := joinSegs_cons_head s2 ss hs2
      have hrec := ih v fuel (by simp) (fun x hx => hseg x (by simp [hx])) (by simp at hlen ⊢; omega)
      unfold kvToMapAux
      have hkey : joinSegs '/' (s :: s2 :: ss) = s ++ '/' :: joinSegs '/' (s2 :: ss) := rfl
      have htrim : TrimPrefix (joinSegs '/' (s2 :: ss)) ['/'] = joinSegs '/' (s2 :: ss) := by
        rw [hj]; exact TrimPrefix_slash_cons c t hc
      simp [hkey, SplitN2_append s _ '/' hs.2, mapGet, mapSet, nestChain, htrim, hrec]

theorem joinSegs_length (segs : List GoString) (hseg : ∀ s ∈ segs, IsSegment s) :
    segs.length ≤ (joinSegs '/' segs).length := by
  induction segs with
  | nil => simp
  | cons s ss ih =>
    have hs : s ≠ [] := (hseg s (by simp)).1
    have hpos : 0 < s.length := List.length_pos.mpr hs
    cases ss with
    | nil => simp [joinSegs]; omega
    | cons s2 ss =>
      have := ih (fun x hx => hseg x (by simp [hx]))
      simp [joinSegs] at this ⊢
      omega

/-- C5. `kvToMap` applied to an empty map agrees with its reference definition: the empty
key returns the map unchanged, and a key `s1/s2/.../sn` of `n ≥ 1` non-empty segments with
value `v` gives the chain of nested maps `{s1: {s2: ... {sn: v}}}`. -/
theorem kvToMap_empty_map_reference (segs : List GoString) (v : GoString) (res : ConfigMap)
    (hne : segs ≠ []) (hseg : ∀ s ∈ segs, IsSegment s) :
    kvToMap [] v res = .ok res ∧
    kvToMap (joinSegs '/' segs) v [] = .ok (nestChain segs v) := by
  constructor
  · unfold kvToMap kvToMapAux
    simp
  · have hfuel := kvToMapAux_fuel ((joinSegs '/' segs).length + segs.length)
      (joinSegs '/' segs) v [] (by omega)
    rw [← hfuel.1]
    exact kvToMapAux_joinSegs segs v _ hne hseg (by omega)

theorem kvToMap_empty_map_reference_witness :
    kvToMap [] (str "v") [] = .ok [] ∧
    kvToMap (joinSegs '/' [str "p", str "s", str "k"]) (str "v") [] =
      .ok (nestChain [str "p", str "s", str "k"] (str "v")) :=
  kvToMap_empty_map_reference [str "p", str "s", str "k"] (str "v") [] (by decide) (by decide)

/-- C1, counterexample. For the one-segment key `a` and its extension `a/b` the nested path
`a -> b` is not in the result: the flattened key of `a` is `a` itself and replaces the
nested map. -/
theorem prefixResolved_single_segment_fails :
    PrefixResolved (str "a") (str "b") (str "v1") (str "v2") = false := by
  decide

theorem mapSet_mapSet (k : GoString) (x y : Any) (m : ConfigMap) :
    mapSet k x (mapSet k y m) = mapSet k x m := by
  induction m with
  | nil => simp [mapSet]
  | cons e m ih =>
    obtain ⟨k2, v2⟩ := e
    by_cases h : k2 = k
    · simp [mapSet, h]
    · simp [mapSet, h, ih]

theorem mapGet_mapSet_self (k : GoString) (x : Any) (m : ConfigMap) :
    mapGet k (mapSet k x m) = some x := by
  induction m with
  | nil => simp [mapSet, mapGet]
  | cons e m ih =>
    obtain ⟨k2, v2⟩ := e
    by_cases h : k2 = k
    · simp [mapSet, mapGet, h]
    · simp [mapSet, mapGet, h, ih]

theorem mapGet_mapSet_other (k k2 : GoString) (x : Any) (m : ConfigMap) (h : k2 ≠ k) :
    mapGet k2 (mapSet k x m) = mapGet k2 m := by
  induction m with
  | nil => simp [mapSet, mapGet, Ne.symm h]
  | cons e m ih =>
    obtain ⟨k3, v3⟩ := e
    by_cases h3 : k3 = k
    · subst h3
      simp [mapSet, mapGet, Ne.symm h]
    · by_cases h4 : k3 = k2
      · subst h4
        simp [mapSet, mapGet, h3]
      · simp [mapSet, mapGet, h3, h4, ih]

/-- A non-empty key without `/` is bound at the top level. -/
theorem kvToMap_leaf (k v : GoString) (m : ConfigMap) (hk : k ≠ []) (hs : '/' ∉ k) :
    kvToMap k v m = .ok (mapSet k (.str v) m) := by
  unfold kvToMap kvToMapAux
  simp only [hk, if_false, SplitN2_noSep k '/' hs]
  split <;> simp [mapSet_mapSet]

theorem kvToMap_joinSegs (segs : List GoString) (v : GoString)
    (hne : segs ≠ []) (hseg : ∀ s ∈ segs, IsSegment s) :
    kvToMap (joinSegs '/' segs) v [] = .ok (nestChain segs v) := by
  have hfuel := kvToMapAux_fuel ((joinSegs '/' segs).length + segs.length)
    (joinSegs '/' segs) v [] (by omega)
  rw [← hfuel.1]
  exact kvToMapAux_joinSegs segs v _ hne hseg (by omega)

theorem HasPrefix_append (p t : GoString) : HasPrefix (p ++ t) p = true := by
  unfold HasPrefix
  rw [List.isPrefixOf_iff_prefix]
  exact List.prefix_append p t

theorem Contains_of_HasPrefix (s sub : GoString) (h : HasPrefix s sub = true) :
    Contains s sub = true := by
  cases s with
  | nil =>
    cases sub with
    | nil => rfl
    | cons c cs => simp [HasPrefix, List.isPrefixOf] at h
  | cons c cs => simp [Contains, h]

theorem joinSegs_append (ps rs : List GoString) (hp : ps ≠ []) (hr : rs ≠ []) :
    joinSegs '/' (ps ++ rs) = joinSegs '/' ps ++ '/' :: joinSegs '/' rs := by
  induction ps with
  | nil => exact absurd rfl hp
  | cons p ps ih =>
    cases ps with
    | nil =>
      cases rs with
      | nil => exact absurd rfl hr
      | cons r rs => simp [joinSegs]
    | cons p2 ps =>
      have := ih (by simp)
      simp only [List.cons_append] at this ⊢
      simp [joinSegs, this]

theorem Split_noSep (s : GoString) (sep : Char) (h : sep ∉ s) : Split s sep = [s] := by
  induction s with
  | nil => rfl
  | cons c cs ih =>
    have hc : c ≠ sep := fun e => h (by simp [e])
    have hcs : sep ∉ cs := fun e => h (by simp [e])
    simp [Split, hc, ih hcs]

theorem Split_append (s rest : GoString) (sep : Char) (h : sep ∉ s) :
    Split (s ++ sep :: rest) sep = s :: Split rest sep := by
  induction s with
  | nil => simp [Split]
  | cons c cs ih =>
    have hc : c ≠ sep := fun e => h (by simp [e])
    have hcs : sep ∉ cs := fun e => h (by simp [e])
    simp [Split, hc, ih hcs]

/-- Splitting a key at `/` gives back the segments it was joined from. -/
theorem Split_joinSegs (segs : List GoString) (hne : segs ≠ [])
    (hseg : ∀ s ∈ segs, IsSegment s) : Split (joinSegs '/' segs) '/' = segs := by
  induction segs with
  | nil => exact absurd rfl hne
  | cons s ss ih =>
    have hs : IsSegment s := hseg s (by simp)
    cases ss with
    | nil => simpa [joinSegs] using Split_noSep s '/' hs.2
    | cons s2 ss =>
      have := ih (by simp) (fun x hx => hseg x (by simp [hx]))
      simp [joinSegs, Split_append s _ '/' hs.2, this]

theorem getPath_nestChain (segs : List GoString) (v : GoString) (hne : segs ≠ [])
    (extra : ConfigMap) :
    getPath segs (nestChain segs v ++ extra) = some (.str v) := by
  induction segs generalizing extra with
  | nil => exact absurd rfl hne
  | cons s ss ih =>
    cases ss with
    | nil => simp [getPath, nestChain, mapGet]
    | cons s2 ss =>
      have := ih (by simp) []
      simp only [List.append_nil] at this
      simp [getPath, nestChain, mapGet, this]

theorem sortSlice_pair (P Q : KVPair) (h : P.Key.length < Q.Key.length) :
    sortSlice keyLess [P, Q] = [Q, P] ∧ sortSlice keyLess [Q, P] = [Q, P] := by
  have h1 : ¬ (Q.Key.length < P.Key.length) := by omega
  simp [sortSlice, sinkLeft, keyLess, h, h1]

theorem kvPairsLoop_pair (P Q : KVPair) (m1 m2 : ConfigMap)
    (hc : Contains Q.Key P.Key = true)
    (hq : kvToMap Q.Key Q.Value [] = .ok m1)
    (hp : kvToMap (ReplaceAll P.Key '/' '.') P.Value m1 = .ok m2) :
    kvPairsLoop [] [Q, P] (-1) [] =
      .ok ([Q, { P with Key := ReplaceAll P.Key '/' '.' }], m2) := by
  simp [kvPairsLoop, hq, hc, hp]

theorem ReplaceAll_noSlash (s : GoString) : '/' ∉ ReplaceAll s '/' '.' := by
  unfold ReplaceAll
  intro h
  rw [List.mem_map] at h
  obtain ⟨c, _, hc⟩ := h
  by_cases h2 : c = '/'
  · simp [h2] at hc
  · simp [h2] at hc

theorem ReplaceAll_length (s : GoString) (a b : Char) :
    (ReplaceAll s a b).length = s.length := by
  simp [ReplaceAll]

/-- C1, amended. For every key `p` of at least two segments and every key `q = p + "/" + r`,
all segments non-empty: the map built from the pairs `(p, v1)` and `(q, v2)` binds the
nested path of the segments of `q` to `v2` and the top-level key `p` with `/` replaced by
`.` to `v1`. -/
theorem prefixResolved_of_two_segments (ps rs : List GoString) (v1 v2 : GoString)
    (hp : 2 ≤ ps.length) (hr : rs ≠ [])
    (hps : ∀ s ∈ ps, IsSegment s) (hrs : ∀ s ∈ rs, IsSegment s) :
    PrefixResolved (joinSegs '/' ps) (joinSegs '/' rs) v1 v2 = true := by
  have hpne : ps ≠ [] := by intro h; simp [h] at hp
  have hall : ∀ s ∈ ps ++ rs, IsSegment s := by
    intro s hs
    rcases List.mem_append.mp hs with h | h
    · exact hps s h
    · exact hrs s h
  have hqne : ps ++ rs ≠ [] := by simp [hpne]
  have hq : joinSegs '/' ps ++ '/' :: joinSegs '/' rs = joinSegs '/' (ps ++ rs) :=
    (joinSegs_append ps rs hpne hr).symm
  obtain ⟨s1, s2, ps2, rfl⟩ : ∃ s1 s2 ps2, ps = s1 :: s2 :: ps2 := by
    match ps, hp with
    | s1 :: s2 :: ps2, _ => exact ⟨s1, s2, ps2, rfl⟩
  -- the flattened key
  have hflatLen : (ReplaceAll (joinSegs '/' (s1 :: s2 :: ps2)) '/' '.').length
      = (joinSegs '/' (s1 :: s2 :: ps2)).length := ReplaceAll_length _ _ _
  have hflat_ne : ReplaceAll (joinSegs '/' (s1 :: s2 :: ps2)) '/' '.' ≠ [] := by
    intro h
    rw [h] at hflatLen
    simp [joinSegs] at hflatLen
    omega
  have hflat_s1 : s1 ≠ ReplaceAll (joinSegs '/' (s1 :: s2 :: ps2)) '/' '.' := by
    intro h
    rw [← h] at hflatLen
    simp [joinSegs] at hflatLen
  have hm1 := kvToMap_joinSegs (s1 :: s2 :: ps2 ++ rs) v2 hqne hall
  have hm2 := kvToMap_leaf (ReplaceAll (joinSegs '/' (s1 :: s2 :: ps2)) '/' '.') v1
    (nestChain (s1 :: s2 :: ps2 ++ rs) v2) hflat_ne (ReplaceAll_noSlash _)
  have hloop := kvPairsLoop_pair ⟨joinSegs '/' (s1 :: s2 :: ps2), v1⟩
    ⟨joinSegs '/' (s1 :: s2 :: ps2 ++ rs), v2⟩ _ _
    (by rw [← hq]; exact Contains_of_HasPrefix _ _ (HasPrefix_append _ _)) hm1 hm2
  have hlt : (KVPair.mk (joinSegs '/' (s1 :: s2 :: ps2)) v1).Key.length
      < (KVPair.mk (joinSegs '/' (s1 :: s2 :: ps2 ++ rs)) v2).Key.length := by
    rw [← hq]; simp
  have hsort := sortSlice_pair _ _ hlt
  have hsplit := Split_joinSegs (s1 :: s2 :: ps2 ++ rs) hqne hall
  have hpath := getPath_nestChain (s1 :: s2 :: ps2 ++ rs) v2 hqne
    [(ReplaceAll (joinSegs '/' (s1 :: s2 :: ps2)) '/' '.', Any.str v1)]
  have hset : mapSet (ReplaceAll (joinSegs '/' (s1 :: s2 :: ps2)) '/' '.') (.str v1)
      (nestChain (s1 :: s2 :: ps2 ++ rs) v2)
      = nestChain (s1 :: s2 :: ps2 ++ rs) v2
        ++ [(ReplaceAll (joinSegs '/' (s1 :: s2 :: ps2)) '/' '.', Any.str v1)] := by
    simp [nestChain, mapSet, hflat_s1]
  have hget : mapGet (ReplaceAll (joinSegs '/' (s1 :: s2 :: ps2)) '/' '.')
      (nestChain (s1 :: s2 :: ps2 ++ rs) v2
        ++ [(ReplaceAll (joinSegs '/' (s1 :: s2 :: ps2)) '/' '.', Any.str v1)])
      = some (.str v1) := by
    rw [← hset]; exact mapGet_mapSet_self _ _ _
  unfold PrefixResolved
  simp only [hq, kvPairsAsMap, hsort.1, hsort.2, hloop, List.all_cons, List.all_nil,
    Bool.and_true, hsplit, hasStrAt, hset, hpath]
  have hsingle : ∀ (k : GoString) (m : ConfigMap), getPath [k] m = mapGet k m :=
    fun _ _ => rfl
  rw [hsingle, hget]
  simp

theorem prefixResolved_of_two_segments_witness :
    PrefixResolved (joinSegs '/' [str "a", str "b"]) (joinSegs '/' [str "c"])
      (str "v1") (str "v2") = true :=
  prefixResolved_of_two_segments [str "a", str "b"] [str "c"] (str "v1") (str "v2")
    (by decide) (by decide) (by decide) (by decide)

/-- C2, failing input. The keys `a/b`, `a/b/c`, `a/d/e` (the order in which the store lists
them) are well formed, and `kvPairsAsMap` binds `a -> b` to the value of `a/b`, which
discards the nested map holding the value of `a/b/c`: that value is at neither place. -/
theorem noDataLoss_fails_on_parent_after_sibling :
    WellFormedKeys [⟨str "a/b", str "3"⟩, ⟨str "a/b/c", str "1"⟩, ⟨str "a/d/e", str "2"⟩] = true ∧
    yieldsMap
      (kvPairsAsMap [⟨str "a/b", str "3"⟩, ⟨str "a/b/c", str "1"⟩, ⟨str "a/d/e", str "2"⟩] [])
      [(str "a", .map [(str "b", .str (str "3")), (str "d", .map [(str "e", .str (str "2"))])])]
      = true ∧
    NoDataLoss [⟨str "a/b", str "3"⟩, ⟨str "a/b/c", str "1"⟩, ⟨str "a/d/e", str "2"⟩] = false := by
  decide

/-- C6, counterexample. The pairs `log.level` and `log.level.package.foo` under the prefix
`""` do not give the nested map `{log: {level: {package: {foo: ERROR}}}, log.level: WARN}`. -/
theorem logLevel_scenario_not_nested :
    yieldsMap
      (kvPairsAsMap
        (cutPrefix [⟨str "log.level", str "WARN"⟩, ⟨str "log.level.package.foo", str "ERROR"⟩]
          (str "")) [])
      [(str "log", .map [(str "level", .map [(str "package",
          .map [(str "foo", .str (str "ERROR"))])])]),
        (str "log.level", .str (str "WARN"))]
      = false := by
  decide

/-- C6, amended. The pairs `log.level` and `log.level.package.foo` under the prefix `""`
give the map `{log.level.package.foo: ERROR, log.level: WARN}`: keys are split at `/`
only, so both dotted keys are top-level keys. -/
theorem logLevel_scenario_flat :
    yieldsMap
      (kvPairsAsMap
        (cutPrefix [⟨str "log.level", str "WARN"⟩, ⟨str "log.level.package.foo", str "ERROR"⟩]
          (str "")) [])
      [(str "log.level.package.foo", .str (str "ERROR")), (str "log.level", .str (str "WARN"))]
      = true := by
  decide

/-- C7, counterexample. For the keys `x/a/b/c`, `a/b/c`, `y/c/d`, `c/d` the first call
binds `c -> d`, and the second call, on the slice as the first one left it, binds the
top-level key `c.d` instead. -/
theorem rerun_differs :
    rerunEqual [⟨str "x/a/b/c", str "1"⟩, ⟨str "a/b/c", str "2"⟩, ⟨str "y/c/d", str "3"⟩,
      ⟨str "c/d", str "4"⟩] = false := by
  decide

theorem mem_sinkLeft {α : Type} (less : α → α → Bool) (x z : α) (ys : List α)
    (h : z ∈ sinkLeft less x ys) : z = x ∨ z ∈ ys := by
  induction ys with
  | nil => simpa [sinkLeft] using h
  | cons y ys ih =>
    unfold sinkLeft at h
    split at h
    · rcases List.mem_cons.mp h with h1 | h1
      · right; simp [h1]
      · rcases ih h1 with h2 | h2
        · left; exact h2
        · right; simp [h2]
    · rcases List.mem_cons.mp h with h1 | h1
      · left; exact h1
      · right; exact h1

theorem sinkLeft_ascending (x : KVPair) (ys : List KVPair)
    (h : ys.Pairwise (fun a b => a.Key.length ≤ b.Key.length)) :
    (sinkLeft keyLess x ys).Pairwise (fun a b => a.Key.length ≤ b.Key.length) := by
  induction ys with
  | nil => simp [sinkLeft]
  | cons y ys ih =>
    rw [List.pairwise_cons] at h
    unfold sinkLeft
    by_cases hl : keyLess x y = true
    · simp only [hl, if_true]
      rw [List.pairwise_cons]
      refine ⟨?_, ih h.2⟩
      intro z hz
      rcases mem_sinkLeft _ _ _ _ hz with h1 | h1
      · subst h1
        simp [keyLess] at hl
        omega
      · exact h.1 z h1
    · simp only [hl]
      simp [keyLess] at hl
      rw [if_neg (by simp), List.pairwise_cons, List.pairwise_cons]
      refine ⟨?_, h.1, h.2⟩
      intro z hz
      rcases List.mem_cons.mp hz with h1 | h1
      · subst h1; exact hl
      · exact Nat.le_trans hl (h.1 z h1)

theorem foldl_sinkLeft_ascending (l acc : List KVPair)
    (h : acc.Pairwise (fun a b => a.Key.length ≤ b.Key.length)) :
    (l.foldl (fun sorted x => sinkLeft keyLess x sorted) acc).Pairwise
      (fun a b => a.Key.length ≤ b.Key.length) := by
  induction l generalizing acc with
  | nil => simpa using h
  | cons x l ih => exact ih _ (sinkLeft_ascending x acc h)

/-- The slice left by `sort.Slice` has its keys in descending order of length. -/
theorem sortSlice_descending (l : List KVPair) :
    (sortSlice keyLess l).Pairwise (fun a b => b.Key.length ≤ a.Key.length) := by
  unfold sortSlice
  rw [List.pairwise_reverse]
  exact foldl_sinkLeft_ascending l [] List.Pairwise.nil

theorem foldl_sinkLeft_of_sorted (l acc : List KVPair)
    (h : (acc.reverse ++ l).Pairwise (fun a b => b.Key.length ≤ a.Key.length)) :
    l.foldl (fun sorted x => sinkLeft keyLess x sorted) acc = l.reverse ++ acc := by
  induction l generalizing acc with
  | nil => simp
  | cons x l ih =>
    have hstep : sinkLeft keyLess x acc = x :: acc := by
      cases acc with
      | nil => rfl
      | cons y ys =>
        have hxy : x.Key.length ≤ y.Key.length := by
          rw [List.pairwise_append] at h
          exact h.2.2 y (by simp) x (by simp)
        have : keyLess x y = false := by simp [keyLess]; omega
        simp [sinkLeft, this]
    simp only [List.foldl_cons, hstep]
    rw [ih (x :: acc) (by simpa using h)]
    simp

/-- On a slice that is already in descending order of key length `sort.Slice` changes
nothing. -/
theorem sortSlice_of_descending (l : List KVPair)
    (h : l.Pairwise (fun a b => b.Key.length ≤ a.Key.length)) :
    sortSlice keyLess l = l := by
  unfold sortSlice
  rw [foldl_sinkLeft_of_sorted l [] (by simpa using h)]
  simp

theorem kvPairsLoop_cons (done rest : List KVPair) (kv : KVPair) (s : Int) (m : ConfigMap) :
    kvPairsLoop done (kv :: rest) s m =
      (match (if s ≥ 0 then
          match (done ++ kv :: rest)[s.toNat]? with
          | some prev => Except.ok (Contains prev.Key kv.Key)
          | none => Except.error Fault.indexOutOfRange
        else Except.ok false : Except Fault Bool) with
      | .error e => .error e
      | .ok true =>
        match kvToMap (ReplaceAll kv.Key '/' '.') kv.Value m with
        | .ok m2 => kvPairsLoop (done ++ [{ kv with Key := ReplaceAll kv.Key '/' '.' }]) rest s m2
        | .error e => .error e
      | .ok false =>
        match kvToMap kv.Key kv.Value m with
        | .ok m2 => kvPairsLoop (done ++ [kv]) rest (s + 1) m2
        | .error e => .error e) := by
  rw [kvPairsLoop]

/-- What a completed run of the loop leaves: the pairs already visited are untouched, the
other keys keep their length, and the map is the result of inserting the keys as they
were left, in order. -/
theorem kvPairsLoop_ok (todo : List KVPair) : ∀ (done : List KVPair) (s : Int)
    (m : ConfigMap) (left : List KVPair) (m2 : ConfigMap),
    kvPairsLoop done todo s m = .ok (left, m2) →
    ∃ todo2, left = done ++ todo2 ∧
      todo2.map (fun p => p.Key.length) = todo.map (fun p => p.Key.length) ∧
      insertAll todo2 m = .ok m2 := by
  induction todo with
  | nil =>
    intro done s m left m2 h
    simp [kvPairsLoop] at h
    exact ⟨[], by simp [h.1], rfl, by simp [insertAll, h.2]⟩
  | cons kv rest ih =>
    intro done s m left m2 h
    rw [kvPairsLoop_cons] at h
    split at h
    · exact absurd h (by simp)
    · split at h
      · rename_i m3 hm3
        obtain ⟨todo2, h1, h2, h3⟩ := ih _ _ _ _ _ h
        refine ⟨{ kv with Key := ReplaceAll kv.Key '/' '.' } :: todo2, ?_, ?_, ?_⟩
        · simp [h1]
        · simp [h2, ReplaceAll_length]
        · simp [insertAll, hm3, h3]
      · exact absurd h (by simp)
    · split at h
      · rename_i m3 hm3
        obtain ⟨todo2, h1, h2, h3⟩ := ih _ _ _ _ _ h
        refine ⟨kv :: todo2, ?_, ?_, ?_⟩
        · simp [h1]
        · simp [h2]
        · simp [insertAll, hm3, h3]
      · exact absurd h (by simp)

theorem ReplaceAll_of_not_mem (s : GoString) (a b : Char) (h : a ∉ s) :
    ReplaceAll s a b = s := by
  induction s with
  | nil => rfl
  | cons c cs ih =>
    have hc : c ≠ a := fun e => h (by simp [e])
    have hcs : a ∉ cs := fun e => h (by simp [e])
    have := ih hcs
    unfold ReplaceAll at this ⊢
    simp [hc, this]

/-- On a slice in which no key with a `/` occurs inside an earlier key, the loop rewrites
no key, and its map is the result of inserting the keys in order. -/
theorem kvPairsLoop_stable (todo : List KVPair) : ∀ (done : List KVPair) (s : Int)
    (m m2 : ConfigMap),
    s + 1 ≤ done.length → SlashKeysApart (done ++ todo) → insertAll todo m = .ok m2 →
    kvPairsLoop done todo s m = .ok (done ++ todo, m2) := by
  induction todo with
  | nil =>
    intro done s m m2 _ _ h
    simp [insertAll] at h
    simp [kvPairsLoop, h]
  | cons kv rest ih =>
    intro done s m m2 hs hapart hins
    have hapart2 : SlashKeysApart ((done ++ [kv]) ++ rest) := by simpa using hapart
    unfold insertAll at hins
    split at hins
    · rename_i m3 hm3
      rw [kvPairsLoop_cons]
      by_cases hs0 : s ≥ 0
      · have hlt : s.toNat < done.length := by omega
        have hget : (done ++ kv :: rest)[s.toNat]? = some (done.get ⟨s.toNat, hlt⟩) := by
          rw [List.getElem?_append_left hlt]
          simp
        have hmem : done.get ⟨s.toNat, hlt⟩ ∈ done := List.get_mem _ _ _
        simp only [hs0, if_true, hget]
        cases hc : Contains (done.get ⟨s.toNat, hlt⟩).Key kv.Key with
        | true =>
          have hno : '/' ∉ kv.Key := by
            intro hmemSlash
            unfold SlashKeysApart at hapart
            rw [List.pairwise_append] at hapart
            have := hapart.2.2 _ hmem kv (by simp) hmemSlash
            rw [hc] at this
            exact absurd this (by simp)
          have hkey : ReplaceAll kv.Key '/' '.' = kv.Key := ReplaceAll_of_not_mem _ _ _ hno
          simp only [hkey, hm3]
          have := ih (done ++ [kv]) s m3 m2 (by simp; omega) hapart2 hins
          simpa using this
        | false =>
          simp only [hm3]
          have := ih (done ++ [kv]) (s + 1) m3 m2 (by simp; omega) hapart2 hins
          simpa using this
      · simp only [hs0, if_false, hm3]
        have := ih (done ++ [kv]) (s + 1) m3 m2 (by simp; omega) hapart2 hins
        simpa using this
    · exact absurd hins (by simp)

theorem HasSuffix_append_self (p sfx : GoString) : HasSuffix (p ++ sfx) sfx = true := by
  unfold HasSuffix
  rw [List.isSuffixOf_iff_suffix]
  exact List.suffix_append p sfx

theorem TrimPrefix_eq_drop (s pfx : GoString) :
    TrimPrefix s pfx = if HasPrefix s pfx then s.drop pfx.length else s := rfl

/-- C8. `cutPrefix` tolerates a leading or a trailing `/` on the prefix: for a prefix `p`
that neither starts nor ends with `/`, the calls with `p`, with `/p` and with `p/` leave
the same slice, in which a key that starts with `p/` has lost exactly that prefix, and
every other key, every value, the number and the order of the pairs are unchanged. -/
theorem cutPrefix_tolerates_slash (p : GoString) (pairs : List KVPair)
    (hstart : HasPrefix p ['/'] = false) (hend : HasSuffix p ['/'] = false) :
    cutPrefix pairs ('/' :: p) = cutPrefix pairs p ∧
    cutPrefix pairs (p ++ ['/']) = cutPrefix pairs p ∧
    cutPrefix pairs p = pairs.map (fun kv =>
      if HasPrefix kv.Key (p ++ ['/']) then
        { Key := kv.Key.drop (p.length + 1), Value := kv.Value }
      else kv) := by
  have h1 : TrimPrefix p ['/'] = p := by
    unfold TrimPrefix; simp [hstart]
  have h2 : TrimPrefix ('/' :: p) ['/'] = p := by
    simp [TrimPrefix, HasPrefix, List.isPrefixOf]
  have h3 : TrimPrefix (p ++ ['/']) ['/'] = p ++ ['/'] ∨ p = [] := by
    cases p with
    | nil => right; rfl
    | cons c t =>
      left
      have hc : c ≠ '/' := by
        intro e
        simp [HasPrefix, List.isPrefixOf, e] at hstart
      simp [TrimPrefix, HasPrefix, List.isPrefixOf, Ne.symm hc]
  have hsfx : HasSuffix (p ++ ['/']) ['/'] = true := HasSuffix_append_self p ['/']
  refine ⟨?_, ?_, ?_⟩
  · unfold cutPrefix
    simp only [h1, h2]
  · rcases h3 with h3 | h3
    · unfold cutPrefix
      simp only [h1, h3, hsfx, hend]
      simp
    · subst h3
      have e1 : TrimPrefix (([] : GoString) ++ ['/']) ['/'] = [] := by decide
      unfold cutPrefix
      simp only [e1, h1, hend]
  · unfold cutPrefix
    simp only [h1, hend]
    apply List.map_congr_left
    intro kv _
    simp only [TrimPrefix_eq_drop, Bool.not_false, if_true, List.length_append,
      List.length_singleton]
    by_cases hk : HasPrefix kv.Key (p ++ ['/']) = true
    · simp only [hk, if_true]
    · simp only [hk]
      rfl

theorem cutPrefix_tolerates_slash_witness :
    cutPrefix [⟨str "prefix/key", str "val"⟩] ('/' :: str "prefix") =
        cutPrefix [⟨str "prefix/key", str "val"⟩] (str "prefix") ∧
    cutPrefix [⟨str "prefix/key", str "val"⟩] (str "prefix" ++ ['/']) =
        cutPrefix [⟨str "prefix/key", str "val"⟩] (str "prefix") ∧
    cutPrefix [⟨str "prefix/key", str "val"⟩] (str "prefix") =
      [⟨str "prefix/key", str "val"⟩].map (fun kv =>
        if HasPrefix kv.Key (str "prefix" ++ ['/']) then
          { Key := kv.Key.drop ((str "prefix").length + 1), Value := kv.Value }
        else kv) :=
  cutPrefix_tolerates_slash (str "prefix") [⟨str "prefix/key", str "val"⟩]
    (by decide) (by decide)

theorem foldl_subscribe (paths : List GoString) (idx : List (GoString × Nat))
    (subs : List (GoString × Nat)) :
    paths.foldl (fun acc p => acc ++ [(p, indexGet p idx)]) subs
      = subs ++ paths.map (fun p => (p, indexGet p idx)) := by
  induction paths generalizing subs with
  | nil => simp
  | cons p ps ih => simp [List.foldl_cons, ih]

theorem Watch_of_done (r : ProviderImpl) (h : r.watchOnce = true) : Watch r = (r, none) := by
  simp [Watch, h]

theorem watchCalls_of_done (n : Nat) (r : ProviderImpl) (h : r.watchOnce = true) :
    watchCalls n r = (r, List.replicate n none) := by
  induction n with
  | zero => rfl
  | succ n ih => simp [watchCalls, Watch_of_done r h, ih, List.replicate_succ]

/-- C9. `Watch` is idempotent: in every sequence of `Watch` calls on a provider whose
`watchOnce` has not run yet, the first call starts one loop for each entry of the configured
paths, in order, each seeded with the index recorded for that path (zero when none is
recorded); the later calls start no loop; every call returns no error. -/
theorem Watch_idempotent (r : ProviderImpl) (n : Nat) (hfresh : r.watchOnce = false) :
    (Watch r).1.subscriptions
      = r.subscriptions ++ r.cfg.Paths.map (fun p => (p, indexGet p r.configIndex)) ∧
    (watchCalls (n + 1) r).1.subscriptions = (Watch r).1.subscriptions ∧
    (watchCalls (n + 1) r).2 = List.replicate (n + 1) none := by
  have hw : Watch r = ({ r with
      watchOnce := true
      subscriptions :=
        r.subscriptions ++ r.cfg.Paths.map (fun p => (p, indexGet p r.configIndex)) },
      none) := by
    simp [Watch, hfresh, foldl_subscribe]
  have hdone : (Watch r).1.watchOnce = true := by rw [hw]
  have hrest := watchCalls_of_done n (Watch r).1 hdone
  refine ⟨by rw [hw], ?_, ?_⟩
  · simp [watchCalls, hrest]
  · have h2 : (Watch r).2 = none := by rw [hw]
    simp only [watchCalls, hrest, h2, List.replicate_succ]

theorem Watch_idempotent_witness :
    (Watch (newProvider ⟨[], [], [], [str "config/ns/application", str "config/ns/ms"],
        false, [], false⟩)).1.subscriptions
      = [] ++ [str "config/ns/application", str "config/ns/ms"].map (fun p => (p, indexGet p [])) ∧
    (watchCalls (2 + 1) (newProvider ⟨[], [], [],
        [str "config/ns/application", str "config/ns/ms"], false, [], false⟩)).1.subscriptions
      = (Watch (newProvider ⟨[], [], [], [str "config/ns/application", str "config/ns/ms"],
        false, [], false⟩)).1.subscriptions ∧
    (watchCalls (2 + 1) (newProvider ⟨[], [], [],
        [str "config/ns/application", str "config/ns/ms"], false, [], false⟩)).2
      = List.replicate (2 + 1) none :=
  Watch_idempotent (newProvider ⟨[], [], [], [str "config/ns/application", str "config/ns/ms"],
    false, [], false⟩) 2 rfl

/-- C10, counterexample. A watch attempt that polls with index 5 and is answered, without
error, with the index 3 succeeds and leaves the index 3. -/
theorem watch_index_can_decrease :
    subscribeAttempt (str "log") 5 none (.ok (some []) ⟨3⟩) = .ok ⟨none, 3, 1⟩ ∧ ¬ (5 ≤ 3) :=
  ⟨rfl, by decide⟩

theorem indexGet_indexSet_self (p : GoString) (v : Nat) (idx : List (GoString × Nat)) :
    indexGet p (indexSet p v idx) = v := by
  induction idx with
  | nil => simp [indexSet, indexGet]
  | cons e idx ih =>
    obtain ⟨k, w⟩ := e
    by_cases h : k = p
    · simp [indexSet, indexGet, h]
    · simp [indexSet, indexGet, h, ih]

/-- C10, amended. After a successful poll the index recorded for the path is the index that
the store returned for this poll: in a watch attempt that returns no error, `currentIndex`
is the `LastIndex` of the answer, so it is at least the index of the request whenever the
store answers with an index that is; in `Read`, whose request carries no index (zero), the
entry of `configIndex` for the path is the `LastIndex` of the answer. -/
theorem recorded_index_is_returned_index (path : GoString) (idx : Nat)
    (login : Option GoError) (answer : ListResult) (res : AttemptResult)
    (failsafe : Bool) (list : Option (List KVPair)) (qm : QueryMeta) (m m2 : ConfigMap)
    (idxs idxs2 : List (GoString × Nat))
    (hwatch : subscribeAttempt path idx login answer = .ok res) (hok : res.err = none)
    (hread : loadPath failsafe path (.ok list qm) m idxs = .ok (.next m2 idxs2)) :
    (∃ l q, answer = .ok (some l) q ∧ res.currentIndex = q.LastIndex ∧
      (idx ≤ q.LastIndex → idx ≤ res.currentIndex)) ∧
    indexGet path idxs2 = qm.LastIndex ∧ 0 ≤ indexGet path idxs2 := by
  refine ⟨?_, ?_, Nat.zero_le _⟩
  · unfold subscribeAttempt at hwatch
    cases login with
    | some e =>
      simp at hwatch
      rw [← hwatch] at hok
      simp at hok
    | none =>
      cases answer with
      | fail e =>
        simp at hwatch
        rw [← hwatch] at hok
        simp at hok
      | ok l q =>
        cases l with
        | none =>
          simp at hwatch
          rw [← hwatch] at hok
          simp at hok
        | some l =>
          simp only at hwatch
          split at hwatch
          · exact absurd hwatch (by simp)
          · simp at hwatch
            refine ⟨l, q, rfl, ?_, ?_⟩
            · rw [← hwatch]
            · intro h; rw [← hwatch]; exact h
  · unfold loadPath at hread
    simp only at hread
    split at hread
    · exact absurd hread (by simp)
    · simp at hread
      rw [← hread.2]
      exact indexGet_indexSet_self _ _ _

theorem recorded_index_is_returned_index_witness :
    (∃ l q, ListResult.ok (some [⟨str "log/level", str "WARN"⟩]) ⟨8⟩ = .ok (some l) q ∧
      (AttemptResult.mk none 8 1).currentIndex = q.LastIndex ∧
      (5 ≤ q.LastIndex → 5 ≤ (AttemptResult.mk none 8 1).currentIndex)) ∧
    indexGet (str "log") [(str "log", 8)] = (QueryMeta.mk 8).LastIndex ∧
    0 ≤ indexGet (str "log") [(str "log", 8)] :=
  recorded_index_is_returned_index (str "log") 5 none
    (.ok (some [⟨str "log/level", str "WARN"⟩]) ⟨8⟩) ⟨none, 8, 1⟩
    true (some [⟨str "log/level", str "WARN"⟩]) ⟨8⟩ [] [(str "level", .str (str "WARN"))]
    [] [(str "log", 8)] rfl rfl rfl

theorem fillNamespace_failsafe (cfg : ProviderConfig) (env : Env) :
    (fillNamespace cfg env).Failsafe = cfg.Failsafe ∧
    (fillNamespace cfg env).Address = cfg.Address := by
  unfold fillNamespace; split <;> simp

theorem fillMicroserviceName_failsafe (cfg : ProviderConfig) (env : Env) :
    (fillMicroserviceName cfg env).Failsafe = cfg.Failsafe ∧
    (fillMicroserviceName cfg env).Address = cfg.Address := by
  unfold fillMicroserviceName; split <;> simp

theorem fillPaths_failsafe (cfg : ProviderConfig) :
    (fillPaths cfg).Failsafe = cfg.Failsafe := by
  unfold fillPaths; repeat' split
  all_goals rfl

theorem fillAddress_failsafe (cfg cfg2 : ProviderConfig) (env : Env)
    (h : fillAddress cfg env = .ok cfg2) : cfg2.Failsafe = cfg.Failsafe := by
  unfold fillAddress at h
  split at h
  · split at h
    · exact absurd h (by simp)
    · simp only [Except.ok.injEq] at h; subst h; rfl
  · simp only [Except.ok.injEq] at h; subst h; rfl

theorem fillAddress_ok (cfg : ProviderConfig) (env : Env)
    (h : cfg.Failsafe = true ∨ cfg.Address ≠ [] ∨ env.consulUrlParses = true) :
    ∃ cfg2, fillAddress cfg env = .ok cfg2 := by
  unfold fillAddress
  by_cases ha : cfg.Address = []
  · rcases h with h | h | h
    · simp [ha, h]
    · exact absurd ha h
    · simp [ha, h]
  · simp [ha]

theorem fillDefaults_keeps (r r1 : ProviderImpl) (env : Env)
    (h : fillDefaultsIfNeeded r env = .ok r1) :
    r1.cfg.Failsafe = r.cfg.Failsafe ∧ r1.configIndex = r.configIndex := by
  unfold fillDefaultsIfNeeded at h
  split at h
  · exact absurd h (by simp)
  · rename_i cfg hcfg
    simp only [Except.ok.injEq] at h
    subst h
    refine ⟨?_, rfl⟩
    simp only [fillPaths_failsafe, fillAddress_failsafe _ _ _ hcfg,
      (fillMicroserviceName_failsafe _ _).1, (fillNamespace_failsafe _ _).1]

/-- Default filling completes in failsafe mode, and in strict mode when an address is
configured or the value of `consul.url` parses. -/
theorem fillDefaults_ok (r : ProviderImpl) (env : Env)
    (h : r.cfg.Failsafe = true ∨ r.cfg.Address ≠ [] ∨ env.consulUrlParses = true) :
    ∃ r1, fillDefaultsIfNeeded r env = .ok r1 := by
  unfold fillDefaultsIfNeeded
  obtain ⟨cfg2, h2⟩ := fillAddress_ok (fillMicroserviceName (fillNamespace r.cfg env) env) env
    (by
      simp only [(fillMicroserviceName_failsafe _ _).1, (fillNamespace_failsafe _ _).1,
        (fillMicroserviceName_failsafe _ _).2, (fillNamespace_failsafe _ _).2]
      exact h)
  rw [h2]
  exact ⟨_, rfl⟩

/-- In failsafe mode the loop of `loadConsulConfigParams` ends without an error, with the map
merged from the answers of the list calls that succeeded, when that merge completes. -/
theorem loadPaths_failsafe (store : Store) (paths : List GoString) :
    ∀ (n : Nat) (m : ConfigMap) (idx : List (GoString × Nat)) (m2 : ConfigMap),
    mergeAll (listedPairs true store paths n) m = .ok m2 →
    ∃ idx2, (loadPaths true store paths n m idx).2 = .ok (none, m2, idx2) := by
  induction paths with
  | nil =>
    intro n m idx m2 h
    simp [listedPairs, mergeAll] at h
    exact ⟨idx, by simp [loadPaths, h]⟩
  | cons path rest ih =>
    intro n m idx m2 h
    unfold listedPairs at h
    unfold loadPaths loadPath
    cases hs : store n path with
    | fail err =>
      simp only [hs, if_true] at h ⊢
      exact ih _ _ _ _ h
    | ok list qm =>
      simp only [hs] at h ⊢
      unfold mergeAll at h
      split at h
      · exact absurd h (by simp)
      · rename_i left m3 hm3
        simp only [hm3]
        exact ih _ _ _ _ h

/-- C3, counterexample. In failsafe mode, with three paths of which the first fails to list
and the other two list successfully, one with the key `p/a` and the next with the key
`q/a/b`, `Read` returns nothing: merging the last list faults at the type assertion of
`kvToMap`, because `a` is bound to a string. -/
theorem Read_failsafe_conflict_faults :
    (Read
      (newProvider ⟨str "http://consul", str "ns", str "ms", [str "down", str "p", str "q"],
        true, [], false⟩)
      ⟨[], [], [], false⟩ none
      (fun n _ =>
        if n = 0 then .fail (str "503")
        else if n = 1 then .ok (some [⟨str "p/a", str "1"⟩]) ⟨7⟩
        else .ok (some [⟨str "q/a/b", str "2"⟩]) ⟨9⟩)
      koanfFlatten).result = .error .typeAssertion := by
  rfl

/-- C3, amended. Failsafe isolation: in failsafe mode, after a successful login, whenever
the merge of the pairs of the paths whose list call succeeded (in path order) completes with
a map `m`, `Read` returns no error and the flattening of `m`; a path whose list call fails
contributes nothing and does not stop the other paths from contributing. -/
theorem Read_failsafe_isolation (r : ProviderImpl) (env : Env) (store : Store)
    (Flatten : ConfigMap → ConfigMap) (m : ConfigMap)
    (hfs : r.cfg.Failsafe = true)
    (hmerge : mergeAll (listedPairs true store (effectivePaths r env) 0) [] = .ok m) :
    ∃ r2, (Read r env none store Flatten).result = .ok (⟨some (Flatten m), none⟩, r2) := by
  obtain ⟨r1, hr1⟩ := fillDefaults_ok r env (Or.inl hfs)
  have hfs1 : r1.cfg.Failsafe = true := by rw [(fillDefaults_keeps r r1 env hr1).1, hfs]
  have hpaths : effectivePaths r env = r1.cfg.Paths := by simp [effectivePaths, hr1]
  rw [hpaths] at hmerge
  obtain ⟨idx2, hload⟩ := loadPaths_failsafe store r1.cfg.Paths 0 [] r1.configIndex m hmerge
  refine ⟨{ r1 with configIndex := idx2 }, ?_⟩
  unfold Read
  simp only [hr1]
  unfold loadConsulConfigParams
  rw [hfs1]
  generalize hrun : loadPaths true store r1.cfg.Paths 0 [] r1.configIndex = run at hload
  obtain ⟨c, res⟩ := run
  simp only at hload
  subst hload
  rfl

theorem Read_failsafe_isolation_witness :
    ∃ r2, (Read
      (newProvider ⟨str "http://consul", str "ns", str "ms", [str "down", str "log"], true, [],
        false⟩)
      ⟨[], [], [], false⟩ none
      (fun n _ =>
        if n = 0 then .fail (str "503") else .ok (some [⟨str "log/level", str "DEBUG"⟩]) ⟨9⟩)
      koanfFlatten).result
      = .ok (⟨some (koanfFlatten [(str "level", .str (str "DEBUG"))]), none⟩, r2) :=
  Read_failsafe_isolation
    (newProvider ⟨str "http://consul", str "ns", str "ms", [str "down", str "log"], true, [],
      false⟩)
    ⟨[], [], [], false⟩
    (fun n _ =>
      if n = 0 then .fail (str "503") else .ok (some [⟨str "log/level", str "DEBUG"⟩]) ⟨9⟩)
    koanfFlatten [(str "level", .str (str "DEBUG"))] rfl rfl

/-- What the loop over the paths returns when it returns: without failsafe, the error of the
first path, in order, whose list call fails (no error when none fails); in failsafe mode, no
error. -/
theorem loadPaths_returns (failsafe : Bool) (store : Store) (paths : List GoString) :
    ∀ (n : Nat) (m : ConfigMap) (idx : List (GoString × Nat)) (oe : Option GoError)
      (m2 : ConfigMap) (idx2 : List (GoString × Nat)),
    (loadPaths failsafe store paths n m idx).2 = .ok (oe, m2, idx2) →
    oe = if failsafe then none else firstFailure store paths n := by
  induction paths with
  | nil =>
    intro n m idx oe m2 idx2 h
    simp only [loadPaths, Except.ok.injEq, Prod.mk.injEq] at h
    simp [firstFailure, ← h.1]
  | cons path rest ih =>
    intro n m idx oe m2 idx2 h
    unfold loadPaths loadPath at h
    cases hs : store n path with
    | fail err =>
      cases failsafe with
      | true =>
        simp only [hs, if_true] at h
        simpa using ih (n + 1) m idx oe m2 idx2 h
      | false =>
        simp only [hs, Bool.false_eq_true, if_false, Except.ok.injEq, Prod.mk.injEq] at h
        simp [firstFailure, hs, ← h.1]
    | ok list qm =>
      simp only [hs] at h
      cases hm : kvPairsAsMap (cutPrefix (list.getD []) path) m with
      | error f =>
        simp only [hm] at h
        exact absurd h (by simp)
      | ok out =>
        obtain ⟨left, m3⟩ := out
        simp only [hm] at h
        have := ih (n + 1) m3 (indexSet path qm.LastIndex idx) oe m2 idx2 h
        rw [this]
        simp [firstFailure, hs]

/-- A list call of some path fails exactly when there is a first failure. -/
theorem firstFailure_ne_none_iff (store : Store) (paths : List GoString) :
    ∀ n : Nat, firstFailure store paths n ≠ none ↔
      ∃ i p err, paths[i]? = some p ∧ store (n + i) p = .fail err := by
  induction paths with
  | nil => intro n; simp [firstFailure]
  | cons path rest ih =>
    intro n
    unfold firstFailure
    cases hs : store n path with
    | fail err =>
      simp only [ne_eq, reduceCtorEq, not_false_eq_true, true_iff]
      exact ⟨0, path, err, by simp, by simpa using hs⟩
    | ok list qm =>
      simp only []
      rw [ih (n + 1)]
      constructor
      · rintro ⟨i, p, err, h1, h2⟩
        exact ⟨i + 1, p, err, by simpa using h1, by rw [← h2]; congr 1; omega⟩
      · rintro ⟨i, p, err, h1, h2⟩
        cases i with
        | zero =>
          simp only [List.getElem?_cons_zero, Option.some.injEq] at h1
          subst h1
          rw [Nat.add_zero, hs] at h2
          exact absurd h2 (by simp)
        | succ i =>
          exact ⟨i, p, err, by simpa using h1, by rw [← h2]; congr 1; omega⟩

/-- The values that a run of `Read` returns, when it returns: an error exactly when failsafe
is off and the login or the list call of some configured path fails. -/
theorem Read_returned (r : ProviderImpl) (env : Env) (login : Option GoError)
    (store : Store) (Flatten : ConfigMap → ConfigMap) (res : ReadResult) (r2 : ProviderImpl)
    (hret : (Read r env login store Flatten).result = .ok (res, r2)) :
    (res.err ≠ none ↔
      (r.cfg.Failsafe = false ∧
        (login ≠ none ∨
          ∃ i p err, (effectivePaths r env)[i]? = some p ∧ store i p = .fail err))) ∧
    (∀ e, res.err = some e ↔
      (r.cfg.Failsafe = false ∧
        (login = some e ∨
          (login = none ∧ firstFailure store (effectivePaths r env) 0 = some e)))) ∧
    (res.err ≠ none → res.map = none) ∧
    (∀ e, r.cfg.Failsafe = true → login = some e →
      ∃ r3, (Read r env login store Flatten).result = .ok (⟨some [], none⟩, r3)) := by
  have hsome : (∀ e, res.err = some e ↔
      (r.cfg.Failsafe = false ∧
        (login = some e ∨
          (login = none ∧ firstFailure store (effectivePaths r env) 0 = some e)))) ∧
      (res.err ≠ none → res.map = none) ∧
      (∀ e, r.cfg.Failsafe = true → login = some e →
        ∃ r3, (Read r env login store Flatten).result = .ok (⟨some [], none⟩, r3)) := by
    cases hdef : fillDefaultsIfNeeded r env with
    | error f =>
      simp only [Read, hdef] at hret
      exact absurd hret (by simp)
    | ok r1 =>
      have hfs1 : r1.cfg.Failsafe = r.cfg.Failsafe := (fillDefaults_keeps r r1 env hdef).1
      have hpaths : effectivePaths r env = r1.cfg.Paths := by simp [effectivePaths, hdef]
      cases login with
      | some err =>
        cases hfs : r.cfg.Failsafe with
        | true =>
          simp only [Read, hdef, hfs1, hfs, if_true, Except.ok.injEq, Prod.mk.injEq] at hret
          refine ⟨?_, ?_, ?_⟩
          · intro e
            rw [← hret.1]
            simp
          · intro h
            rw [← hret.1] at h
            exact absurd rfl h
          · intro e _ _
            exact ⟨r1, by simp [Read, hdef, hfs1, hfs]⟩
        | false =>
          simp only [Read, hdef, hfs1, hfs, Bool.false_eq_true, if_false, Except.ok.injEq,
            Prod.mk.injEq] at hret
          refine ⟨?_, ?_, ?_⟩
          · intro e
            rw [← hret.1]
            simp
          · intro _
            rw [← hret.1]
          · intro e h
            exact absurd h (by simp)
      | none =>
        simp only [Read, hdef, loadConsulConfigParams] at hret
        rw [hpaths, ← hfs1]
        cases hl : loadPaths r1.cfg.Failsafe store r1.cfg.Paths 0 [] r1.configIndex with
        | mk n out =>
          rw [hl] at hret
          cases out with
          | error f => exact absurd hret (by simp)
          | ok val =>
            obtain ⟨oe, m2, idx2⟩ := val
            have hoe := loadPaths_returns r1.cfg.Failsafe store r1.cfg.Paths 0 [] r1.configIndex
              oe m2 idx2 (by rw [hl])
            cases oe with
            | none =>
              simp only [Except.ok.injEq, Prod.mk.injEq] at hret
              refine ⟨?_, ?_, ?_⟩
              · intro e
                rw [← hret.1]
                cases hf : r1.cfg.Failsafe with
                | true => simp
                | false =>
                  rw [hf] at hoe
                  simp only [Bool.false_eq_true, if_false] at hoe
                  simp [← hoe]
              · intro h
                rw [← hret.1] at h
                exact absurd rfl h
              · intro e _ h
                exact absurd h (by simp)
            | some e2 =>
              simp only [Except.ok.injEq, Prod.mk.injEq] at hret
              refine ⟨?_, ?_, ?_⟩
              · intro e
                rw [← hret.1]
                cases hf : r1.cfg.Failsafe with
                | true =>
                  rw [hf] at hoe
                  exact absurd hoe (by simp)
                | false =>
                  rw [hf] at hoe
                  simp only [Bool.false_eq_true, if_false] at hoe
                  simp [← hoe]
              · intro _
                rw [← hret.1]
              · intro e _ h
                exact absurd h (by simp)
  refine ⟨?_, hsome⟩
  constructor
  · intro hne
    obtain ⟨e, he⟩ := Option.ne_none_iff_exists'.mp hne
    obtain ⟨hfs, h⟩ := (hsome.1 e).mp he
    refine ⟨hfs, ?_⟩
    rcases h with h | h
    · exact Or.inl (by rw [h]; simp)
    · right
      have := (firstFailure_ne_none_iff store (effectivePaths r env) 0).mp (by rw [h.2]; simp)
      simpa using this
  · rintro ⟨hfs, h⟩
    cases hlogin : login with
    | some e =>
      rw [((hsome.1 e).mpr ⟨hfs, Or.inl hlogin⟩)]
      simp
    | none =>
      rcases h with h | h
      · exact absurd hlogin h
      · have hne := (firstFailure_ne_none_iff store (effectivePaths r env) 0).mpr
          (by simpa using h)
        obtain ⟨e, he⟩ := Option.ne_none_iff_exists'.mp hne
        rw [((hsome.1 e).mpr ⟨hfs, Or.inr ⟨hlogin, he⟩⟩)]
        simp

/-- C4. `Read` returns an error exactly when failsafe is off and either the login fails or the
list call of some configured path fails; the error is the login error, or else that of the
first path, in configured order, whose list call fails; no map is returned with an error
(all this for every run that returns, that is, does not end in a panic). In failsafe mode a
failed login makes `Read` return an empty map and no error. -/
theorem Read_error_iff (r : ProviderImpl) (env : Env) (login : Option GoError)
    (store : Store) (Flatten : ConfigMap → ConfigMap) :
    (∀ res r2, (Read r env login store Flatten).result = .ok (res, r2) →
      (res.err ≠ none ↔
        (r.cfg.Failsafe = false ∧
          (login ≠ none ∨
            ∃ i p err, (effectivePaths r env)[i]? = some p ∧ store i p = .fail err))) ∧
      (∀ e, res.err = some e ↔
        (r.cfg.Failsafe = false ∧
          (login = some e ∨
            (login = none ∧ firstFailure store (effectivePaths r env) 0 = some e)))) ∧
      (res.err ≠ none → res.map = none)) ∧
    (∀ e, r.cfg.Failsafe = true → login = some e →
      ∃ r3, (Read r env login store Flatten).result = .ok (⟨some [], none⟩, r3)) := by
  refine ⟨fun res r2 hret => ?_, ?_⟩
  · have h := Read_returned r env login store Flatten res r2 hret
    exact ⟨h.1, h.2.1, h.2.2.1⟩
  · intro e hfs hlogin
    obtain ⟨r1, hr1⟩ := fillDefaults_ok r env (Or.inl hfs)
    have hfs1 : r1.cfg.Failsafe = r.cfg.Failsafe := (fillDefaults_keeps r r1 env hr1).1
    exact ⟨r1, by simp [Read, hr1, hlogin, hfs1, hfs]⟩

theorem Read_error_iff_witness :
    (ReadResult.mk none (some (str "503"))).err ≠ none ↔
      ((newProvider ⟨str "http://consul", str "ns", str "ms", [str "app", str "ms"], false, [],
          false⟩).cfg.Failsafe = false ∧
        ((none : Option GoError) ≠ none ∨
          ∃ i p err,
            (effectivePaths
              (newProvider ⟨str "http://consul", str "ns", str "ms", [str "app", str "ms"],
                false, [], false⟩)
              ⟨[], [], [], false⟩)[i]? = some p ∧
            (fun (n : Nat) (_ : GoString) =>
              if n = 0 then ListResult.ok (some [⟨str "app/key", str "v"⟩]) ⟨4⟩
              else ListResult.fail (str "503")) i p = .fail err)) :=
  ((Read_error_iff
    (newProvider ⟨str "http://consul", str "ns", str "ms", [str "app", str "ms"], false, [],
      false⟩)
    ⟨[], [], [], false⟩ none
    (fun n _ =>
      if n = 0 then .ok (some [⟨str "app/key", str "v"⟩]) ⟨4⟩ else .fail (str "503"))
    koanfFlatten).1 ⟨none, some (str "503")⟩
    { newProvider ⟨str "http://consul", str "ns", str "ms", [str "app", str "ms"], false, [],
        false⟩ with configIndex := [(str "app", 4)] }
    rfl).1

theorem kvToMapAux_fault (fuel : Nat) : ∀ (key value : GoString) (res : ConfigMap) (f : Fault),
    kvToMapAux fuel key value res = .error f → f = .typeAssertion ∨ f = .outOfFuel := by
  induction fuel with
  | zero =>
    intro key value res f h
    unfold kvToMapAux at h
    split at h
    · exact absurd h (by simp)
    · simp only at h
      split at h
      · exact absurd h (by simp)
      · split at h
        · simp only [Except.error.injEq] at h
          exact Or.inr h.symm
        · simp only [Except.error.injEq] at h
          exact Or.inl h.symm
  | succ n ih =>
    intro key value res f h
    unfold kvToMapAux at h
    split at h
    · exact absurd h (by simp)
    · simp only at h
      split at h
      · exact absurd h (by simp)
      · split at h
        · split at h
          · exact absurd h (by simp)
          · rename_i e he
            simp only [Except.error.injEq] at h
            subst h
            exact ih _ _ _ _ he
        · simp only [Except.error.injEq] at h
          exact Or.inl h.symm

/-- The only fault of `kvToMap` is the failed type assertion. -/
theorem kvToMap_fault (key value : GoString) (res : ConfigMap) (f : Fault)
    (h : kvToMap key value res = .error f) : f = .typeAssertion := by
  rcases kvToMapAux_fault key.length key value res f h with h1 | h1
  · exact h1
  · subst h1
    exact absurd h (kvToMapAux_fuel key.length key value res (Nat.le_refl _)).2

theorem kvPairsLoop_fault (todo : List KVPair) : ∀ (done : List KVPair) (s : Int)
    (m : ConfigMap) (f : Fault), s + 1 ≤ done.length →
    kvPairsLoop done todo s m = .error f → f = .typeAssertion := by
  induction todo with
  | nil =>
    intro done s m f _ h
    simp [kvPairsLoop] at h
  | cons kv rest ih =>
    intro done s m f hs h
    rw [kvPairsLoop_cons] at h
    by_cases hs0 : s ≥ 0
    · have hlt : s.toNat < done.length := by omega
      have hget : (done ++ kv :: rest)[s.toNat]? = some (done.get ⟨s.toNat, hlt⟩) := by
        rw [List.getElem?_append_left hlt]
        simp
      simp only [hs0, if_true, hget] at h
      cases hc : Contains (done.get ⟨s.toNat, hlt⟩).Key kv.Key with
      | true =>
        simp only [hc] at h
        split at h
        · exact ih _ _ _ _ (by simp; omega) h
        · rename_i e he
          simp only [Except.error.injEq] at h
          subst h
          exact kvToMap_fault _ _ _ _ he
      | false =>
        simp only [hc] at h
        split at h
        · exact ih _ _ _ _ (by simp; omega) h
        · rename_i e he
          simp only [Except.error.injEq] at h
          subst h
          exact kvToMap_fault _ _ _ _ he
    · simp only [hs0, if_false] at h
      split at h
      · exact ih _ _ _ _ (by simp; omega) h
      · rename_i e he
        simp only [Except.error.injEq] at h
        subst h
        exact kvToMap_fault _ _ _ _ he

/-- The only fault of `kvPairsAsMap` is the failed type assertion of `kvToMap`: the index
`shiftIndex` stays inside the slice and the recursion budget of `kvToMap` is never used
up. -/
theorem kvPairsAsMap_fault (kvPairs : List KVPair) (addTo : ConfigMap) (f : Fault)
    (h : kvPairsAsMap kvPairs addTo = .error f) : f = .typeAssertion :=
  kvPairsLoop_fault _ [] (-1) addTo f (by simp) h

/-- What a run of the watch attempt leaves, case by case. -/
theorem subscribeAttempt_cases (path : GoString) (idx : Nat) (login : Option GoError)
    (answer : ListResult) (res : AttemptResult)
    (h : subscribeAttempt path idx login answer = .ok res) :
    (res.err ≠ none ∧ res.currentIndex = idx ∧ res.callbacks = 0) ∨
    (res.err = none ∧ res.currentIndex = returnedIndex answer ∧ res.callbacks = 1 ∧
      login = none ∧ ∃ l q, answer = .ok (some l) q) := by
  unfold subscribeAttempt at h
  cases login with
  | some e =>
    simp only [Except.ok.injEq] at h
    subst h
    exact Or.inl ⟨by simp, rfl, rfl⟩
  | none =>
    cases answer with
    | fail e =>
      simp only [Except.ok.injEq] at h
      subst h
      exact Or.inl ⟨by simp, rfl, rfl⟩
    | ok l q =>
      cases l with
      | none =>
        simp only [Except.ok.injEq] at h
        subst h
        exact Or.inl ⟨by simp, rfl, rfl⟩
      | some l =>
        simp only at h
        split at h
        · exact absurd h (by simp)
        · simp only [Except.ok.injEq] at h
          subst h
          exact Or.inr ⟨rfl, rfl, rfl, rfl, l, q, rfl⟩

/-- C11. Watch ordering: in the watch loop of one path, the poll of the N-th run that calls
the callback is issued with the index returned by the poll of the (N-1)-th such run (with
the seed index for the first); every run starts from the index that the run before it left;
and a run that fails (login error, transport error or path not found) leaves the index as it
was and calls no callback. -/
theorem subscribeFor_ordering (path : GoString) (world : List AttemptEnv) (seed : Nat) :
    (callbackRuns (subscribeFor path seed world).1).map (fun a => a.waitIndex)
      = (seed :: (callbackRuns (subscribeFor path seed world).1).map
          (fun a => returnedIndex a.answer)).take
          (callbackRuns (subscribeFor path seed world).1).length ∧
    ((subscribeFor path seed world).1.map (fun a => a.waitIndex)
      = (seed :: (subscribeFor path seed world).1.map (fun a => a.result.currentIndex)).take
          (subscribeFor path seed world).1.length) ∧
    (∀ a ∈ (subscribeFor path seed world).1, a.result.err ≠ none →
      a.result.currentIndex = a.waitIndex ∧ a.result.callbacks = 0) := by
  unfold subscribeFor
  induction world generalizing seed with
  | nil => simp [subscribeLoop, callbackRuns]
  | cons env rest ih =>
    unfold subscribeLoop
    cases hatt : subscribeAttempt path seed env.login (env.answer seed) with
    | error f => simp [callbackRuns]
    | ok res =>
      obtain ⟨ih1, ih2, ih3⟩ := ih res.currentIndex
      simp only []
      rcases subscribeAttempt_cases path seed env.login (env.answer seed) res hatt with
        ⟨herr, hidx, hcb⟩ | ⟨herr, hidx, hcb, _, _⟩
      · refine ⟨?_, ?_, ?_⟩
        · have hf : callbackRuns
              (⟨seed, env.login, env.answer seed, res⟩
                :: (subscribeLoop path rest res.currentIndex).1)
              = callbackRuns (subscribeLoop path rest res.currentIndex).1 := by
            simp [callbackRuns, hcb]
          rw [hf, ← hidx]
          exact ih1
        · simp only [List.map_cons, List.length_cons, List.take_succ_cons]
          rw [ih2]
        · intro a ha
          rcases List.mem_cons.mp ha with h | h
          · subst h
            intro _
            exact ⟨hidx, hcb⟩
          · exact ih3 a h
      · refine ⟨?_, ?_, ?_⟩
        · have hf : callbackRuns
              (⟨seed, env.login, env.answer seed, res⟩
                :: (subscribeLoop path rest res.currentIndex).1)
              = ⟨seed, env.login, env.answer seed, res⟩
                :: callbackRuns (subscribeLoop path rest res.currentIndex).1 := by
            simp [callbackRuns, hcb]
          rw [hf]
          simp only [List.map_cons, List.length_cons, List.take_succ_cons]
          rw [ih1, ← hidx]
        · simp only [List.map_cons, List.length_cons, List.take_succ_cons]
          rw [ih2]
        · intro a ha
          rcases List.mem_cons.mp ha with h | h
          · subst h
            intro hne
            exact absurd herr hne
          · exact ih3 a h

/-- C12, counterexample. A poll issued with index 5 that the store answers, without error,
with the same index 5 calls the callback once. -/
theorem callback_without_index_change :
    subscribeAttempt (str "log") 5 none (.ok (some [⟨str "log/level", str "WARN"⟩]) ⟨5⟩)
      = .ok ⟨none, 5, 1⟩ :=
  rfl

/-- C12, amended. A run of the watch attempt calls the callback exactly once when its poll
succeeds (the login succeeds and the store answers with a list and no error), whether the
index of the answer differs from the index of the request or not, and does not call it when
the run fails. -/
theorem callback_once_per_successful_poll (path : GoString) (idx : Nat)
    (login : Option GoError) (answer : ListResult) (res : AttemptResult)
    (h : subscribeAttempt path idx login answer = .ok res) :
    (res.err = none → res.callbacks = 1) ∧
    (res.err ≠ none → res.callbacks = 0) ∧
    (res.err = none ↔ (login = none ∧ ∃ l q, answer = .ok (some l) q)) := by
  rcases subscribeAttempt_cases path idx login answer res h with
    ⟨herr, _, hcb⟩ | ⟨herr, _, hcb, hlogin, hans⟩
  · refine ⟨fun h0 => absurd h0 herr, fun _ => hcb, ?_⟩
    constructor
    · intro h0
      exact absurd h0 herr
    · rintro ⟨hl, l, q, ha⟩
      subst hl ha
      unfold subscribeAttempt at h
      simp only at h
      split at h
      · exact absurd h (by simp)
      · simp only [Except.ok.injEq] at h
        subst h
        exact absurd rfl herr
  · exact ⟨fun _ => hcb, fun h0 => absurd herr h0, fun _ => ⟨hlogin, hans⟩, fun _ => herr⟩

theorem callback_once_per_successful_poll_witness :
    ((AttemptResult.mk none 8 1).err = none → (AttemptResult.mk none 8 1).callbacks = 1) ∧
    ((AttemptResult.mk none 8 1).err ≠ none → (AttemptResult.mk none 8 1).callbacks = 0) ∧
    ((AttemptResult.mk none 8 1).err = none ↔
      ((none : Option GoError) = none ∧
        ∃ l q, ListResult.ok (some [⟨str "log/level", str "WARN"⟩]) ⟨8⟩ = .ok (some l) q)) :=
  callback_once_per_successful_poll (str "log") 5 none
    (.ok (some [⟨str "log/level", str "WARN"⟩]) ⟨8⟩) ⟨none, 8, 1⟩ rfl

/-- C13. A poll whose list is absent (the path is not found, and there is no transport error)
is a failure: the run returns an error, so `retry.Do` runs the function again after its
delay, it calls no callback and leaves the index as it was, and the next run polls with the
same index. -/
theorem path_not_found_is_failure (path : GoString) (idx : Nat) (qm : QueryMeta)
    (answer : Nat → ListResult) (rest : List AttemptEnv)
    (hnotFound : answer idx = .ok none qm) :
    subscribeAttempt path idx none (answer idx)
      = .ok ⟨some (str "path for '" ++ path ++ str "' is not exists"), idx, 0⟩ ∧
    (subscribeFor path idx (⟨none, answer⟩ :: rest)).1
      = ⟨idx, none, .ok none qm,
          ⟨some (str "path for '" ++ path ++ str "' is not exists"), idx, 0⟩⟩
        :: (subscribeFor path idx rest).1 := by
  refine ⟨by rw [hnotFound]; rfl, ?_⟩
  simp [subscribeFor, subscribeLoop, hnotFound, subscribeAttempt]

theorem path_not_found_is_failure_witness :
    subscribeAttempt (str "/") 1 none ((fun _ => ListResult.ok none ⟨0⟩) 1)
      = .ok ⟨some (str "path for '" ++ str "/" ++ str "' is not exists"), 1, 0⟩ ∧
    (subscribeFor (str "/") 1 (⟨none, fun _ => ListResult.ok none ⟨0⟩⟩ :: [])).1
      = ⟨1, none, .ok none ⟨0⟩,
          ⟨some (str "path for '" ++ str "/" ++ str "' is not exists"), 1, 0⟩⟩
        :: (subscribeFor (str "/") 1 []).1 :=
  path_not_found_is_failure (str "/") 1 ⟨0⟩ (fun _ => ListResult.ok none ⟨0⟩) [] rfl

theorem Login_of_token (c : Client) (w : LoginWorld) (t : ClientToken)
    (h : c.token = some t) :
    Login c w = { tokenProviderCalls := 0, exchangeCalls := 0, result := .ok (none, c) } := by
  unfold Login
  rw [h]

theorem loginSeq_of_token (ws : List LoginWorld) (c : Client) (t : ClientToken)
    (h : c.token = some t) : loginSeq c ws = (0, .ok c) := by
  induction ws with
  | nil => rfl
  | cons w ws ih =>
    unfold loginSeq
    rw [Login_of_token c w t h]
    simp [ih]

/-- C14. On a client that holds a credential `Login` does nothing and returns no error: it
calls neither the token provider nor the exchange and leaves the client as it is. A provider
configured with a non-empty static `Token` holds that credential from its construction, so
no sequence of `Login` calls performs the dynamic login, and the value of the credential
stays the static token. -/
theorem Login_noop_when_credential_held (c : Client) (w : LoginWorld) (t : ClientToken)
    (cfg : ProviderConfig) (ws : List LoginWorld)
    (hheld : c.token = some t) (hstatic : cfg.Token ≠ []) :
    Login c w = { tokenProviderCalls := 0, exchangeCalls := 0, result := .ok (none, c) } ∧
    (newProviderClient cfg).token = some { val := some cfg.Token, expirationTime := 0 } ∧
    loginSeq (newProviderClient cfg) ws = (0, .ok (newProviderClient cfg)) ∧
    SecretId (newProviderClient cfg) = .ok cfg.Token := by
  have htok : (newProviderClient cfg).token
      = some { val := some cfg.Token, expirationTime := 0 } := by
    simp [newProviderClient, NewClient, hstatic]
  refine ⟨Login_of_token c w t hheld, htok, loginSeq_of_token ws _ _ htok, ?_⟩
  unfold SecretId
  rw [htok]
  rfl

theorem Login_noop_when_credential_held_witness :
    Login (newProviderClient ⟨str "http://consul", str "ns", str "ms", [], false,
        str "static-token", false⟩)
      ⟨.ok (str "m2m"), fun _ => .granted (str "dynamic") 500, 100⟩
      = { tokenProviderCalls := 0, exchangeCalls := 0
          result := .ok (none, newProviderClient ⟨str "http://consul", str "ns", str "ms", [],
            false, str "static-token", false⟩) } ∧
    (newProviderClient ⟨str "http://consul", str "ns", str "ms", [], false,
        str "static-token", false⟩).token
      = some { val := some (str "static-token"), expirationTime := 0 } ∧
    loginSeq (newProviderClient ⟨str "http://consul", str "ns", str "ms", [], false,
        str "static-token", false⟩)
      [⟨.ok (str "m2m"), fun _ => .granted (str "dynamic") 500, 100⟩,
        ⟨.ok (str "m2m"), fun _ => .granted (str "dynamic") 900, 200⟩]
      = (0, .ok (newProviderClient ⟨str "http://consul", str "ns", str "ms", [], false,
        str "static-token", false⟩)) ∧
    SecretId (newProviderClient ⟨str "http://consul", str "ns", str "ms", [], false,
        str "static-token", false⟩) = .ok (str "static-token") :=
  Login_noop_when_credential_held
    (newProviderClient ⟨str "http://consul", str "ns", str "ms", [], false,
      str "static-token", false⟩)
    ⟨.ok (str "m2m"), fun _ => .granted (str "dynamic") 500, 100⟩
    { val := some (str "static-token"), expirationTime := 0 }
    ⟨str "http://consul", str "ns", str "ms", [], false, str "static-token", false⟩
    [⟨.ok (str "m2m"), fun _ => .granted (str "dynamic") 500, 100⟩,
      ⟨.ok (str "m2m"), fun _ => .granted (str "dynamic") 900, 200⟩]
    rfl (by decide)

/-- C15, failing input. The token provider returns the empty token and no error, the client
holds no credential and its address is `test:8500`, so the request of the exchange cannot be
sent: `Login` returns the error of the exchange and the client still has no credential
object. -/
theorem Login_empty_token_returns_error :
    Login (NewClient ⟨str "test:8500", str "test", none⟩)
      ⟨.ok [], fun _ => .failed (str "failed to send request 'test:8500/v1/acl/login'"), 0⟩
      = { tokenProviderCalls := 1, exchangeCalls := 1
          result := .ok
            (some (str "failed to get consul secret ID by token: failed to send request 'test:8500/v1/acl/login'"),
              NewClient ⟨str "test:8500", str "test", none⟩) } ∧
    (NewClient ⟨str "test:8500", str "test", none⟩).token = none :=
  ⟨rfl, rfl⟩

/-- The outcome of `Login` on a client without a credential. -/
theorem Login_result (c : Client) (w : LoginWorld) (hnone : c.token = none) :
    (Login c w).result =
      match getSecretId w with
      | .error f => .error f
      | .ok (_, _, some err) => .ok (some err, c)
      | .ok (_, none, none) => .error .nilDereference
      | .ok (secretId, some expTime, none) =>
        if c.tokenWatch then
          .ok (none, { c with
            token := some { val := some secretId, expirationTime := expTime }
            consulToken := secretId })
        else
          match startWatchSecretId
              { c with
                token := some { val := some secretId, expirationTime := expTime }
                consulToken := secretId
                tokenWatch := true }
              (timeSub expTime (timeAdd w.now thresholdBeforeUpdate)) with
          | .error f => .error f
          | .ok c2 => .ok (none, c2) := by
  unfold Login
  rw [hnone]
  simp only
  split <;> rfl

/-- With the empty token and no error from the token provider, as for every other answer of
the token provider, no run of `Login` on a client without a credential returns success and
leaves a credential object whose value is unset: a successful run has stored the secret id
of the exchange. -/
theorem Login_success_stores_value (c c2 : Client) (w : LoginWorld) (t : ClientToken)
    (hnone : c.token = none)
    (hrun : (Login c w).result = .ok (none, c2)) (htok : c2.token = some t) :
    ∃ secretId, t.val = some secretId := by
  rw [Login_result c w hnone] at hrun
  split at hrun
  · exact absurd hrun (by simp)
  · simp at hrun
  · exact absurd hrun (by simp)
  · rename_i secretId expTime _
    split at hrun
    · simp only [Except.ok.injEq, Prod.mk.injEq, true_and] at hrun
      subst hrun
      simp only [Option.some.injEq] at htok
      exact ⟨secretId, by rw [← htok]⟩
    · unfold startWatchSecretId at hrun
      split at hrun
      · exact absurd hrun (by simp)
      · rename_i c3 hc3
        split at hc3
        · exact absurd hc3 (by simp)
        · simp only [Except.ok.injEq] at hc3
          simp only [Except.ok.injEq, Prod.mk.injEq, true_and] at hrun
          subst hrun
          subst hc3
          simp only [Option.some.injEq] at htok
          exact ⟨secretId, by rw [← htok]⟩

/-- C16, failing input. On a client built without a static token, on which no login has
succeeded, `SecretId` selects `r.token.val` through the `nil` pointer `r.token`. -/
theorem SecretId_without_token_faults :
    SecretId (NewClient ⟨str "http://consul", str "test", none⟩) = .error .nilDereference :=
  rfl

/-- On a client that has a credential object `SecretId` returns its value, and the empty
string while no value is stored. -/
theorem SecretId_of_token (c : Client) (t : ClientToken) (h : c.token = some t) :
    SecretId c = .ok (t.val.getD []) := by
  unfold SecretId
  rw [h]

/-- C17, counterexample. A credential whose expiration time is the end of the year 9999,
obtained in the year 2026: the period passed to the ticker is the largest `time.Duration`
(about 292 years), not the difference of the two times less two minutes. -/
theorem refresher_period_saturates :
    periodPassed
      ((Login (NewClient ⟨str "http://consul", str "test", none⟩)
        ⟨.ok (str "m2m"), fun _ => .granted (str "secret") (315537897599 * 1000000000),
          63929347200 * 1000000000⟩).result.map Prod.snd)
      = some maxDuration ∧
    maxDuration ≠ 315537897599 * 1000000000 - 63929347200 * 1000000000 - 2 * Minute := by
  decide

theorem timeSub_of_fits (t u : Int) (h1 : minDuration ≤ t - u) (h2 : t - u ≤ maxDuration) :
    timeSub t u = t - u := by
  unfold timeSub
  rw [if_neg (not_lt.mpr h2), if_neg (not_lt.mpr h1)]

theorem timeSub_le (t u d : Int) (h : t - u ≤ d) (hd : minDuration ≤ d) :
    timeSub t u ≤ d := by
  unfold timeSub
  split
  · rename_i hgt
    exact le_trans (le_of_lt hgt) h
  · split
    · exact hd
    · exact h

/-- C17, amended. For a credential with expiration time `exp` obtained at time `now`, the
period passed to the ticker of the refresher, at the first login and at a successful
refresh, is `exp.Sub(now.Add(2 minutes))`: it is `exp - now - 2 minutes` when this
difference fits a `time.Duration` (otherwise the largest or the smallest duration), and it is
at most one minute for a credential that expires at most three minutes after `now`. -/
theorem refresher_period (c c0 : Client) (w : LoginWorld) (secretId : GoString) (exp : Time)
    (t : ClientToken)
    (hnone : c.token = none) (honce : c.tokenWatch = false)
    (hget : getSecretId w = .ok (secretId, some exp, none))
    (hheld : c0.token = some t) :
    periodPassed ((Login c w).result.map Prod.snd)
      = some (timeSub exp (timeAdd w.now thresholdBeforeUpdate)) ∧
    periodPassed (refreshTick c0 w)
      = some (timeSub exp (timeAdd w.now thresholdBeforeUpdate)) ∧
    (minDuration ≤ exp - w.now - 2 * Minute → exp - w.now - 2 * Minute ≤ maxDuration →
      timeSub exp (timeAdd w.now thresholdBeforeUpdate) = exp - w.now - 2 * Minute) ∧
    (exp - w.now ≤ 3 * Minute →
      timeSub exp (timeAdd w.now thresholdBeforeUpdate) ≤ 1 * Minute) := by
  have hsub : exp - timeAdd w.now thresholdBeforeUpdate = exp - w.now - 2 * Minute := by
    unfold timeAdd thresholdBeforeUpdate
    exact Int.sub_sub exp w.now (2 * Minute) |>.symm
  refine ⟨?_, ?_, ?_, ?_⟩
  · rw [Login_result c w hnone, hget]
    simp only [honce]
    unfold startWatchSecretId
    by_cases hp : timeSub exp (timeAdd w.now thresholdBeforeUpdate) ≤ 0
    · simp [hp, periodPassed, Except.map]
    · simp [hp, periodPassed, Except.map]
  · unfold refreshTick
    rw [hget]
    simp only [hheld]
    by_cases hp : timeSub exp (timeAdd w.now thresholdBeforeUpdate) ≤ 0
    · simp [hp, periodPassed]
    · simp [hp, periodPassed]
  · intro h1 h2
    rw [← hsub]
    exact timeSub_of_fits _ _ (by rw [hsub]; exact h1) (by rw [hsub]; exact h2)
  · intro h
    apply timeSub_le
    · rw [hsub]
      have h3 : (3 : Int) * Minute = 1 * Minute + 2 * Minute := by decide
      rw [h3] at h
      exact sub_le_iff_le_add.mpr h
    · decide

theorem refresher_period_witness :
    periodPassed
      ((Login (NewClient ⟨str "http://consul", str "test", none⟩)
        ⟨.ok (str "m2m"), fun _ => .granted (str "secret") (1000 + 3 * Minute), 1000⟩).result.map
          Prod.snd)
      = some (timeSub (1000 + 3 * Minute) (timeAdd 1000 thresholdBeforeUpdate)) ∧
    periodPassed
      (refreshTick
        { cfg := ⟨str "http://consul", str "test", none⟩
          token := some ⟨some (str "old"), 500⟩, tokenWatch := true
          consulToken := str "old", refresher := some 7 }
        ⟨.ok (str "m2m"), fun _ => .granted (str "secret") (1000 + 3 * Minute), 1000⟩)
      = some (timeSub (1000 + 3 * Minute) (timeAdd 1000 thresholdBeforeUpdate)) ∧
    (minDuration ≤ (1000 + 3 * Minute) - 1000 - 2 * Minute →
      (1000 + 3 * Minute) - 1000 - 2 * Minute ≤ maxDuration →
      timeSub (1000 + 3 * Minute) (timeAdd 1000 thresholdBeforeUpdate)
        = (1000 + 3 * Minute) - 1000 - 2 * Minute) ∧
    ((1000 + 3 * Minute) - 1000 ≤ 3 * Minute →
      timeSub (1000 + 3 * Minute) (timeAdd 1000 thresholdBeforeUpdate) ≤ 1 * Minute) :=
  refresher_period (NewClient ⟨str "http://consul", str "test", none⟩)
    { cfg := ⟨str "http://consul", str "test", none⟩
      token := some ⟨some (str "old"), 500⟩, tokenWatch := true
      consulToken := str "old", refresher := some 7 }
    ⟨.ok (str "m2m"), fun _ => .granted (str "secret") (1000 + 3 * Minute), 1000⟩
    (str "secret") (1000 + 3 * Minute) ⟨some (str "old"), 500⟩ rfl rfl rfl rfl

/-- C18, failing input. The client holds the credential `A` with expiration time 300; a
refresh acquires the credential `B` with expiration time 900: afterwards the stored value is
`B` and the stored expiration time is still 300. -/
theorem refresh_keeps_old_expiration :
    refreshTick
      { cfg := ⟨str "http://consul", str "test", none⟩
        token := some ⟨some (str "A"), 300 * 1000000000⟩, tokenWatch := true
        consulToken := str "A", refresher := some (180 * 1000000000) }
      ⟨.ok (str "m2m"), fun _ => .granted (str "B") (900 * 1000000000), 280 * 1000000000⟩
      = .ok
        { cfg := ⟨str "http://consul", str "test", none⟩
          token := some ⟨some (str "B"), 300 * 1000000000⟩, tokenWatch := true
          consulToken := str "A", refresher := some (500 * 1000000000) } :=
  rfl

theorem fillPaths_paths (cfg : ProviderConfig) :
    (fillPaths cfg).Paths =
      if cfg.Paths ≠ [] then cfg.Paths
      else if cfg.forLogging then DefaultLoggingPathsFor cfg.MicroserviceName cfg.Namespace
      else DefaultPathsFor cfg.MicroserviceName cfg.Namespace := by
  unfold fillPaths
  cases hp : cfg.Paths with
  | nil =>
    cases hl : cfg.forLogging <;> simp
  | cons p ps => simp [hp]

theorem fillPaths_names (cfg : ProviderConfig) :
    (fillPaths cfg).Namespace = cfg.Namespace ∧
    (fillPaths cfg).MicroserviceName = cfg.MicroserviceName := by
  unfold fillPaths
  repeat' split
  all_goals exact ⟨rfl, rfl⟩

theorem fillAddress_keeps (cfg cfg2 : ProviderConfig) (env : Env)
    (h : fillAddress cfg env = .ok cfg2) :
    cfg2.Namespace = cfg.Namespace ∧ cfg2.MicroserviceName = cfg.MicroserviceName ∧
    cfg2.Paths = cfg.Paths ∧ cfg2.forLogging = cfg.forLogging := by
  unfold fillAddress at h
  split at h
  · split at h
    · exact absurd h (by simp)
    · simp only [Except.ok.injEq] at h; subst h; exact ⟨rfl, rfl, rfl, rfl⟩
  · simp only [Except.ok.injEq] at h; subst h; exact ⟨rfl, rfl, rfl, rfl⟩

theorem fillNames_keeps (cfg : ProviderConfig) (env : Env) :
    (fillMicroserviceName (fillNamespace cfg env) env).Namespace
      = (if cfg.Namespace = [] then env.microserviceNamespace else cfg.Namespace) ∧
    (fillMicroserviceName (fillNamespace cfg env) env).MicroserviceName
      = (if cfg.MicroserviceName = [] then env.microserviceName else cfg.MicroserviceName) ∧
    (fillMicroserviceName (fillNamespace cfg env) env).Paths = cfg.Paths ∧
    (fillMicroserviceName (fillNamespace cfg env) env).forLogging = cfg.forLogging := by
  unfold fillMicroserviceName fillNamespace
  by_cases h1 : cfg.Namespace = [] <;> by_cases h2 : cfg.MicroserviceName = [] <;>
    simp [h1, h2]

/-- The provider that a returning `Read` leaves has the configuration that
`fillDefaultsIfNeeded` has filled. -/
theorem Read_cfg (r r2 : ProviderImpl) (env : Env) (login : Option GoError) (store : Store)
    (Flatten : ConfigMap → ConfigMap) (res : ReadResult)
    (h : (Read r env login store Flatten).result = .ok (res, r2)) :
    ∃ r1, fillDefaultsIfNeeded r env = .ok r1 ∧ r2.cfg = r1.cfg := by
  unfold Read at h
  cases hdef : fillDefaultsIfNeeded r env with
  | error f =>
    rw [hdef] at h
    exact absurd h (by simp)
  | ok r1 =>
    rw [hdef] at h
    refine ⟨r1, rfl, ?_⟩
    cases login with
    | some err =>
      simp only at h
      split at h
      · simp only [Except.ok.injEq, Prod.mk.injEq] at h
        rw [← h.2]
      · simp only [Except.ok.injEq, Prod.mk.injEq] at h
        rw [← h.2]
    | none =>
      simp only at h
      unfold loadConsulConfigParams at h
      split at h
      · exact absurd h (by simp)
      · simp only [Except.ok.injEq, Prod.mk.injEq] at h
        rw [← h.2]
      · simp only [Except.ok.injEq, Prod.mk.injEq] at h
        rw [← h.2]

/-- C19. After `Read` has filled in the defaults, the watched paths are the configured list
when it is not empty; otherwise, in logging mode, the one path
`logging/<namespace>/<microservice-name>`, and otherwise the two paths
`config/<namespace>/application` and `config/<namespace>/<microservice-name>`, in this
order, for the effective (configured or defaulted) namespace and microservice name. -/
theorem Read_default_paths (r r2 : ProviderImpl) (env : Env) (login : Option GoError)
    (store : Store) (Flatten : ConfigMap → ConfigMap) (res : ReadResult)
    (hread : (Read r env login store Flatten).result = .ok (res, r2)) :
    r2.cfg.Namespace
      = (if r.cfg.Namespace = [] then env.microserviceNamespace else r.cfg.Namespace) ∧
    r2.cfg.MicroserviceName
      = (if r.cfg.MicroserviceName = [] then env.microserviceName
          else r.cfg.MicroserviceName) ∧
    r2.cfg.Paths =
      (if r.cfg.Paths ≠ [] then r.cfg.Paths
        else if r.cfg.forLogging then
          [str "logging/" ++ r2.cfg.Namespace ++ str "/" ++ r2.cfg.MicroserviceName]
        else
          [str "config/" ++ r2.cfg.Namespace ++ str "/application",
            str "config/" ++ r2.cfg.Namespace ++ str "/" ++ r2.cfg.MicroserviceName]) ∧
    effectivePaths r env = r2.cfg.Paths := by
  obtain ⟨r1, hdef, hcfg⟩ := Read_cfg r r2 env login store Flatten res hread
  have heff : effectivePaths r env = r1.cfg.Paths := by simp [effectivePaths, hdef]
  unfold fillDefaultsIfNeeded at hdef
  split at hdef
  · exact absurd hdef (by simp)
  · rename_i cfg3 hcfg3
    simp only [Except.ok.injEq] at hdef
    subst hdef
    simp only at hcfg heff
    obtain ⟨a1, a2, a3, a4⟩ := fillAddress_keeps _ _ _ hcfg3
    obtain ⟨b1, b2, b3, b4⟩ := fillNames_keeps r.cfg env
    obtain ⟨c1, c2⟩ := fillPaths_names cfg3
    have hns : r2.cfg.Namespace
        = (if r.cfg.Namespace = [] then env.microserviceNamespace else r.cfg.Namespace) := by
      rw [hcfg, c1, a1, b1]
    have hms : r2.cfg.MicroserviceName
        = (if r.cfg.MicroserviceName = [] then env.microserviceName
            else r.cfg.MicroserviceName) := by
      rw [hcfg, c2, a2, b2]
    refine ⟨hns, hms, ?_, by rw [heff, hcfg]⟩
    have hp : r2.cfg.Paths = (fillPaths cfg3).Paths := by rw [hcfg]
    rw [hp, fillPaths_paths, a3, a4, b3, b4]
    have hns3 : cfg3.Namespace = r2.cfg.Namespace := by rw [hcfg, c1]
    have hms3 : cfg3.MicroserviceName = r2.cfg.MicroserviceName := by rw [hcfg, c2]
    rw [hns3, hms3]
    simp [DefaultLoggingPathsFor, DefaultPathsFor, baseLoggingPath, baseConfigPath, str]

theorem Read_default_paths_witness :
    (ProviderImpl.mk
        ⟨str "http://consul", str "ns", str "ms",
          [str "config/ns/application", str "config/ns/ms"], false, [], false⟩
        [(str "config/ns/application", 0), (str "config/ns/ms", 0)] false []).cfg.Namespace
      = (if (newProvider ⟨str "http://consul", [], [], [], false, [], false⟩).cfg.Namespace = []
          then (Env.mk (str "ns") (str "ms") [] false).microserviceNamespace
          else (newProvider ⟨str "http://consul", [], [], [], false, [], false⟩).cfg.Namespace) ∧
    (ProviderImpl.mk
        ⟨str "http://consul", str "ns", str "ms",
          [str "config/ns/application", str "config/ns/ms"], false, [], false⟩
        [(str "config/ns/application", 0), (str "config/ns/ms", 0)] false []).cfg.MicroserviceName
      = (if (newProvider ⟨str "http://consul", [], [], [], false, [], false⟩).cfg.MicroserviceName
            = []
          then (Env.mk (str "ns") (str "ms") [] false).microserviceName
          else (newProvider ⟨str "http://consul", [], [], [], false, [], false⟩).cfg.MicroserviceName) ∧
    (ProviderImpl.mk
        ⟨str "http://consul", str "ns", str "ms",
          [str "config/ns/application", str "config/ns/ms"], false, [], false⟩
        [(str "config/ns/application", 0), (str "config/ns/ms", 0)] false []).cfg.Paths =
      (if (newProvider ⟨str "http://consul", [], [], [], false, [], false⟩).cfg.Paths ≠ [] then
          (newProvider ⟨str "http://consul", [], [], [], false, [], false⟩).cfg.Paths
        else if (newProvider ⟨str "http://consul", [], [], [], false, [], false⟩).cfg.forLogging
        then
          [str "logging/" ++ str "ns" ++ str "/" ++ str "ms"]
        else
          [str "config/" ++ str "ns" ++ str "/application",
            str "config/" ++ str "ns" ++ str "/" ++ str "ms"]) ∧
    effectivePaths (newProvider ⟨str "http://consul", [], [], [], false, [], false⟩)
        (Env.mk (str "ns") (str "ms") [] false)
      = [str "config/ns/application", str "config/ns/ms"] :=
  Read_default_paths (newProvider ⟨str "http://consul", [], [], [], false, [], false⟩)
    (ProviderImpl.mk
      ⟨str "http://consul", str "ns", str "ms",
        [str "config/ns/application", str "config/ns/ms"], false, [], false⟩
      [(str "config/ns/application", 0), (str "config/ns/ms", 0)] false [])
    (Env.mk (str "ns") (str "ms") [] false) none (fun _ _ => .ok none ⟨0⟩) koanfFlatten
    ⟨some [], none⟩ rfl

/-- C20, counterexample. A logging property source created from a configuration with
`Failsafe` false has `Failsafe` false. -/
theorem logging_source_keeps_failsafe_false :
    (NewLoggingPropertySource
      [⟨str "http://consul", str "ns", str "ms", [], false, [], false⟩]).cfg.Failsafe = false ∧
    (NewLoggingPropertySource
      [⟨str "http://consul", str "ns", str "ms", [], false, [], false⟩]).cfg.forLogging = true := by
  decide

/-- C20, amended. Every property source created by `NewLoggingPropertySource` is in logging
mode; its `Failsafe` is true when no configuration is passed, and is the `Failsafe` of the
first configuration passed otherwise. -/
theorem logging_source_mode (configs : List ProviderConfig) :
    (NewLoggingPropertySource configs).cfg.forLogging = true ∧
    (NewLoggingPropertySource configs).cfg.Failsafe
      = (match configs with
        | [] => true
        | config :: _ => config.Failsafe) := by
  cases configs with
  | nil => exact ⟨rfl, rfl⟩
  | cons config rest => exact ⟨rfl, rfl⟩

theorem subscribeFor_ordering_witness :
    (callbackRuns (subscribeFor (str "log") 3
        [⟨none, fun _ => .fail (str "503")⟩,
          ⟨none, fun _ => .ok (some [⟨str "log/level", str "WARN"⟩]) ⟨7⟩⟩,
          ⟨none, fun _ => .ok none ⟨7⟩⟩,
          ⟨none, fun _ => .ok (some [⟨str "log/level", str "INFO"⟩]) ⟨9⟩⟩]).1).map
        (fun a => a.waitIndex)
      = [3, 7] :=
  (subscribeFor_ordering (str "log")
    [⟨none, fun _ => .fail (str "503")⟩,
      ⟨none, fun _ => .ok (some [⟨str "log/level", str "WARN"⟩]) ⟨7⟩⟩,
      ⟨none, fun _ => .ok none ⟨7⟩⟩,
      ⟨none, fun _ => .ok (some [⟨str "log/level", str "INFO"⟩]) ⟨9⟩⟩] 3).1

/-- C28, failing input. The first list binds `a` to the scalar `1`; `kvPairsAsMap` for the
second list, which holds the key `a/b`, into the map produced from the first does not
complete: the type assertion of `kvToMap` on the scalar under `a` panics. -/
theorem merge_child_under_scalar_faults :
    kvPairsAsMap [⟨str "a", str "1"⟩] [] =
      .ok ([⟨str "a", str "1"⟩], [(str "a", .str (str "1"))]) ∧
    kvPairsAsMap [⟨str "a/b", str "2"⟩] [(str "a", .str (str "1"))] =
      .error .typeAssertion :=
  ⟨rfl, rfl⟩

/-- C29, failing input. A successful exchange at time 1000 s grants a credential that expires
one minute later: the period that `Login` passes to `time.NewTicker`, and that a refresh
passes to `Ticker.Reset`, is minus one minute, and both calls panic on it. -/
theorem short_lived_credential_faults :
    (Login (NewClient ⟨str "http://consul", str "test", none⟩)
      ⟨.ok (str "m2m"), fun _ => .granted (str "secret") (1060 * 1000000000),
        1000 * 1000000000⟩).result
      = .error (.nonPositiveInterval (-(60 * 1000000000))) ∧
    refreshTick
      { cfg := ⟨str "http://consul", str "test", none⟩
        token := some ⟨some (str "old"), 1000 * 1000000000⟩, tokenWatch := true
        consulToken := str "old", refresher := some (180 * 1000000000) }
      ⟨.ok (str "m2m"), fun _ => .granted (str "secret") (1060 * 1000000000),
        1000 * 1000000000⟩
      = .error (.nonPositiveInterval (-(60 * 1000000000))) :=
  ⟨rfl, rfl⟩

/-- The test of the loop of `kvPairsAsMap` on the pairs already visited. -/
theorem flattenChoices_cons (done rest : List KVPair) (kv : KVPair) (s : Int)
    (hs : s + 1 ≤ done.length) :
    flattenChoices done (kv :: rest) s =
      if (if s ≥ 0 then
            match done[s.toNat]? with
            | some prev => Contains prev.Key kv.Key
            | none => false
          else false) = true then
        true :: flattenChoices (done ++ [{ kv with Key := ReplaceAll kv.Key '/' '.' }]) rest s
      else false :: flattenChoices (done ++ [kv]) rest (s + 1) := by
  rw [flattenChoices]
  by_cases h0 : s ≥ 0
  · have hlt : s.toNat < done.length := by omega
    have e : (done ++ kv :: rest)[s.toNat]? = done[s.toNat]? :=
      List.getElem?_append_left hlt
    simp only [e]
  · simp only [h0, if_false]

theorem flattenChoices_append (pre : List KVPair) : ∀ (done : List KVPair) (s : Int)
    (rest : List KVPair), s + 1 ≤ done.length →
    flattenChoices done (pre ++ rest) s =
      flattenChoices done pre s ++
        flattenChoices (done ++ rewriteBy pre (flattenChoices done pre s)) rest
          (s + ((flattenChoices done pre s).count false : Nat)) := by
  induction pre with
  | nil =>
    intro done s rest _
    simp [flattenChoices, rewriteBy]
  | cons kv pre ih =>
    intro done s rest hs
    rw [List.cons_append, flattenChoices_cons done (pre ++ rest) kv s hs,
      flattenChoices_cons done pre kv s hs]
    generalize (if s ≥ 0 then
        match done[s.toNat]? with
        | some prev => Contains prev.Key kv.Key
        | none => false
      else false) = c
    cases c
    · simp only [Bool.false_eq_true, if_false]
      rw [ih _ (s + 1) rest (by simp; omega)]
      simp [rewriteBy, List.append_assoc, add_assoc, add_comm]
    · simp only [if_true]
      rw [ih _ s rest (by simp; omega)]
      simp [rewriteBy, List.append_assoc]

theorem rewriteBy_accepted_flattened (acc flat : List KVPair) :
    rewriteBy (acc ++ flat)
        (List.replicate acc.length false ++ List.replicate flat.length true) =
      acc ++ flat.map (fun kv => { kv with Key := ReplaceAll kv.Key '/' '.' }) := by
  induction acc with
  | nil =>
    induction flat with
    | nil => simp [rewriteBy]
    | cons kv flat ih =>
      simp only [List.length_nil, List.replicate_zero, List.nil_append, List.length_cons,
        List.replicate_succ, List.map_cons] at ih ⊢
      simp [rewriteBy, ih]
  | cons kv acc ih =>
    simp only [List.cons_append, List.length_cons, List.replicate_succ]
    simp [rewriteBy, ih]
/-- A completed run of the loop of `kvPairsAsMap` leaves the pairs rewritten by the branches
that `flattenChoices` lists. -/
theorem kvPairsLoop_choices (todo : List KVPair) : ∀ (done : List KVPair) (s : Int)
    (m : ConfigMap) (left : List KVPair) (m2 : ConfigMap),
    s + 1 ≤ done.length → kvPairsLoop done todo s m = .ok (left, m2) →
    left = done ++ rewriteBy todo (flattenChoices done todo s) := by
  induction todo with
  | nil =>
    intro done s m left m2 _ h
    simp only [kvPairsLoop, Except.ok.injEq, Prod.mk.injEq] at h
    simp [rewriteBy, flattenChoices, h.1]
  | cons kv rest ih =>
    intro done s m left m2 hs h
    rw [kvPairsLoop_cons] at h
    rw [flattenChoices_cons done rest kv s hs]
    by_cases h0 : s ≥ 0
    · have hlt : s.toNat < done.length := by omega
      have e : (done ++ kv :: rest)[s.toNat]? = done[s.toNat]? :=
        List.getElem?_append_left hlt
      have e2 : done[s.toNat]? = some (done[s.toNat]) := List.getElem?_eq_getElem hlt
      simp only [h0, if_true, e, e2] at h ⊢
      cases hc : Contains (done[s.toNat]).Key kv.Key
      · simp only [hc] at h ⊢
        cases hk : kvToMap kv.Key kv.Value m with
        | error f => simp [hk] at h
        | ok m3 =>
          simp only [hk] at h
          have := ih _ _ _ _ _ (by simp; omega) h
          simp [this, rewriteBy]
      · simp only [hc] at h ⊢
        cases hk : kvToMap (ReplaceAll kv.Key '/' '.') kv.Value m with
        | error f => simp [hk] at h
        | ok m3 =>
          simp only [hk] at h
          have := ih _ _ _ _ _ (by simp; omega) h
          simp [this, rewriteBy]
    · simp only [h0, if_false] at h ⊢
      cases hk : kvToMap kv.Key kv.Value m with
      | error f => simp [hk] at h
      | ok m3 =>
        simp only [hk] at h
        have := ih _ _ _ _ _ (by simp; omega) h
        simp [this, rewriteBy]

/-- C26, counterexample. Two runs of `kvPairsAsMap` whose branches differ from the rule
"flattened exactly when the key is a path prefix of the last preceding key inserted
hierarchically". For the keys `a/b/c`, `b/c` the loop flattens `b/c`, which occurs inside
`a/b/c` but is no path prefix of it. For the keys `a/b/c`, `a/b`, `x/y`, `x` the loop
inserts `x` hierarchically, although `x` is a path prefix of `x/y`, the last key inserted
hierarchically. -/
theorem flatten_rule_is_not_path_prefix :
    kvPairsChoices [⟨str "a/b/c", str "1"⟩, ⟨str "b/c", str "2"⟩] = [false, true] ∧
    choicesByPathPrefix none
      (sortSlice keyLess [⟨str "a/b/c", str "1"⟩, ⟨str "b/c", str "2"⟩]) = [false, false] ∧
    kvPairsChoices [⟨str "a/b/c", str "1"⟩, ⟨str "a/b", str "2"⟩, ⟨str "x/y", str "3"⟩,
      ⟨str "x", str "4"⟩] = [false, true, false, false] ∧
    choicesByPathPrefix none
      (sortSlice keyLess [⟨str "a/b/c", str "1"⟩, ⟨str "a/b", str "2"⟩, ⟨str "x/y", str "3"⟩,
        ⟨str "x", str "4"⟩]) = [false, true, false, true] := by
  decide

/-- C26, amended. In `kvPairsAsMap`, walking the pairs in descending key-length order: as
long as the keys inserted hierarchically so far (`acc`) all stand before the keys flattened
so far (`flat`), the next key is flattened exactly when it occurs as a substring in the
previously accepted key, the last key of `acc`; it is inserted hierarchically otherwise, and
always when no key has been accepted yet. -/
theorem flatten_rule_substring_of_last_accepted (kvPairs acc flat post : List KVPair)
    (kv : KVPair)
    (hsorted : sortSlice keyLess kvPairs = acc ++ flat ++ kv :: post)
    (hsofar : flattenChoices [] (acc ++ flat) (-1) =
      List.replicate acc.length false ++ List.replicate flat.length true) :
    (kvPairsChoices kvPairs)[(acc ++ flat).length]? =
      some (match acc.getLast? with
        | some prev => Contains prev.Key kv.Key
        | none => false) := by
  unfold kvPairsChoices
  rw [hsorted, flattenChoices_append (acc ++ flat) [] (-1) (kv :: post) (by simp), hsofar,
    rewriteBy_accepted_flattened]
  have hlen : (List.replicate acc.length false ++ List.replicate flat.length true).length
      = (acc ++ flat).length := by simp
  rw [List.getElem?_append_right (by rw [hlen]), hlen, Nat.sub_self]
  have hcount : (List.replicate acc.length false ++ List.replicate flat.length true).count
      false = acc.length := by
    simp [List.count_append, List.count_replicate]
  rw [hcount]
  rw [flattenChoices_cons _ _ _ _ (by simp)]
  rcases List.eq_nil_or_concat acc with hnil | ⟨init, last, hacc⟩
  · subst hnil
    simp
  · subst hacc
    simp only [List.concat_eq_append] at *
    have hs : ((-1 : Int) + ((init ++ [last]).length : Nat)) = (init.length : Int) := by
      simp
    rw [hs]
    have hget : ([] ++ (init ++ [last] ++
        flat.map (fun kv => { kv with Key := ReplaceAll kv.Key '/' '.' })))[init.length]?
          = some last := by
      rw [List.nil_append, List.append_assoc, List.getElem?_append_right (le_refl _)]
      simp
    simp only [Int.toNat_ofNat, hget, List.getLast?_concat, ge_iff_le, Int.natCast_nonneg,
      if_true]
    cases Contains last.Key kv.Key <;> simp

theorem flatten_rule_substring_of_last_accepted_witness :
    (kvPairsChoices [KVPair.mk (str "a/b") (str "2"), KVPair.mk (str "b") (str "3"),
        KVPair.mk (str "a/b/c") (str "1")])[
        ([KVPair.mk (str "a/b/c") (str "1")] ++ [KVPair.mk (str "a/b") (str "2")]).length]? =
      some (match [KVPair.mk (str "a/b/c") (str "1")].getLast? with
        | some prev => Contains prev.Key (KVPair.mk (str "b") (str "3")).Key
        | none => false) :=
  flatten_rule_substring_of_last_accepted
    [KVPair.mk (str "a/b") (str "2"), KVPair.mk (str "b") (str "3"),
      KVPair.mk (str "a/b/c") (str "1")]
    [KVPair.mk (str "a/b/c") (str "1")] [KVPair.mk (str "a/b") (str "2")] []
    (KVPair.mk (str "b") (str "3")) (by decide) (by decide)

theorem Split_ne_nil (s : GoString) (sep : Char) : Split s sep ≠ [] := by
  induction s with
  | nil => simp [Split]
  | cons c cs ih =>
    by_cases hc : c = sep
    · simp [Split, hc]
    · simp only [Split, hc, if_false]
      split <;> simp

theorem Split_no_sep (s : GoString) (sep : Char) : ∀ seg ∈ Split s sep, sep ∉ seg := by
  induction s with
  | nil => simp [Split]
  | cons c cs ih =>
    by_cases hc : c = sep
    · intro seg hseg
      simp only [Split, hc, if_true, List.mem_cons] at hseg
      rcases hseg with h | h
      · subst h; simp
      · exact ih seg h
    · intro seg hseg
      simp only [Split, hc, if_false] at hseg
      cases hsp : Split cs sep with
      | nil => exact absurd hsp (Split_ne_nil cs sep)
      | cons seg0 segs =>
        rw [hsp] at hseg ih
        simp only [List.mem_cons] at hseg
        rcases hseg with h | h
        · subst h
          have h0 := ih seg0 (by simp)
          simp only [List.mem_cons, not_or]
          exact ⟨fun e => hc e.symm, h0⟩
        · exact ih seg (by simp [h])

theorem joinSegs_Split (s : GoString) (sep : Char) : joinSegs sep (Split s sep) = s := by
  induction s with
  | nil => simp [Split, joinSegs]
  | cons c cs ih =>
    by_cases hc : c = sep
    · simp only [Split, hc, if_true]
      cases hsp : Split cs sep with
      | nil => exact absurd hsp (Split_ne_nil cs sep)
      | cons seg0 segs =>
        rw [hsp] at ih
        simp [joinSegs, ih]
    · simp only [Split, hc, if_false]
      cases hsp : Split cs sep with
      | nil => exact absurd hsp (Split_ne_nil cs sep)
      | cons seg0 segs =>
        rw [hsp] at ih
        cases segs with
        | nil =>
          simp only [joinSegs] at ih ⊢
          rw [ih]
        | cons seg1 segs =>
          simp only [joinSegs] at ih ⊢
          rw [← ih]
          simp

theorem getPath_nil_map (q : List GoString) : getPath q [] = none := by
  cases q with
  | nil => rfl
  | cons k q =>
    cases q with
    | nil => rfl
    | cons k2 q => simp [getPath, mapGet]

theorem getPath_congr_head (k : GoString) (q : List GoString) (m m2 : ConfigMap)
    (h : mapGet k m2 = mapGet k m) : getPath (k :: q) m2 = getPath (k :: q) m := by
  cases q with
  | nil => simpa [getPath] using h
  | cons k2 q => simp only [getPath, h]

theorem getPath_cons_subMap (k : GoString) (q : List GoString) (m : ConfigMap)
    (hq : q ≠ []) : getPath (k :: q) m = getPath q (subMap k m) := by
  cases q with
  | nil => exact absurd rfl hq
  | cons k2 q =>
    unfold subMap
    simp only [getPath]
    split
    · rfl
    · rw [getPath_nil_map]

theorem subMap_mapSet (k : GoString) (sub m : ConfigMap) :
    subMap k (mapSet k (.map sub) m) = sub := by
  unfold subMap
  rw [mapGet_mapSet_self]

/-- One level of `kvToMap` on a key `s/rest` whose first segment is not bound to a scalar:
the rest of the key is inserted into the map under `s`, which is then bound to `s`. -/
theorem kvToMap_cons_step (s rest v : GoString) (m : ConfigMap) (hs : IsSegment s)
    (hrest : ∃ c t, rest = c :: t ∧ c ≠ '/')
    (hm : ∀ w, mapGet s m ≠ some (.str w)) :
    kvToMap (s ++ '/' :: rest) v m =
      match kvToMap rest v (subMap s m) with
      | .ok sub2 => .ok (mapSet s (.map sub2) m)
      | .error e => .error e := by
  obtain ⟨c, t, hct, hc⟩ := hrest
  have hlen : (s ++ '/' :: rest).length = (s.length + rest.length) + 1 := by
    simp; omega
  have hne : s ++ '/' :: rest ≠ [] := by simp
  have e : kvToMap (s ++ '/' :: rest) v m =
      kvToMapAux ((s.length + rest.length) + 1) (s ++ '/' :: rest) v m := by
    unfold kvToMap; rw [hlen]
  have key : ∀ sub, kvToMapAux (s.length + rest.length) rest v sub = kvToMap rest v sub :=
    fun sub => (kvToMapAux_fuel (s.length + rest.length) rest v sub (by omega)).1
  have htrim : TrimPrefix rest ['/'] = rest := by
    rw [hct]; exact TrimPrefix_slash_cons c t hc
  rw [e, kvToMapAux]
  simp only [hne, if_false, SplitN2_append s rest '/' hs.2, htrim]
  cases hg : mapGet s m with
  | none =>
    have : subMap s m = [] := by unfold subMap; rw [hg]
    rw [this]
    simp only [Option.isNone_none, if_true, mapGet_mapSet_self, mapSet_mapSet, key]
  | some x =>
    cases x with
    | str w => exact absurd hg (hm w)
    | map sub =>
      have : subMap s m = sub := by unfold subMap; rw [hg]
      rw [this]
      simp only [Option.isNone_some, Bool.false_eq_true, if_false, hg, key]
/-- Inserting the key of the segments `segs` into a map that binds no proper prefix of the
path `segs` to a scalar: `kvToMap` completes, binds the path to the value, leaves every path
that is neither a prefix nor an extension of `segs` as it was, and adds no other scalar. -/
theorem kvToMap_insert (segs : List GoString) : ∀ (v : GoString) (m : ConfigMap),
    segs ≠ [] → (∀ s ∈ segs, IsSegment s) →
    (∀ q w, q ≠ [] → q <+: segs → q ≠ segs → getPath q m ≠ some (.str w)) →
    ∃ m2, kvToMap (joinSegs '/' segs) v m = .ok m2 ∧
      getPath segs m2 = some (.str v) ∧
      (∀ q, ¬ q <+: segs → ¬ segs <+: q → getPath q m2 = getPath q m) ∧
      (∀ q w, getPath q m2 = some (.str w) → q = segs ∨ getPath q m = some (.str w)) := by
  induction segs with
  | nil => intro v m h; exact absurd rfl h
  | cons s ss ih =>
    intro v m _ hseg hadm
    have hs : IsSegment s := hseg s (by simp)
    cases ss with
    | nil =>
      refine ⟨mapSet s (.str v) m, ?_, ?_, ?_, ?_⟩
      · exact kvToMap_leaf s v m hs.1 hs.2
      · show mapGet s (mapSet s (.str v) m) = _
        exact mapGet_mapSet_self s _ m
      · intro q h1 h2
        cases q with
        | nil => exact absurd (List.nil_prefix) h1
        | cons k q =>
          have hk : k ≠ s := by
            intro e; subst e
            exact h2 ⟨q, rfl⟩
          exact getPath_congr_head k q m _ (mapGet_mapSet_other s k _ m hk)
      · intro q w h
        cases q with
        | nil => simp [getPath] at h
        | cons k q =>
          by_cases hk : k = s
          · subst hk
            cases q with
            | nil => exact Or.inl rfl
            | cons k2 q =>
              simp only [getPath, mapGet_mapSet_self] at h
              exact absurd h (by simp)
          · right
            rw [← getPath_congr_head k q m _ (mapGet_mapSet_other s k _ m hk)]
            exact h
    | cons s2 ss =>
      have hrest : ∀ x ∈ s2 :: ss, IsSegment x := fun x hx => hseg x (by simp [hx])
      have hm : ∀ w, mapGet s m ≠ some (.str w) := fun w =>
        hadm [s] w (by simp) ⟨s2 :: ss, rfl⟩ (by simp)
      obtain ⟨sub2, hk, hget, hframe, hscal⟩ := ih v (subMap s m) (by simp) hrest (by
        intro q w hq hpre hne
        rw [← getPath_cons_subMap s q m hq]
        exact hadm (s :: q) w (by simp) (List.cons_prefix_cons.mpr ⟨rfl, hpre⟩) (by simpa using hne))
      refine ⟨mapSet s (.map sub2) m, ?_, ?_, ?_, ?_⟩
      · show kvToMap (s ++ '/' :: joinSegs '/' (s2 :: ss)) v m = _
        rw [kvToMap_cons_step s _ v m hs (joinSegs_cons_head s2 ss (hrest s2 (by simp))) hm, hk]
      · rw [getPath_cons_subMap s (s2 :: ss) _ (by simp), subMap_mapSet]
        exact hget
      · intro q h1 h2
        cases q with
        | nil => exact absurd (List.nil_prefix) h1
        | cons k q =>
          by_cases hk2 : k = s
          · subst hk2
            have hq : q ≠ [] := by
              intro e; subst e
              exact h1 ⟨s2 :: ss, rfl⟩
            rw [getPath_cons_subMap k q _ hq, subMap_mapSet, getPath_cons_subMap k q m hq]
            exact hframe q (fun h => h1 (List.cons_prefix_cons.mpr ⟨rfl, h⟩))
              (fun h => h2 (List.cons_prefix_cons.mpr ⟨rfl, h⟩))
          · exact getPath_congr_head k q m _ (mapGet_mapSet_other s k _ m hk2)
      · intro q w h
        cases q with
        | nil => simp [getPath] at h
        | cons k q =>
          by_cases hk2 : k = s
          · subst hk2
            cases q with
            | nil =>
              have : getPath [k] (mapSet k (.map sub2) m) = some (.map sub2) :=
                mapGet_mapSet_self k _ m
              rw [this] at h
              exact absurd h (by simp)
            | cons k2 q =>
              rw [getPath_cons_subMap k (k2 :: q) _ (by simp), subMap_mapSet] at h
              rcases hscal (k2 :: q) w h with e | e
              · left; rw [e]
              · right
                rw [getPath_cons_subMap k (k2 :: q) m (by simp)]
                exact e
          · right
            rw [← getPath_congr_head k q m _ (mapGet_mapSet_other s k _ m hk2)]
            exact h

theorem Contains_self (s : GoString) : Contains s s = true :=
  Contains_of_HasPrefix s s (by
    unfold HasPrefix
    rw [List.isPrefixOf_iff_prefix])

/-- A key whose segments are a prefix of the segments of another key occurs inside that
key. -/
theorem Contains_of_segments_prefix (a b : GoString)
    (h : Split b '/' <+: Split a '/') : Contains a b = true := by
  obtain ⟨t, ht⟩ := h
  have ha := joinSegs_Split a '/'
  have hb := joinSegs_Split b '/'
  cases t with
  | nil =>
    rw [List.append_nil] at ht
    rw [ht, ha] at hb
    rw [hb]
    exact Contains_self b
  | cons x t =>
    rw [← ht, joinSegs_append _ _ (Split_ne_nil b '/') (by simp), hb] at ha
    rw [← ha]
    exact Contains_of_HasPrefix _ _ (HasPrefix_append b _)

theorem sinkLeft_perm {α : Type} (less : α → α → Bool) (x : α) (ys : List α) :
    (sinkLeft less x ys).Perm (x :: ys) := by
  induction ys with
  | nil => simp [sinkLeft]
  | cons y ys ih =>
    unfold sinkLeft
    split
    · exact (List.Perm.cons y ih).trans (List.Perm.swap x y ys)
    · exact List.Perm.refl _

theorem foldl_sinkLeft_perm {α : Type} (less : α → α → Bool) (l : List α) :
    ∀ acc : List α, (l.foldl (fun sorted x => sinkLeft less x sorted) acc).Perm (l ++ acc) := by
  induction l with
  | nil => intro acc; simp
  | cons x l ih =>
    intro acc
    simp only [List.foldl_cons]
    refine (ih _).trans ?_
    refine (List.Perm.append_left l (sinkLeft_perm less x acc)).trans ?_
    simp only [List.cons_append]
    exact List.perm_middle

/-- Sorting rearranges the slice. -/
theorem sortSlice_perm {α : Type} (less : α → α → Bool) (l : List α) :
    (sortSlice less l).Perm l := by
  unfold sortSlice
  refine (List.reverse_perm _).trans ?_
  simpa using foldl_sinkLeft_perm less l []

/-- On a slice in which no key occurs inside the key of a pair standing before it, the loop
of `kvPairsAsMap` takes the hierarchical branch for every pair. -/
theorem flattenChoices_none (todo : List KVPair) : ∀ (done : List KVPair) (s : Int),
    s + 1 ≤ done.length →
    (done ++ todo).Pairwise (fun a b => Contains a.Key b.Key = false) →
    flattenChoices done todo s = List.replicate todo.length false := by
  induction todo with
  | nil => intro done s _ _; simp [flattenChoices]
  | cons kv rest ih =>
    intro done s hs hp
    rw [flattenChoices_cons done rest kv s hs]
    have hcond : (if s ≥ 0 then
        match done[s.toNat]? with
        | some prev => Contains prev.Key kv.Key
        | none => false
      else false) = false := by
      by_cases h0 : s ≥ 0
      · have hlt : s.toNat < done.length := by omega
        simp only [h0, if_true, List.getElem?_eq_getElem hlt]
        rw [List.pairwise_append] at hp
        exact hp.2.2 _ (List.getElem_mem hlt) kv (by simp)
      · simp [h0]
    rw [hcond]
    simp only [Bool.false_eq_true, if_false, List.length_cons, List.replicate_succ]
    rw [ih (done ++ [kv]) (s + 1) (by simp; omega) (by simpa using hp)]

/-- Inserting, in order, keys of non-empty segments none of whose segment paths is a prefix
of another's, into a map that binds no proper prefix of any of these paths to a scalar:
every insertion completes, every path is bound to its value at the end, and the paths apart
from all of them are left as they were. -/
theorem insertAll_apart (l : List KVPair) : ∀ (m : ConfigMap),
    (∀ p ∈ l, ∀ seg ∈ Split p.Key '/', seg ≠ []) →
    l.Pairwise (fun a b => ¬ Split a.Key '/' <+: Split b.Key '/' ∧
      ¬ Split b.Key '/' <+: Split a.Key '/') →
    (∀ p ∈ l, ∀ q w, q ≠ [] → q <+: Split p.Key '/' → q ≠ Split p.Key '/' →
      getPath q m ≠ some (.str w)) →
    ∃ m2, insertAll l m = .ok m2 ∧
      (∀ p ∈ l, getPath (Split p.Key '/') m2 = some (.str p.Value)) ∧
      (∀ q, (∀ p ∈ l, ¬ q <+: Split p.Key '/' ∧ ¬ Split p.Key '/' <+: q) →
        getPath q m2 = getPath q m) := by
  induction l with
  | nil =>
    intro m _ _ _
    exact ⟨m, rfl, by simp, fun _ _ => rfl⟩
  | cons kv rest ih =>
    intro m hseg hp hadm
    have hsegs : ∀ s ∈ Split kv.Key '/', IsSegment s := fun s hs =>
      ⟨hseg kv (by simp) s hs, Split_no_sep kv.Key '/' s hs⟩
    obtain ⟨m1, h1, hget1, hframe1, hscal1⟩ :=
      kvToMap_insert (Split kv.Key '/') kv.Value m (Split_ne_nil _ _) hsegs
        (hadm kv (by simp))
    rw [joinSegs_Split] at h1
    rw [List.pairwise_cons] at hp
    obtain ⟨m2, h2, hget2, hframe2⟩ := ih m1 (fun p hp2 => hseg p (by simp [hp2])) hp.2 (by
      intro p hp2 q w hq hpre hne hcontra
      rcases hscal1 q w hcontra with e | e
      · subst e
        exact (hp.1 p hp2).1 hpre
      · exact hadm p (by simp [hp2]) q w hq hpre hne e)
    refine ⟨m2, ?_, ?_, ?_⟩
    · simp only [insertAll, h1, h2]
    · intro p hp2
      rw [List.mem_cons] at hp2
      rcases hp2 with e | e
      · subst e
        rw [hframe2 _ (fun p2 hp3 => hp.1 p2 hp3)]
        exact hget1
      · exact hget2 p e
    · intro q hq
      rw [hframe2 q (fun p hp2 => hq p (by simp [hp2]))]
      exact hframe1 q (hq kv (by simp)).1 (hq kv (by simp)).2

/-- C27. For every list of pairs whose keys consist of non-empty segments separated by `/`
and in which no key is a substring of the key of another pair, `kvPairsAsMap` into an empty
map completes, takes the hierarchical branch for every pair (the slice is left sorted, with
no key rewritten), and the map binds, for each pair, the nested path of the segments of its
key to its value. -/
theorem kvPairsAsMap_apart_keys_preserved (pairs : List KVPair)
    (hseg : ∀ p ∈ pairs, ∀ seg ∈ Split p.Key '/', seg ≠ [])
    (hapart : pairs.Pairwise (fun a b =>
      Contains a.Key b.Key = false ∧ Contains b.Key a.Key = false)) :
    kvPairsChoices pairs = List.replicate pairs.length false ∧
    ∃ m, kvPairsAsMap pairs [] = .ok (sortSlice keyLess pairs, m) ∧
      ∀ p ∈ pairs, hasStrAt (Split p.Key '/') p.Value m = true := by
  have hperm := sortSlice_perm keyLess pairs
  have hsorted : (sortSlice keyLess pairs).Pairwise (fun a b =>
      Contains a.Key b.Key = false ∧ Contains b.Key a.Key = false) :=
    (hperm.pairwise_iff (fun {a b} h => ⟨h.2, h.1⟩)).mpr hapart
  obtain ⟨m, hm, hget, _⟩ := insertAll_apart (sortSlice keyLess pairs) []
    (fun p hp => hseg p (hperm.mem_iff.mp hp))
    (hsorted.imp (fun {a b} h =>
      ⟨fun hpre => by
          have := Contains_of_segments_prefix b.Key a.Key hpre
          rw [h.2] at this
          exact absurd this (by simp),
        fun hpre => by
          have := Contains_of_segments_prefix a.Key b.Key hpre
          rw [h.1] at this
          exact absurd this (by simp)⟩))
    (fun p _ q w _ _ _ => by rw [getPath_nil_map]; simp)
  refine ⟨?_, m, ?_, ?_⟩
  · unfold kvPairsChoices
    rw [flattenChoices_none _ [] (-1) (by simp)
      (by simpa using hsorted.imp (fun {a b} h => h.1)), hperm.length_eq]
  · unfold kvPairsAsMap
    have := kvPairsLoop_stable (sortSlice keyLess pairs) [] (-1) [] m (by simp)
      (by
        unfold SlashKeysApart
        rw [List.nil_append]
        exact hsorted.imp (fun {a b} h _ => h.1))
      hm
    simpa using this
  · intro p hp
    unfold hasStrAt
    rw [hget p (hperm.mem_iff.mpr hp)]
    simp

theorem kvPairsAsMap_apart_keys_preserved_witness :
    kvPairsChoices [KVPair.mk (str "a/b") (str "1"), KVPair.mk (str "a/cc") (str "2"),
        KVPair.mk (str "d") (str "3")] =
      List.replicate [KVPair.mk (str "a/b") (str "1"), KVPair.mk (str "a/cc") (str "2"),
        KVPair.mk (str "d") (str "3")].length false ∧
    ∃ m, kvPairsAsMap [KVPair.mk (str "a/b") (str "1"), KVPair.mk (str "a/cc") (str "2"),
        KVPair.mk (str "d") (str "3")] [] =
        .ok (sortSlice keyLess [KVPair.mk (str "a/b") (str "1"),
          KVPair.mk (str "a/cc") (str "2"), KVPair.mk (str "d") (str "3")], m) ∧
      ∀ p ∈ [KVPair.mk (str "a/b") (str "1"), KVPair.mk (str "a/cc") (str "2"),
          KVPair.mk (str "d") (str "3")],
        hasStrAt (Split p.Key '/') p.Value m = true :=
  kvPairsAsMap_apart_keys_preserved
    [KVPair.mk (str "a/b") (str "1"), KVPair.mk (str "a/cc") (str "2"),
      KVPair.mk (str "d") (str "3")]
    (by decide) (by decide)

/-- On a slice on which the loop takes the flattening branch only for keys without a `/`,
the loop rewrites no key, and its map is the result of inserting the keys in order. -/
theorem kvPairsLoop_of_choices (todo : List KVPair) : ∀ (done : List KVPair) (s : Int)
    (m m2 : ConfigMap),
    s + 1 ≤ done.length →
    (∀ p ∈ List.zip todo (flattenChoices done todo s), p.2 = true → '/' ∉ p.1.Key) →
    insertAll todo m = .ok m2 →
    kvPairsLoop done todo s m = .ok (done ++ todo, m2) := by
  induction todo with
  | nil =>
    intro done s m m2 _ _ h
    simp [insertAll] at h
    simp [kvPairsLoop, h]
  | cons kv rest ih =>
    intro done s m m2 hs hch hins
    rw [flattenChoices_cons done rest kv s hs] at hch
    unfold insertAll at hins
    split at hins
    · rename_i m3 hm3
      rw [kvPairsLoop_cons]
      by_cases hs0 : s ≥ 0
      · have hlt : s.toNat < done.length := by omega
        have hget : (done ++ kv :: rest)[s.toNat]? = some (done[s.toNat]) := by
          rw [List.getElem?_append_left hlt]
          exact List.getElem?_eq_getElem hlt
        have hget2 : done[s.toNat]? = some (done[s.toNat]) := List.getElem?_eq_getElem hlt
        simp only [hs0, if_true, hget]
        simp only [hs0, if_true, hget2] at hch
        cases hc : Contains (done[s.toNat]).Key kv.Key with
        | true =>
          simp only [hc, if_true] at hch
          have hno : '/' ∉ kv.Key := hch (kv, true) (by simp) rfl
          have hkey : ReplaceAll kv.Key '/' '.' = kv.Key := ReplaceAll_of_not_mem _ _ _ hno
          have hkv : ({ kv with Key := ReplaceAll kv.Key '/' '.' } : KVPair) = kv := by
            rw [hkey]
          simp only [hkey, hm3]
          rw [hkv] at hch
          have := ih (done ++ [kv]) s m3 m2 (by simp; omega)
            (fun p hp => hch p (by simp [hp])) hins
          simpa using this
        | false =>
          simp only [hc, Bool.false_eq_true, if_false] at hch
          simp only [hm3]
          have := ih (done ++ [kv]) (s + 1) m3 m2 (by simp; omega)
            (fun p hp => hch p (by simp [hp])) hins
          simpa using this
      · simp only [hs0, if_false, Bool.false_eq_true] at hch
        simp only [hs0, if_false, hm3]
        have := ih (done ++ [kv]) (s + 1) m3 m2 (by simp; omega)
          (fun p hp => hch p (by simp [hp])) hins
        simpa using this
    · exact absurd hins (by simp)

/-- C7, amended. When the first call of `kvPairsAsMap` into an empty map completes, a second
call into a fresh empty map, on the slice as the first call left it, completes with the same
map (and leaves the slice as it is) whenever the first call rewrote no key, and more
generally whenever the second call takes the flattening branch only for keys without a
`/`. -/
theorem rerun_same_of_keys_kept (pairs left : List KVPair) (m1 : ConfigMap)
    (hfirst : kvPairsAsMap pairs [] = .ok (left, m1))
    (hkept : left = sortSlice keyLess pairs ∨ RerunKeepsKeys left = true) :
    kvPairsAsMap left [] = .ok (left, m1) := by
  have hfirst2 := hfirst
  unfold kvPairsAsMap at hfirst2
  obtain ⟨todo2, h1, h2, h3⟩ := kvPairsLoop_ok _ _ _ _ _ _ hfirst2
  simp only [List.nil_append] at h1
  subst h1
  have hdesc : left.Pairwise (fun a b => b.Key.length ≤ a.Key.length) := by
    have hs := sortSlice_descending pairs
    have e1 : (left.map (fun p => p.Key.length)).Pairwise (fun x y => y ≤ x) := by
      rw [h2, List.pairwise_map]; exact hs
    rw [List.pairwise_map] at e1
    exact e1
  have hsort : sortSlice keyLess left = left := sortSlice_of_descending left hdesc
  rcases hkept with hsame | hkeeps
  · unfold kvPairsAsMap
    rw [hsort]
    rw [hsame] at hfirst2 ⊢
    exact hfirst2
  · unfold kvPairsAsMap
    rw [hsort]
    unfold RerunKeepsKeys kvPairsChoices at hkeeps
    rw [hsort, List.all_eq_true] at hkeeps
    have := kvPairsLoop_of_choices left [] (-1) [] m1 (by simp)
      (fun p hp hp2 => by
        have := hkeeps p hp
        simpa [hp2] using this) h3
    simpa using this

theorem rerun_same_of_keys_kept_witness :
    kvPairsAsMap
        [KVPair.mk (str "a/b/c") (str "1"), KVPair.mk (str "a/d/e") (str "2"),
          KVPair.mk (str "a/b") (str "3")] [] =
      .ok ([KVPair.mk (str "a/b/c") (str "1"), KVPair.mk (str "a/d/e") (str "2"),
          KVPair.mk (str "a/b") (str "3")],
        [(str "a", .map [(str "b", .str (str "3")),
          (str "d", .map [(str "e", .str (str "2"))])])]) :=
  rerun_same_of_keys_kept
    [KVPair.mk (str "a/b") (str "3"), KVPair.mk (str "a/b/c") (str "1"),
      KVPair.mk (str "a/d/e") (str "2")]
    [KVPair.mk (str "a/b/c") (str "1"), KVPair.mk (str "a/d/e") (str "2"),
      KVPair.mk (str "a/b") (str "3")]
    [(str "a", .map [(str "b", .str (str "3")),
      (str "d", .map [(str "e", .str (str "2"))])])]
    rfl (Or.inr (by decide))

/-- Two more second runs with the same map: on `a/b`, `a/b/c` the first run rewrites `a/b` to
`a.b` and the second run inserts `a.b` hierarchically, which binds the same top-level key;
on `a/b`, `a/b/c`, `a/d/e`, in the order of the store, no key is rewritten. For neither is the
first condition needed, and the slice of the second has a key with a `/` inside an earlier
key. -/
theorem rerun_same_examples :
    rerunEqual [⟨str "a/b", str "v1"⟩, ⟨str "a/b/c", str "v2"⟩] = true ∧
    RerunKeepsKeys [⟨str "a/b/c", str "v2"⟩, ⟨str "a.b", str "v1"⟩] = true ∧
    rerunEqual [⟨str "a/b", str "3"⟩, ⟨str "a/b/c", str "1"⟩, ⟨str "a/d/e", str "2"⟩] = true ∧
    RerunKeepsKeys [⟨str "a/b/c", str "1"⟩, ⟨str "a/d/e", str "2"⟩, ⟨str "a/b", str "3"⟩]
      = true ∧
    RerunKeepsKeys [⟨str "x/a/b/c", str "1"⟩, ⟨str "a.b.c", str "2"⟩, ⟨str "y/c/d", str "3"⟩,
      ⟨str "c/d", str "4"⟩] = false := by
  decide

end Consul

/-! # Properties of the route registration -/

namespace RouteRegistration

open Consul

theorem wrap64_of_fits (x : Int) (h1 : -(2 ^ 63) ≤ x) (h2 : x ≤ 2 ^ 63 - 1) : wrap64 x = x := by
  unfold wrap64
  omega

/-- What a number of calls of `NextTimeoutValue` leaves of a fresh `ProgressiveTimeout`: only
the current multiplier moves; while it is below the end multiplier it is the start
multiplier plus one step for each call. -/
theorem afterCalls_state (baseTimeout startMultiplier endMultiplier multiplierStep : Int)
    (hstep : 1 ≤ multiplierStep) (hend : startMultiplier < endMultiplier)
    (hfit1 : -(2 ^ 63) ≤ startMultiplier)
    (hfit2 : endMultiplier + multiplierStep - 1 ≤ 2 ^ 63 - 1) (maxValue : Int) (k : Nat) :
    ∃ c : Int,
      afterCalls k
          { baseTimeout := baseTimeout, startMultiplier := startMultiplier,
            endMultiplier := endMultiplier, multiplierStep := multiplierStep,
            currentMultiplierValue := startMultiplier, maxTimeoutValue := maxValue } =
        { baseTimeout := baseTimeout, startMultiplier := startMultiplier,
          endMultiplier := endMultiplier, multiplierStep := multiplierStep,
          currentMultiplierValue := c, maxTimeoutValue := maxValue } ∧
      startMultiplier ≤ c ∧ c < endMultiplier + multiplierStep ∧
      (c < endMultiplier → c = startMultiplier + k * multiplierStep) ∧
      (endMultiplier ≤ c → c ≤ startMultiplier + k * multiplierStep) := by
  induction k with
  | zero =>
    refine ⟨startMultiplier, rfl, le_refl _, by omega, fun _ => by simp, fun _ => by simp⟩
  | succ k ih =>
    obtain ⟨c, hc, h1, h2, h3, h4⟩ := ih
    have hk : ((k + 1 : Nat) : Int) * multiplierStep = k * multiplierStep + multiplierStep := by
      push_cast; ring
    by_cases hge : c ≥ endMultiplier
    · refine ⟨c, ?_, h1, h2, fun h => absurd hge (not_le.mpr h), fun _ => ?_⟩
      · simp only [afterCalls, hc, NextTimeoutValue, hge, if_true]
      · rw [hk]
        have := h4 hge
        omega
    · have hlt : c < endMultiplier := not_le.mp hge
      have hw : wrap64 (c + multiplierStep) = c + multiplierStep :=
        wrap64_of_fits _ (by omega) (by omega)
      refine ⟨c + multiplierStep, ?_, by omega, by omega, fun _ => ?_, fun _ => ?_⟩
      · simp only [afterCalls, hc, NextTimeoutValue, hge, if_false, hw]
      · rw [hk, h3 hlt]; ring
      · rw [hk, h3 hlt]; omega

/-- C21. For `NewProgressiveTimeout(baseTimeout, startMultiplier, endMultiplier,
multiplierStep)` with `endMultiplier > startMultiplier`, `multiplierStep >= 1`,
`baseTimeout >= 0` and no 64-bit overflow (the multipliers that occur and their products with
the base fit an `int64`): the constructor returns, and the call number `k` of
`NextTimeoutValue`, counted from zero since construction or since a `Reset` after any number
`j` of calls, returns `baseTimeout * min(startMultiplier + k * multiplierStep,
endMultiplier)`; consecutive values do not decrease and none exceeds
`endMultiplier * baseTimeout`. -/
theorem nextTimeoutValue_kth (baseTimeout startMultiplier endMultiplier multiplierStep : Int)
    (hend : startMultiplier < endMultiplier) (hstep : 1 ≤ multiplierStep)
    (hbase : 0 ≤ baseTimeout)
    (hfit1 : -(2 ^ 63) ≤ startMultiplier)
    (hfit2 : endMultiplier + multiplierStep - 1 ≤ 2 ^ 63 - 1)
    (hfit3 : -(2 ^ 63) ≤ startMultiplier * baseTimeout)
    (hfit4 : endMultiplier * baseTimeout ≤ 2 ^ 63 - 1) :
    ∃ pt, NewProgressiveTimeout baseTimeout startMultiplier endMultiplier multiplierStep
        = .ok pt ∧
      ∀ j k : Nat,
        nthTimeout k pt =
          baseTimeout * min (startMultiplier + k * multiplierStep) endMultiplier ∧
        nthTimeout k (Reset (afterCalls j pt)) =
          baseTimeout * min (startMultiplier + k * multiplierStep) endMultiplier ∧
        nthTimeout k pt ≤ nthTimeout (k + 1) pt ∧
        nthTimeout k pt ≤ endMultiplier * baseTimeout := by
  have hmax : wrap64 (endMultiplier * baseTimeout) = endMultiplier * baseTimeout :=
    wrap64_of_fits _ (le_trans hfit3 (mul_le_mul_of_nonneg_right (le_of_lt hend) hbase)) hfit4
  have hkth : ∀ k : Nat,
      nthTimeout k
          { baseTimeout := baseTimeout, startMultiplier := startMultiplier,
            endMultiplier := endMultiplier, multiplierStep := multiplierStep,
            currentMultiplierValue := startMultiplier,
            maxTimeoutValue := wrap64 (endMultiplier * baseTimeout) } =
        baseTimeout * min (startMultiplier + k * multiplierStep) endMultiplier := by
    intro k
    obtain ⟨c, hc, h1, _, h3, h4⟩ := afterCalls_state baseTimeout startMultiplier endMultiplier
      multiplierStep hstep hend hfit1 hfit2 (wrap64 (endMultiplier * baseTimeout)) k
    unfold nthTimeout
    rw [hc]
    by_cases hge : c ≥ endMultiplier
    · simp only [NextTimeoutValue, hge, if_true, hmax]
      rw [min_eq_right (le_trans hge (h4 hge))]
      ring
    · have hlt : c < endMultiplier := not_le.mp hge
      simp only [NextTimeoutValue, hge, if_false]
      rw [wrap64_of_fits _
        (le_trans hfit3 (mul_le_mul_of_nonneg_right h1 hbase))
        (le_trans (mul_le_mul_of_nonneg_right (le_of_lt hlt) hbase) hfit4)]
      rw [← h3 hlt, min_eq_left (le_of_lt hlt)]
      ring
  refine ⟨_, if_neg (not_le.mpr hend), ?_⟩
  intro j k
  have hreset : Reset (afterCalls j
      { baseTimeout := baseTimeout, startMultiplier := startMultiplier,
        endMultiplier := endMultiplier, multiplierStep := multiplierStep,
        currentMultiplierValue := startMultiplier,
        maxTimeoutValue := wrap64 (endMultiplier * baseTimeout) }) =
      { baseTimeout := baseTimeout, startMultiplier := startMultiplier,
        endMultiplier := endMultiplier, multiplierStep := multiplierStep,
        currentMultiplierValue := startMultiplier,
        maxTimeoutValue := wrap64 (endMultiplier * baseTimeout) } := by
    obtain ⟨c, hc, _⟩ := afterCalls_state baseTimeout startMultiplier endMultiplier
      multiplierStep hstep hend hfit1 hfit2 (wrap64 (endMultiplier * baseTimeout)) j
    rw [hc]
    rfl
  refine ⟨hkth k, ?_, ?_, ?_⟩
  · rw [hreset]; exact hkth k
  · rw [hkth k, hkth (k + 1)]
    apply mul_le_mul_of_nonneg_left _ hbase
    apply min_le_min _ (le_refl _)
    have : ((k + 1 : Nat) : Int) * multiplierStep = k * multiplierStep + multiplierStep := by
      push_cast; ring
    rw [this]
    omega
  · rw [hkth k, mul_comm endMultiplier baseTimeout]
    exact mul_le_mul_of_nonneg_left (min_le_right _ _) hbase

theorem nextTimeoutValue_kth_witness :
    ∃ pt, NewProgressiveTimeout 1000000000 2 3 1 = .ok pt ∧
      ∀ j k : Nat,
        nthTimeout k pt = 1000000000 * min (2 + (k : Int) * 1) 3 ∧
        nthTimeout k (Reset (afterCalls j pt)) = 1000000000 * min (2 + (k : Int) * 1) 3 ∧
        nthTimeout k pt ≤ nthTimeout (k + 1) pt ∧
        nthTimeout k pt ≤ 3 * 1000000000 :=
  nextTimeoutValue_kth 1000000000 2 3 1 (by decide) (by decide) (by decide) (by decide)
    (by decide) (by decide) (by decide)

/-- The delays of the test of `NextTimeoutValue`: base one second, multipliers from 2 to 3 in
steps of 1 give 2 s, 3 s, 3 s, and 2 s again after `Reset`; an end multiplier that is not
greater than the start multiplier makes the constructor panic. -/
theorem progressiveTimeout_test_values :
    (NewProgressiveTimeout 1000000000 2 3 1).map (fun pt =>
      [nthTimeout 0 pt, nthTimeout 1 pt, nthTimeout 2 pt,
        nthTimeout 0 (Reset (afterCalls 3 pt))])
      = .ok [2000000000, 3000000000, 3000000000, 2000000000] ∧
    NewProgressiveTimeout 1000000000 8 2 1 = .error .loggerPanic :=
  ⟨rfl, rfl⟩

theorem charClass_rmatch_iff (cs : List Char) (x : List Char) :
    (charClass cs).rmatch x ↔ ∃ c ∈ cs, x = [c] := by
  induction cs with
  | nil => simp [charClass]
  | cons c cs ih =>
    have e : charClass (c :: cs) = RegularExpression.char c + charClass cs := rfl
    rw [e, RegularExpression.add_rmatch_iff, RegularExpression.char_rmatch_iff, ih]
    simp

theorem charClass_star_rmatch_iff (cs : List Char) (x : List Char) :
    (charClass cs).star.rmatch x ↔ ∀ c ∈ x, c ∈ cs := by
  rw [RegularExpression.star_rmatch_iff]
  constructor
  · rintro ⟨S, rfl, hS⟩ c hc
    rw [List.mem_flatten] at hc
    obtain ⟨t, ht, hct⟩ := hc
    obtain ⟨d, hd, rfl⟩ := (charClass_rmatch_iff cs t).mp (hS t ht).2
    rw [List.mem_singleton] at hct
    rw [hct]; exact hd
  · intro h
    refine ⟨x.map (fun c => [c]), ?_, ?_⟩
    · clear h
      induction x with
      | nil => rfl
      | cons c x ih =>
        simp only [List.map_cons, List.flatten_cons, List.singleton_append]
        rw [← ih]
    · intro t ht
      rw [List.mem_map] at ht
      obtain ⟨c, hc, rfl⟩ := ht
      exact ⟨by simp, (charClass_rmatch_iff cs [c]).mpr ⟨c, h c hc, rfl⟩⟩

/-- A group of the path pattern: a `/` followed by characters of the class. -/
theorem group_rmatch_iff (cs : List Char) (x : List Char) :
    (RegularExpression.char '/' * (charClass cs).star).rmatch x ↔
      ∃ t, x = '/' :: t ∧ ∀ c ∈ t, c ∈ cs := by
  rw [RegularExpression.mul_rmatch_iff]
  constructor
  · rintro ⟨t, u, rfl, ht, hu⟩
    rw [RegularExpression.char_rmatch_iff] at ht
    subst ht
    exact ⟨u, rfl, (charClass_star_rmatch_iff cs u).mp hu⟩
  · rintro ⟨t, rfl, ht⟩
    exact ⟨['/'], t, rfl, (RegularExpression.char_rmatch_iff '/' ['/']).mpr rfl,
      (charClass_star_rmatch_iff cs t).mpr ht⟩

/-- Every string of `/` and class characters is a run of class characters followed by
groups. -/
theorem groups_of_chars (cs : List Char) (x : List Char)
    (h : ∀ c ∈ x, c = '/' ∨ c ∈ cs) :
    ∃ (p : List Char) (S : List (List Char)), x = p ++ S.flatten ∧ (∀ c ∈ p, c ∈ cs) ∧
      ∀ t ∈ S, ∃ u, t = '/' :: u ∧ ∀ c ∈ u, c ∈ cs := by
  induction x with
  | nil => exact ⟨[], [], rfl, by simp, by simp⟩
  | cons c x ih =>
    obtain ⟨p, S, hx, hp, hS⟩ := ih (fun d hd => h d (by simp [hd]))
    by_cases hc : c = '/'
    · refine ⟨[], (c :: p) :: S, by simp [hx], by simp, ?_⟩
      intro t ht
      rw [List.mem_cons] at ht
      rcases ht with e | e
      · exact ⟨p, by rw [e, hc], hp⟩
      · exact hS t e
    · have hcs : c ∈ cs := (h c (by simp)).resolve_left hc
      refine ⟨c :: p, S, by simp [hx], ?_, hS⟩
      intro d hd
      rw [List.mem_cons] at hd
      rcases hd with e | e
      · rw [e]; exact hcs
      · exact hp d e

/-- The strings that the path pattern matches: a `/` followed by any number of `/` and class
characters. -/
theorem validPath_rmatch_iff (path : List Char) :
    validPath.rmatch path ↔ ∃ t, path = '/' :: t ∧ ∀ c ∈ t, c = '/' ∨ c ∈ pathChars := by
  unfold validPath
  simp only []
  rw [RegularExpression.mul_rmatch_iff]
  constructor
  · rintro ⟨t, u, rfl, ht, hu⟩
    obtain ⟨t2, rfl, ht2⟩ := (group_rmatch_iff pathChars t).mp ht
    rw [RegularExpression.star_rmatch_iff] at hu
    obtain ⟨S, rfl, hS⟩ := hu
    refine ⟨t2 ++ S.flatten, rfl, ?_⟩
    intro c hc
    rw [List.mem_append] at hc
    rcases hc with hc | hc
    · exact Or.inr (ht2 c hc)
    · rw [List.mem_flatten] at hc
      obtain ⟨g, hg, hcg⟩ := hc
      obtain ⟨u, rfl, hu⟩ := (group_rmatch_iff pathChars g).mp (hS g hg).2
      rw [List.mem_cons] at hcg
      rcases hcg with e | e
      · exact Or.inl e
      · exact Or.inr (hu c e)
  · rintro ⟨t, rfl, ht⟩
    obtain ⟨p, S, hx, hp, hS⟩ := groups_of_chars pathChars t ht
    refine ⟨'/' :: p, S.flatten, by simp [hx], (group_rmatch_iff pathChars _).mpr ⟨p, rfl, hp⟩, ?_⟩
    rw [RegularExpression.star_rmatch_iff]
    refine ⟨S, rfl, ?_⟩
    intro g hg
    obtain ⟨u, hu, hcu⟩ := hS g hg
    exact ⟨by rw [hu]; simp, (group_rmatch_iff pathChars g).mpr ⟨u, hu, hcu⟩⟩

/-- The path pattern matches exactly the described paths. -/
theorem validPath_rmatch_eq (path : GoString) :
    validPath.rmatch path = pathAsDescribed path := by
  rw [Bool.eq_iff_iff, validPath_rmatch_iff]
  unfold pathAsDescribed HasPrefix
  cases path with
  | nil => simp
  | cons c t =>
    simp only [List.isEmpty_cons, Bool.not_false, Bool.true_and, Bool.and_eq_true,
      List.all_eq_true, Bool.or_eq_true, beq_iff_eq, decide_eq_true_eq,
      List.mem_cons, List.cons.injEq]
    constructor
    · rintro ⟨t2, ⟨rfl, rfl⟩, h⟩
      refine ⟨by simp [List.isPrefixOf], ?_⟩
      intro d hd
      rcases hd with e | e
      · exact Or.inl e
      · exact h d e
    · rintro ⟨h1, h2⟩
      have hc : c = '/' := by
        simp [List.isPrefixOf] at h1
        exact h1.symm
      exact ⟨t, ⟨hc, rfl⟩, fun d hd => h2 d (Or.inr hd)⟩

theorem routeTypeByGateway_known (gateway : GoString) :
    routeTypeByGateway gateway ∈ [Public, Private, Internal, Mesh] := by
  unfold routeTypeByGateway
  split
  · simp
  · split
    · simp
    · split <;> simp

theorem toInternalRouteType_known (t : RouteType) (h : t ∈ [Public, Private, Internal, Mesh]) :
    toInternalRouteType t = .ok t := by
  simp only [List.mem_cons, List.mem_singleton, List.not_mem_nil, or_false] at h
  rcases h with h | h | h | h <;> subst h <;> rfl

theorem transformBorderGatewayRoute_known (r : Route)
    (h : r.RouteType ∈ [Public, Private, Internal, Mesh]) :
    transformBorderGatewayRoute r =
      .ok [(PublicGatewayService,
          [utils.Route.mk r.From r.To (isCommonGatewayRouteAllowed r PublicGatewayService)
            r.Timeout r.RouteType r.Gateway r.VirtualService r.Hosts]),
        (PrivateGatewayService,
          [utils.Route.mk r.From r.To (isCommonGatewayRouteAllowed r PrivateGatewayService)
            r.Timeout r.RouteType r.Gateway r.VirtualService r.Hosts]),
        (InternalGatewayService,
          [utils.Route.mk r.From r.To (isCommonGatewayRouteAllowed r InternalGatewayService)
            r.Timeout r.RouteType r.Gateway r.VirtualService r.Hosts])] := by
  simp only [transformBorderGatewayRoute, createCommonGatewayRoute,
    toInternalRouteType_known r.RouteType h]

/-- The transformation of a route completes exactly when its effective type is one of the
four keys of the map of rules. -/
theorem transformRoute_completes (microserviceName : GoString) (r : Route) :
    completes (transformRoute microserviceName r) =
      decide (effectiveRouteType r ∈ [Public, Private, Internal, Mesh]) := by
  have hr1 : (if r.RouteType = [] then { r with RouteType := routeTypeByGateway r.Gateway }
      else r).RouteType = effectiveRouteType r := by
    unfold effectiveRouteType
    split <;> rfl
  unfold transformRoute
  simp only []
  generalize (if r.RouteType = [] then { r with RouteType := routeTypeByGateway r.Gateway }
      else r) = r1 at hr1
  rw [← hr1]
  cases hrule : transformationRules microserviceName r1.RouteType with
  | none =>
    have hn : r1.RouteType ∉ [Public, Private, Internal, Mesh] := by
      intro hmem
      simp only [List.mem_cons, List.mem_singleton, List.not_mem_nil, or_false] at hmem
      have e1 : transformationRules microserviceName Public =
        some transformBorderGatewayRoute := rfl
      have e2 : transformationRules microserviceName Private =
        some transformBorderGatewayRoute := rfl
      have e3 : transformationRules microserviceName Internal =
        some transformBorderGatewayRoute := rfl
      have e4 : transformationRules microserviceName Mesh =
        some (transformMeshRoute microserviceName) := rfl
      rcases hmem with h | h | h | h <;> rw [h] at hrule
      · rw [e1] at hrule; exact absurd hrule (by simp)
      · rw [e2] at hrule; exact absurd hrule (by simp)
      · rw [e3] at hrule; exact absurd hrule (by simp)
      · rw [e4] at hrule; exact absurd hrule (by simp)
    simp [completes, hn]
  | some rule =>
    have hk : r1.RouteType ∈ [Public, Private, Internal, Mesh] := by
      unfold transformationRules at hrule
      by_cases h1 : r1.RouteType = Public
      · simp [h1]
      · by_cases h2 : r1.RouteType = Private
        · simp [h2]
        · by_cases h3 : r1.RouteType = Internal
          · simp [h3]
          · by_cases h4 : r1.RouteType = Mesh
            · simp [h4]
            · simp [h1, h2, h3, h4] at hrule
    have hok : ∃ a, rule r1 = .ok a := by
      unfold transformationRules at hrule
      split at hrule
      · injection hrule with e
        rw [← e, transformBorderGatewayRoute_known r1 hk]
        exact ⟨_, rfl⟩
      · split at hrule
        · injection hrule with e
          rw [← e, transformBorderGatewayRoute_known r1 hk]
          exact ⟨_, rfl⟩
        · split at hrule
          · injection hrule with e
            rw [← e, transformBorderGatewayRoute_known r1 hk]
            exact ⟨_, rfl⟩
          · split at hrule
            · injection hrule with e
              rw [← e]
              simp only [transformMeshRoute, toInternalRouteType_known r1.RouteType hk]
              exact ⟨_, rfl⟩
            · exact absurd hrule (by simp)
    obtain ⟨a, ha⟩ := hok
    simp only [ha, completes]
    exact (decide_eq_true hk).symm

theorem validate_completes (r : Route) :
    completes (validate r) =
      (validPath.rmatch r.From && validPath.rmatch r.To &&
        !decide (r.RouteType = [] ∧ r.Gateway = []) &&
        !decide (r.RouteType ≠ [] ∧ r.Gateway ≠ [] ∧
          r.RouteType ≠ routeTypeByGateway r.Gateway)) := by
  unfold validate assertPath validateEffectiveRouteType
  cases validPath.rmatch r.From <;> cases validPath.rmatch r.To <;>
    by_cases ht : r.RouteType = [] <;> by_cases hg : r.Gateway = [] <;>
    simp only [completes, ht, hg, if_true, if_false, Bool.false_eq_true, and_self, and_true,
      true_and, false_and, and_false, not_true_eq_false, not_false_eq_true, ne_eq,
      decide_True, decide_False, Bool.not_true, Bool.not_false, Bool.and_self,
      Bool.and_true, Bool.and_false, Bool.true_and, Bool.false_and]
  by_cases hc : r.RouteType = routeTypeByGateway r.Gateway <;> simp [hc]

/-- One route is taken without a panic exactly when it is not one of the rejected routes. -/
theorem route_completes (microserviceName : GoString) (r : Route) :
    (completes (validate r) && completes (transformRoute microserviceName r)) =
      !rejectedAsDescribed r := by
  rw [validate_completes, transformRoute_completes]
  unfold rejectedAsDescribed effectiveRouteType
  have hk := routeTypeByGateway_known r.Gateway
  cases validPath.rmatch r.From <;> cases validPath.rmatch r.To <;>
    by_cases ht : r.RouteType = [] <;> by_cases hg : r.Gateway = [] <;>
    by_cases hc : r.RouteType = routeTypeByGateway r.Gateway <;>
    by_cases hm : r.RouteType ∈ [Public, Private, Internal, Mesh] <;>
    simp [ht, hg, hc, hm, hk] <;> simp_all

/-- C23. `WithRoutes` returns without a panic exactly when none of its routes is rejected,
where a route is rejected when its `From` or `To` fails the path pattern, or `RouteType` and
`Gateway` are both empty, or both are set and `RouteType` differs from the type implied by
`Gateway`, or `RouteType` is set and is none of the four known types. -/
theorem WithRoutes_rejects_iff (microserviceName : GoString)
    (routesByGatewayMap : utils.RoutesByGateway) (routes : List Route) :
    completes (WithRoutes microserviceName routesByGatewayMap routes) =
      routes.all (fun r => !rejectedAsDescribed r) := by
  induction routes generalizing routesByGatewayMap with
  | nil => rfl
  | cons r rest ih =>
    rw [List.all_cons, ← route_completes microserviceName r]
    unfold WithRoutes
    cases hv : validate r with
    | error f => simp [completes]
    | ok u =>
      cases ht : transformRoute microserviceName r with
      | error f => simp [completes]
      | ok actual =>
        simp only [completes, Bool.true_and]
        exact ih _

theorem routesGet_routesSet_self (gw : GoString) (rs : List utils.Route)
    (m : utils.RoutesByGateway) : routesGet gw (routesSet gw rs m) = some rs := by
  induction m with
  | nil => simp [routesSet, routesGet]
  | cons e m ih =>
    obtain ⟨k, v⟩ := e
    by_cases h : k = gw
    · simp [routesSet, routesGet, h]
    · simp [routesSet, routesGet, h, ih]

theorem routesGet_routesSet_other (gw gw2 : GoString) (rs : List utils.Route)
    (m : utils.RoutesByGateway) (h : gw2 ≠ gw) :
    routesGet gw2 (routesSet gw rs m) = routesGet gw2 m := by
  induction m with
  | nil => simp [routesSet, routesGet, Ne.symm h]
  | cons e m ih =>
    obtain ⟨k, v⟩ := e
    by_cases h1 : k = gw
    · subst h1
      simp [routesSet, routesGet, Ne.symm h]
    · by_cases h2 : k = gw2
      · subst h2
        simp [routesSet, routesGet, h]
      · simp [routesSet, routesGet, h1, h2, ih]

theorem addRoutes_cons (held rest : utils.RoutesByGateway) (gw : GoString)
    (rs : List utils.Route) :
    addRoutes held ((gw, rs) :: rest) =
      addRoutes (routesSet gw ((routesGet gw held).getD [] ++ rs) held) rest := by
  rw [addRoutes]
  cases routesGet gw held <;> simp

/-- The type of the route that `transformRoute` hands to the rule is the effective type, and
the other fields are those of the route. -/
theorem transformRoute_border (microserviceName : GoString) (r : Route)
    (htype : effectiveRouteType r ∈ [Public, Private, Internal]) :
    transformRoute microserviceName r =
      transformBorderGatewayRoute { r with RouteType := effectiveRouteType r } := by
  have hr1 : (if r.RouteType = [] then { r with RouteType := routeTypeByGateway r.Gateway }
      else r) = { r with RouteType := effectiveRouteType r } := by
    unfold effectiveRouteType
    split <;> rfl
  unfold transformRoute
  simp only [hr1]
  have e1 : transformationRules microserviceName Public =
    some transformBorderGatewayRoute := rfl
  have e2 : transformationRules microserviceName Private =
    some transformBorderGatewayRoute := rfl
  have e3 : transformationRules microserviceName Internal =
    some transformBorderGatewayRoute := rfl
  simp only [List.mem_cons, List.mem_singleton, List.not_mem_nil, or_false] at htype
  rcases htype with h | h | h <;> rw [h]
  · rw [e1]
  · rw [e2]
  · rw [e3]

/-- The effect of `WithRoutes` for one route that passes `validate`, is not forbidden, and has
the effective type Public, Private or Internal: the list of each of the three well-known
gateways is its list from before (empty when the gateway had none) with exactly one derived
route appended, allowed in the public gateway exactly for the type Public, in the private
gateway exactly for the types Public and Private, and in the internal gateway always; the
lists of all other gateways are as before. -/
theorem WithRoutes_one_border_route (microserviceName : GoString)
    (held : utils.RoutesByGateway) (r : Route)
    (hvalid : validate r = .ok ()) (hallowed : r.Forbidden = false)
    (htype : effectiveRouteType r ∈ [Public, Private, Internal]) :
    ∃ m, WithRoutes microserviceName held [r] = .ok m ∧
      routesGet PublicGatewayService m =
        some ((routesGet PublicGatewayService held).getD [] ++
          [utils.Route.mk r.From r.To (decide (effectiveRouteType r = Public)) r.Timeout
            (effectiveRouteType r) r.Gateway r.VirtualService r.Hosts]) ∧
      routesGet PrivateGatewayService m =
        some ((routesGet PrivateGatewayService held).getD [] ++
          [utils.Route.mk r.From r.To
            (decide (effectiveRouteType r = Public ∨ effectiveRouteType r = Private))
            r.Timeout (effectiveRouteType r) r.Gateway r.VirtualService r.Hosts]) ∧
      routesGet InternalGatewayService m =
        some ((routesGet InternalGatewayService held).getD [] ++
          [utils.Route.mk r.From r.To true r.Timeout
            (effectiveRouteType r) r.Gateway r.VirtualService r.Hosts]) ∧
      ∀ gw, gw ≠ PublicGatewayService → gw ≠ PrivateGatewayService →
        gw ≠ InternalGatewayService → routesGet gw m = routesGet gw held := by
  have hknown : effectiveRouteType r ∈ [Public, Private, Internal, Mesh] := by
    simp only [List.mem_cons, List.mem_singleton, List.not_mem_nil, or_false] at htype ⊢
    rcases htype with h | h | h <;> simp [h]
  have hpp : PrivateGatewayService ≠ PublicGatewayService := by decide
  have hip : InternalGatewayService ≠ PublicGatewayService := by decide
  have hiv : InternalGatewayService ≠ PrivateGatewayService := by decide
  have hflags :
      isCommonGatewayRouteAllowed { r with RouteType := effectiveRouteType r }
          PublicGatewayService = decide (effectiveRouteType r = Public) ∧
      isCommonGatewayRouteAllowed { r with RouteType := effectiveRouteType r }
          PrivateGatewayService =
        decide (effectiveRouteType r = Public ∨ effectiveRouteType r = Private) ∧
      isCommonGatewayRouteAllowed { r with RouteType := effectiveRouteType r }
          InternalGatewayService = true := by
    have n1 : Private ≠ Public := by decide
    have n2 : Internal ≠ Public := by decide
    have n3 : Internal ≠ Private := by decide
    simp only [List.mem_cons, List.mem_singleton, List.not_mem_nil, or_false] at htype
    unfold isCommonGatewayRouteAllowed
    rcases htype with h | h | h <;> simp only [hallowed, h] <;> decide
  have hnil : ∀ h : utils.RoutesByGateway, addRoutes h [] = h := fun _ => rfl
  have hborder := transformBorderGatewayRoute_known
    { r with RouteType := effectiveRouteType r } hknown
  simp only [WithRoutes, hvalid, transformRoute_border microserviceName r htype,
    hborder, addRoutes_cons, hnil]
  refine ⟨_, rfl, ?_, ?_, ?_, ?_⟩
  · rw [routesGet_routesSet_other _ _ _ _ (Ne.symm hip),
      routesGet_routesSet_other _ _ _ _ (Ne.symm hpp), routesGet_routesSet_self, hflags.1]
  · rw [routesGet_routesSet_other _ _ _ _ (Ne.symm hiv), routesGet_routesSet_self,
      routesGet_routesSet_other _ _ _ _ hpp, hflags.2.1]
  · rw [routesGet_routesSet_self, routesGet_routesSet_other _ _ _ _ hiv,
      routesGet_routesSet_other _ _ _ _ hip, hflags.2.2]
  · intro gw h1 h2 h3
    rw [routesGet_routesSet_other _ _ _ _ h3, routesGet_routesSet_other _ _ _ _ h2,
      routesGet_routesSet_other _ _ _ _ h1]

/-- A route with described paths and a consistent type passes `validate`. -/
theorem validate_of_described (r : Route) (h1 : pathAsDescribed r.From = true)
    (h2 : pathAsDescribed r.To = true) (h3 : validateEffectiveRouteType r = .ok ()) :
    validate r = .ok () := by
  unfold validate assertPath
  rw [validPath_rmatch_eq, validPath_rmatch_eq, h1, h2]
  exact h3

theorem WithRoutes_append (microserviceName : GoString) (first rest : List Route) :
    ∀ held : utils.RoutesByGateway,
    WithRoutes microserviceName held (first ++ rest) =
      match WithRoutes microserviceName held first with
      | .ok m => WithRoutes microserviceName m rest
      | .error f => .error f := by
  induction first with
  | nil => intro held; rfl
  | cons r first ih =>
    intro held
    simp only [List.cons_append, WithRoutes]
    cases validate r with
    | error f => rfl
    | ok u =>
      cases transformRoute microserviceName r with
      | error f => rfl
      | ok actual => exact ih _

/-- The routes that a gateway holds stay, in order, at the front of its list when the
transformed routes of one route are added. -/
theorem addRoutes_keeps (actual : utils.RoutesByGateway) :
    ∀ (held : utils.RoutesByGateway) (gw : GoString) (l : List utils.Route),
    routesGet gw held = some l →
    ∃ added, routesGet gw (addRoutes held actual) = some (l ++ added) := by
  induction actual with
  | nil =>
    intro held gw l h
    exact ⟨[], by simpa [addRoutes] using h⟩
  | cons e actual ih =>
    intro held gw l h
    obtain ⟨g, rs⟩ := e
    rw [addRoutes_cons]
    by_cases hg : gw = g
    · subst hg
      obtain ⟨added, ha⟩ := ih (routesSet gw ((routesGet gw held).getD [] ++ rs) held) gw
        (l ++ rs) (by rw [routesGet_routesSet_self, h]; rfl)
      exact ⟨rs ++ added, by rw [ha, List.append_assoc]⟩
    · exact ih _ gw l (by rw [routesGet_routesSet_other _ _ _ _ hg]; exact h)

/-- The routes that a gateway holds stay, in order, at the front of its list through a call
of `WithRoutes`. -/
theorem WithRoutes_keeps (microserviceName : GoString) (routes : List Route) :
    ∀ (held final : utils.RoutesByGateway) (gw : GoString) (l : List utils.Route),
    WithRoutes microserviceName held routes = .ok final → routesGet gw held = some l →
    ∃ added, routesGet gw final = some (l ++ added) := by
  induction routes with
  | nil =>
    intro held final gw l h hl
    simp only [WithRoutes, Except.ok.injEq] at h
    subst h
    exact ⟨[], by simpa using hl⟩
  | cons r routes ih =>
    intro held final gw l h hl
    simp only [WithRoutes] at h
    cases hv : validate r with
    | error f => simp [hv] at h
    | ok u =>
      cases ht : transformRoute microserviceName r with
      | error f => simp [hv, ht] at h
      | ok actual =>
        simp only [hv, ht] at h
        obtain ⟨a1, h1⟩ := addRoutes_keeps actual held gw l hl
        obtain ⟨a2, h2⟩ := ih _ final gw (l ++ a1) h h1
        exact ⟨a1 ++ a2, by rw [h2, List.append_assoc]⟩

/-- A route that passes `validate` and is transformed is added, and the call goes on with
the other routes. -/
theorem WithRoutes_cons_ok (microserviceName : GoString) (held actual : utils.RoutesByGateway)
    (r : Route) (rest : List Route) (hv : validate r = .ok ())
    (ht : transformRoute microserviceName r = .ok actual) :
    WithRoutes microserviceName held (r :: rest) =
      WithRoutes microserviceName (addRoutes held actual) rest := by
  simp only [WithRoutes, hv, ht]

/-- C22. In a call of `WithRoutes` with the routes `pre`, `r`, `post`, where the routes of
`pre` are taken without a panic and leave the map `before`, and `r` passes `validate`, is not
forbidden, and has the effective type Public, Private or Internal: the route `r` is taken
too, and in the map `after` that it leaves the list of each of the public, the private and
the internal gateway is its list in `before` (empty when the gateway had none) with exactly
one derived route appended; the derived route is allowed in the public gateway exactly for
the type Public, in the private gateway exactly for the types Public and Private, and in the
internal gateway always; the lists of all other gateways are as in `before`. The call goes on
from `after` with the routes of `post`, and when it returns, the lists of `after` stand, in
order, at the front of the final lists. -/
theorem WithRoutes_border_route (microserviceName : GoString)
    (held before : utils.RoutesByGateway) (pre post : List Route) (r : Route)
    (hpre : WithRoutes microserviceName held pre = .ok before)
    (hvalid : validate r = .ok ()) (hallowed : r.Forbidden = false)
    (htype : effectiveRouteType r ∈ [Public, Private, Internal]) :
    ∃ after, WithRoutes microserviceName held (pre ++ [r]) = .ok after ∧
      routesGet PublicGatewayService after =
        some ((routesGet PublicGatewayService before).getD [] ++
          [utils.Route.mk r.From r.To (decide (effectiveRouteType r = Public)) r.Timeout
            (effectiveRouteType r) r.Gateway r.VirtualService r.Hosts]) ∧
      routesGet PrivateGatewayService after =
        some ((routesGet PrivateGatewayService before).getD [] ++
          [utils.Route.mk r.From r.To
            (decide (effectiveRouteType r = Public ∨ effectiveRouteType r = Private))
            r.Timeout (effectiveRouteType r) r.Gateway r.VirtualService r.Hosts]) ∧
      routesGet InternalGatewayService after =
        some ((routesGet InternalGatewayService before).getD [] ++
          [utils.Route.mk r.From r.To true r.Timeout
            (effectiveRouteType r) r.Gateway r.VirtualService r.Hosts]) ∧
      (∀ gw, gw ≠ PublicGatewayService → gw ≠ PrivateGatewayService →
        gw ≠ InternalGatewayService → routesGet gw after = routesGet gw before) ∧
      WithRoutes microserviceName held (pre ++ r :: post) =
        WithRoutes microserviceName after post ∧
      ∀ final, WithRoutes microserviceName held (pre ++ r :: post) = .ok final →
        ∀ gw l, routesGet gw after = some l →
          ∃ added, routesGet gw final = some (l ++ added) := by
  obtain ⟨after, hone, h1, h2, h3, h4⟩ :=
    WithRoutes_one_border_route microserviceName before r hvalid hallowed htype
  have hto : WithRoutes microserviceName held (pre ++ [r]) = .ok after := by
    rw [WithRoutes_append, hpre]
    exact hone
  have hgo : WithRoutes microserviceName held (pre ++ r :: post) =
      WithRoutes microserviceName after post := by
    rw [show pre ++ r :: post = (pre ++ [r]) ++ post by simp, WithRoutes_append, hto]
  refine ⟨after, hto, h1, h2, h3, h4, hgo, ?_⟩
  intro final hfinal gw l hl
  rw [hgo] at hfinal
  exact WithRoutes_keeps microserviceName post after final gw l hfinal hl

theorem WithRoutes_border_route_witness :
    ∃ after, WithRoutes (str "ms") [] ([publicTestRoute] ++ [privateTestRoute]) = .ok after ∧
      routesGet PublicGatewayService after =
        some ((routesGet PublicGatewayService
            (addRoutes []
              [(PublicGatewayService,
                  [utils.Route.mk (str "/v1") (str "/v1/test") true 0 Public [] [] []]),
                (PrivateGatewayService,
                  [utils.Route.mk (str "/v1") (str "/v1/test") true 0 Public [] [] []]),
                (InternalGatewayService,
                  [utils.Route.mk (str "/v1") (str "/v1/test") true 0 Public [] [] []])])).getD
              [] ++
          [utils.Route.mk privateTestRoute.From privateTestRoute.To
            (decide (effectiveRouteType privateTestRoute = Public)) privateTestRoute.Timeout
            (effectiveRouteType privateTestRoute) privateTestRoute.Gateway
            privateTestRoute.VirtualService privateTestRoute.Hosts]) ∧
      routesGet PrivateGatewayService after =
        some ((routesGet PrivateGatewayService
            (addRoutes []
              [(PublicGatewayService,
                  [utils.Route.mk (str "/v1") (str "/v1/test") true 0 Public [] [] []]),
                (PrivateGatewayService,
                  [utils.Route.mk (str "/v1") (str "/v1/test") true 0 Public [] [] []]),
                (InternalGatewayService,
                  [utils.Route.mk (str "/v1") (str "/v1/test") true 0 Public [] [] []])])).getD
              [] ++
          [utils.Route.mk privateTestRoute.From privateTestRoute.To
            (decide (effectiveRouteType privateTestRoute = Public ∨
              effectiveRouteType privateTestRoute = Private))
            privateTestRoute.Timeout (effectiveRouteType privateTestRoute)
            privateTestRoute.Gateway privateTestRoute.VirtualService privateTestRoute.Hosts]) ∧
      routesGet InternalGatewayService after =
        some ((routesGet InternalGatewayService
            (addRoutes []
              [(PublicGatewayService,
                  [utils.Route.mk (str "/v1") (str "/v1/test") true 0 Public [] [] []]),
                (PrivateGatewayService,
                  [utils.Route.mk (str "/v1") (str "/v1/test") true 0 Public [] [] []]),
                (InternalGatewayService,
                  [utils.Route.mk (str "/v1") (str "/v1/test") true 0 Public [] [] []])])).getD
              [] ++
          [utils.Route.mk privateTestRoute.From privateTestRoute.To true
            privateTestRoute.Timeout (effectiveRouteType privateTestRoute)
            privateTestRoute.Gateway privateTestRoute.VirtualService privateTestRoute.Hosts]) ∧
      (∀ gw, gw ≠ PublicGatewayService → gw ≠ PrivateGatewayService →
        gw ≠ InternalGatewayService →
        routesGet gw after =
          routesGet gw
            (addRoutes []
              [(PublicGatewayService,
                  [utils.Route.mk (str "/v1") (str "/v1/test") true 0 Public [] [] []]),
                (PrivateGatewayService,
                  [utils.Route.mk (str "/v1") (str "/v1/test") true 0 Public [] [] []]),
                (InternalGatewayService,
                  [utils.Route.mk (str "/v1") (str "/v1/test") true 0 Public [] [] []])])) ∧
      WithRoutes (str "ms") [] ([publicTestRoute] ++ privateTestRoute :: [internalTestRoute]) =
        WithRoutes (str "ms") after [internalTestRoute] ∧
      ∀ final,
        WithRoutes (str "ms") []
            ([publicTestRoute] ++ privateTestRoute :: [internalTestRoute]) = .ok final →
        ∀ gw l, routesGet gw after = some l →
          ∃ added, routesGet gw final = some (l ++ added) :=
  WithRoutes_border_route (str "ms") [] _ [publicTestRoute] [internalTestRoute]
    privateTestRoute
    (WithRoutes_cons_ok (str "ms") [] _ publicTestRoute []
      (validate_of_described publicTestRoute (by decide) (by decide) rfl) rfl)
    (validate_of_described privateTestRoute (by decide) (by decide) rfl) rfl (by decide)

/-- C24. `assertPath` returns for exactly the described paths, those that are not empty,
start with `/` and consist only of `/` and of the characters `a-z`, `A-Z`, `0-9`, `{`, `}`,
`*`, `_` and `-`; on every other string it panics. -/
theorem assertPath_accepts_described (path : GoString) :
    assertPath path = if pathAsDescribed path then .ok () else .error .loggerPanic := by
  unfold assertPath
  rw [validPath_rmatch_eq]

/-- The paths of the test of `assertPath`. -/
theorem assertPath_test_paths :
    validPath.rmatch (str "/api") = true ∧ validPath.rmatch (str "/api/*") = true ∧
    validPath.rmatch (str "/a/\x7btenantId\x7d/rollback") = true ∧
    validPath.rmatch (str "api/") = false ∧ validPath.rmatch (str "/api/:tenantId") = false := by
  simp only [validPath_rmatch_eq]
  decide

/-- C25, counterexample. With none of `deployment.version`, `openshift.service.name` and
`microservice.name` set, `GetDeploymentVersion` returns an error. -/
theorem deploymentVersion_error_without_name :
    utils.GetDeploymentVersion [] [] [] =
      .ok ([], some (str "microservice.name wasn't set up")) :=
  rfl

/-- C25, amended. `GetDeploymentVersion` returns the configured `deployment.version` when it
is set, whatever `openshift.service.name` and `microservice.name` are (set or not). When it
is not set and `microservice.name` is set to `name`: for an `openshift.service.name` of the
form `name`, `-`, `v` it returns `v`, and for an `openshift.service.name` that is not set or
equal to `name` it returns the empty version, each time with no error. -/
theorem deploymentVersion_cases (deploymentVersion openshiftServiceName microserviceName
    name v : GoString) (hset : deploymentVersion ≠ []) (hname : name ≠ []) :
    utils.GetDeploymentVersion deploymentVersion openshiftServiceName microserviceName =
      .ok (deploymentVersion, none) ∧
    utils.GetDeploymentVersion [] (name ++ '-' :: v) name = .ok (v, none) ∧
    utils.GetDeploymentVersion [] [] name = .ok ([], none) ∧
    utils.GetDeploymentVersion [] name name = .ok ([], none) := by
  refine ⟨?_, ?_, ?_, ?_⟩
  · simp [utils.GetDeploymentVersion, hset]
  · have hne : name ≠ name ++ '-' :: v := by
      intro e
      have := congrArg List.length e
      simp at this
    have hdrop : (name ++ '-' :: v).drop (name.length + 1) = v := by
      rw [show name ++ '-' :: v = (name ++ ['-']) ++ v by simp]
      exact List.drop_left' (by simp)
    simp [utils.GetDeploymentVersion, utils.GetMicroserviceName, hname, hne, hdrop]
  · simp [utils.GetDeploymentVersion, utils.GetMicroserviceName, hname]
  · simp [utils.GetDeploymentVersion, utils.GetMicroserviceName, hname]

theorem deploymentVersion_cases_witness :
    utils.GetDeploymentVersion (str "v2") [] [] = .ok (str "v2", none) ∧
    utils.GetDeploymentVersion [] (str "test-servicev11" ++ '-' :: str "v3")
      (str "test-servicev11") = .ok (str "v3", none) ∧
    utils.GetDeploymentVersion [] [] (str "test-servicev11") = .ok ([], none) ∧
    utils.GetDeploymentVersion [] (str "test-servicev11") (str "test-servicev11") =
      .ok ([], none) :=
  deploymentVersion_cases (str "v2") [] [] (str "test-servicev11") (str "v3")
    (by decide) (by decide)

/-- C30, failing input. With `deployment.version` not set, `openshift.service.name` set to
`svc` and `microservice.name` set to `service`, the slice of `openshift.service.name` from
index 8 is out of range and `GetDeploymentVersion` panics. -/
theorem deploymentVersion_slice_out_of_range :
    utils.GetDeploymentVersion [] (str "svc") (str "service") =
      .error .sliceBoundsOutOfRange :=
  rfl

end RouteRegistration
